import Mathlib

/-!
Verification development for the p4ckagemerger repository
(`src/qp4ckagemerger.py`).

The program diffs two directory trees (a version-controlled "source"
package and a freshly built "target" package) into a Qt item-model tree,
classifies every file as Unchanged / Add / Delete / Edit, and replays the
classification as Perforce operations (`cmds.edit` / `cmds.add` /
`cmds.delete`) plus local file copies.

Shallow embedding conventions:
* Filesystem paths are lists of path segments (`Pth`); `os.path.join` is
  list append, `os.path.split(p)[1]` is the last segment, `os.path.relpath`
  under a root is prefix stripping.  (Python's `str.startswith` used by
  `isSourceFile` is a string-prefix test; on segment lists it coincides
  with the segment-prefix test whenever the two roots are disjoint, which
  the theorems below hypothesise.)
* File contents are either decodable text (a `String`) or binary; reading
  a binary file as text raises `UnicodeDecodeError`, which `isIdentical`
  catches.  Reading a directory or a missing file raises an `OSError`,
  which nothing in the program catches.
* Uncaught Python exceptions are modelled with `Except`-style error
  results; a raised exception carries no value.
-/

namespace P4ckageMerger

/-- A filesystem path, as its list of segments. -/
abbrev Pth := List String

/-- Contents of a file on disk: either text decodable with the default
codec, or binary content whose `read()` raises `UnicodeDecodeError`. -/
inductive Content where
  | text (s : String)
  | binary
deriving DecidableEq, Repr

/-- One filesystem object: a regular file, a directory with its listing
(in the order `os.listdir` yields it), or anything else (the branch
`addDirectoryItem` logs and skips). -/
inductive FSNode where
  | file (content : Content)
  | dir (entries : List (String × FSNode))
  | other
deriving Repr

/-- The world the program runs against: the two package root paths and
what the filesystem holds at each root (`none` = nothing at that path). -/
structure World where
  src : Pth
  tgt : Pth
  srcObj : Option FSNode
  tgtObj : Option FSNode
deriving Repr

/-- Segment-wise prefix test (Boolean). -/
def prefixSeg : Pth → Pth → Bool
  | [], _ => true
  | _ :: _, [] => false
  | r :: rs, p :: ps => r = p && prefixSeg rs ps

/-- `stripRoot root p = some rel` iff `p = root ++ rel`. -/
def stripRoot : Pth → Pth → Option Pth
  | [], p => some p
  | _ :: _, [] => none
  | r :: rs, p :: ps => if r = p then stripRoot rs ps else none

/-- First entry of a directory listing with the given name
(real directory listings have unique names). -/
def lookupName (es : List (String × FSNode)) (s : String) : Option FSNode :=
  (es.find? (fun e => e.1 = s)).map (fun e => e.2)

/-- Resolve a relative path inside a filesystem object. -/
def lookupRel : Option FSNode → Pth → Option FSNode
  | obj, [] => obj
  | some (.dir es), s :: rest => lookupRel (lookupName es s) rest
  | _, _ :: _ => none

/-- What the OS holds at an absolute path.  The program only ever queries
paths of the form `root ++ rel` for one of the two roots; paths under
neither root resolve to nothing. -/
def pathLookup (w : World) (p : Pth) : Option FSNode :=
  match stripRoot w.src p with
  | some rel => lookupRel w.srcObj rel
  | none =>
    match stripRoot w.tgt p with
    | some rel => lookupRel w.tgtObj rel
    | none => none

/-- `os.path.exists`. -/
def exists? (w : World) (p : Pth) : Bool :=
  (pathLookup w p).isSome

/-- `os.path.isfile`. -/
def isfile (w : World) (p : Pth) : Bool :=
  match pathLookup w p with
  | some (.file _) => true
  | _ => false

/-- `os.path.isdir`. -/
def isdir (w : World) (p : Pth) : Bool :=
  match pathLookup w p with
  | some (.dir _) => true
  | _ => false

/-- `open(p, 'r')`: succeeds only on an existing regular file
(missing paths and directories raise an uncaught `OSError`). -/
def openFile (w : World) (p : Pth) : Option Content :=
  match pathLookup w p with
  | some (.file c) => some c
  | _ => none

/-- `QFileStatus`: the four file classifications. -/
inductive QFileStatus where
  | Unchanged
  | Add
  | Delete
  | Edit
deriving DecidableEq, Repr

/-- A character of `QP4ckageMerger.__escapechars__`, i.e.
`chr(1) .. chr(31)` (`range(1, 32)`). -/
def escapeChar (c : Char) : Bool :=
  1 ≤ c.toNat && c.toNat ≤ 31

/-- `QP4ckageMerger.removeEscapeChars` (the Python-3 branch):
`string.translate(str.maketrans('', '', cls.__escapechars__))`, which
deletes every character with code point 1–31. -/
def removeEscapeChars (s : String) : String :=
  String.mk (s.toList.filter (fun c => !(escapeChar c)))

/-- `QP4ckageMerger.isIdentical`.  `.error ()` models an uncaught
exception (`OSError` from opening a missing path or a directory); the
`UnicodeDecodeError` raised by `read()` on binary content is caught and
yields `false`. -/
def isIdentical (w : World) (sourcePath targetPath : Pth) : Except Unit Bool :=
  match openFile w sourcePath, openFile w targetPath with
  | some source, some target =>
    match source, target with
    | .text s, .text t => .ok (removeEscapeChars s == removeEscapeChars t)
    | _, _ => .ok false
  | _, _ => .error ()

/-- `QDepotItem.evaluateFileStatus`. -/
def evaluateFileStatus (w : World) (sourcePath targetPath : Pth) :
    Except Unit QFileStatus :=
  if exists? w sourcePath then
    if exists? w targetPath then
      match isIdentical w sourcePath targetPath with
      | .ok true => .ok .Unchanged
      | .ok false => .ok .Edit
      | .error e => .error e
    else
      .ok .Delete
  else
    .ok .Add

/-- A path that holds either nothing or a regular file (the setting of the
spec's §4.3 state-space table; directories and special files make `open`
raise instead). -/
def fileOrMissing (w : World) (p : Pth) : Prop :=
  pathLookup w p = none ∨ ∃ c, pathLookup w p = some (.file c)

theorem openFile_of_fileOrMissing {w : World} {p : Pth}
    (h : fileOrMissing w p) (hex : exists? w p = true) :
    ∃ c, openFile w p = some c := by
  rcases h with h | ⟨c, h⟩
  · simp [exists?, h] at hex
  · exact ⟨c, by simp [openFile, h]⟩

/-- C1: `evaluateFileStatus` returns `Add` when the source path does not
exist; `Delete` when the source exists and the target does not;
`Unchanged` when both exist and the contents compare identical; `Edit`
when both exist and the contents compare different; and (for paths that
are files or missing) no other outcome is possible. -/
theorem claim1_evaluateFileStatus_complete (w : World) (sourcePath targetPath : Pth)
    (hs : fileOrMissing w sourcePath) (ht : fileOrMissing w targetPath) :
    (exists? w sourcePath = false →
      evaluateFileStatus w sourcePath targetPath = .ok .Add) ∧
    (exists? w sourcePath = true → exists? w targetPath = false →
      evaluateFileStatus w sourcePath targetPath = .ok .Delete) ∧
    (exists? w sourcePath = true → exists? w targetPath = true →
      isIdentical w sourcePath targetPath = .ok true →
      evaluateFileStatus w sourcePath targetPath = .ok .Unchanged) ∧
    (exists? w sourcePath = true → exists? w targetPath = true →
      isIdentical w sourcePath targetPath = .ok false →
      evaluateFileStatus w sourcePath targetPath = .ok .Edit) ∧
    (∃ st, evaluateFileStatus w sourcePath targetPath = .ok st) := by
  refine ⟨?_, ?_, ?_, ?_, ?_⟩
  · intro h; simp [evaluateFileStatus, h]
  · intro h1 h2; simp [evaluateFileStatus, h1, h2]
  · intro h1 h2 h3; simp [evaluateFileStatus, h1, h2, h3]
  · intro h1 h2 h3; simp [evaluateFileStatus, h1, h2, h3]
  · by_cases h1 : exists? w sourcePath
    · by_cases h2 : exists? w targetPath
      · obtain ⟨cs, hcs⟩ := openFile_of_fileOrMissing hs h1
        obtain ⟨ct, hct⟩ := openFile_of_fileOrMissing ht h2
        have : ∃ b, isIdentical w sourcePath targetPath = .ok b := by
          simp only [isIdentical, hcs, hct]
          cases cs <;> cases ct <;> exact ⟨_, rfl⟩
        obtain ⟨b, hb⟩ := this
        cases b
        · exact ⟨.Edit, by simp [evaluateFileStatus, h1, h2, hb]⟩
        · exact ⟨.Unchanged, by simp [evaluateFileStatus, h1, h2, hb]⟩
      · exact ⟨.Delete, by simp [evaluateFileStatus, h1, eq_false_of_ne_true h2]⟩
    · exact ⟨.Add, by simp [evaluateFileStatus, eq_false_of_ne_true h1]⟩

/-- A tiny concrete world: source root `s` holding file `a` (text `x`),
target root `t` holding file `a` (text `y`). -/
def wEx1 : World :=
  ⟨["s"], ["t"],
    some (.dir [("a", .file (.text "x"))]),
    some (.dir [("a", .file (.text "y"))])⟩

/-- Witness for C1 at a concrete input: both files exist with different
contents, so the status is `Edit`. -/
theorem claim1_witness :
    evaluateFileStatus wEx1 ["s", "a"] ["t", "a"] = .ok .Edit :=
  (claim1_evaluateFileStatus_complete wEx1 ["s", "a"] ["t", "a"]
    (.inr ⟨.text "x", rfl⟩) (.inr ⟨.text "y", rfl⟩)).2.2.2.1 rfl rfl rfl

/-- C3: for every pair of existing files, `isIdentical` is true iff the
two contents are equal after removing every control character U+0001
through U+001F from both; undecodable (binary) content yields `false`
rather than an exception. -/
theorem claim3_isIdentical_spec (w : World) (sourcePath targetPath : Pth)
    (ca cb : Content)
    (hs : pathLookup w sourcePath = some (.file ca))
    (ht : pathLookup w targetPath = some (.file cb)) :
    (∀ sa sb, ca = .text sa → cb = .text sb →
      (isIdentical w sourcePath targetPath = .ok true ↔
        removeEscapeChars sa = removeEscapeChars sb)) ∧
    ((ca = .binary ∨ cb = .binary) →
      isIdentical w sourcePath targetPath = .ok false) := by
  constructor
  · intro sa sb hca hcb
    subst hca; subst hcb
    simp [isIdentical, openFile, hs, ht]
  · intro h
    rcases h with h | h <;> subst h
    · simp [isIdentical, openFile, hs, ht]
    · simp [isIdentical, openFile, hs, ht]

/-- A world whose two files differ only by a control character
(U+0001). -/
def wEx3 : World :=
  ⟨["s"], ["t"],
    some (.dir [("a", .file (.text "x\x01"))]),
    some (.dir [("a", .file (.text "x"))])⟩

/-- Witness for C3 at a concrete input: contents differing only by the
control character U+0001 compare identical. -/
theorem claim3_witness :
    isIdentical wEx3 ["s", "a"] ["t", "a"] = .ok true :=
  ((claim3_isIdentical_spec wEx3 ["s", "a"] ["t", "a"]
      (.text "x\x01") (.text "x") rfl rfl).1
    "x\x01" "x" rfl rfl).mpr (by decide)

/-! ## The Qt item-model tree

`QStandardItemModel` rows are modelled as a forest of `Node`s.  A node is
either a folder row (a bare `QStandardItem`, here `plain`) or a
`QDepotItem` carrying its source path, target path and status.  A
`QDepotItem`'s displayed text is the file name component of its source
path.  Object identity of Qt items is modelled by tree position (a list
of child indices); `appendRow` only ever adds children at the end, so
positions of existing items are stable. -/

/-- The payload distinguishing a folder row from a `QDepotItem`. -/
inductive NodeKind where
  | plain
  | depot (sourcePath targetPath : Pth) (status : QFileStatus)
deriving DecidableEq, Repr

/-- One `QStandardItem` of the model with its child rows. -/
inductive Node where
  | mk (text : String) (kind : NodeKind) (children : List Node)
deriving Repr

def Node.text : Node → String
  | .mk t _ _ => t

def Node.kind : Node → NodeKind
  | .mk _ k _ => k

def Node.children : Node → List Node
  | .mk _ _ cs => cs

/-- The item model: its list of top-level items. -/
abbrev Model := List Node

/-- A position in the model: child indices from the invisible root
(the first index selects the top-level item). -/
abbrev Pos := List Nat

/-- The descendant of a node at a relative position. -/
def Node.getAt : Node → Pos → Option Node
  | n, [] => some n
  | n, i :: rest =>
    match n.children.get? i with
    | some c => c.getAt rest
    | none => none

/-- `appendRow`: append a new child under the descendant at `pos`. -/
def Node.appendAt : Node → Pos → Node → Option Node
  | .mk t k cs, [], c => some (.mk t k (cs ++ [c]))
  | .mk t k cs, i :: rest, c =>
    match cs.get? i with
    | some ci =>
      match ci.appendAt rest c with
      | some ci' => some (.mk t k (cs.set i ci'))
      | none => none
    | none => none

/-- The item of the model at a position. -/
def getAtM (m : Model) : Pos → Option Node
  | [] => none
  | i :: rest =>
    match m.get? i with
    | some n => n.getAt rest
    | none => none

/-- `appendRow` on the item at a position of the model. -/
def appendAtM (m : Model) (pos : Pos) (c : Node) : Option Model :=
  match pos with
  | [] => none
  | i :: rest =>
    match m.get? i with
    | some n =>
      match n.appendAt rest c with
      | some n' => some (m.set i n')
      | none => none
    | none => none

/-- The linear scan of `findChildByName`: first row whose text matches,
with its row index. -/
def findIdxByText : List Node → String → Option (Nat × Node)
  | [], _ => none
  | c :: cs, name =>
    if c.text = name then some (0, c)
    else
      match findIdxByText cs name with
      | some (i, x) => some (i + 1, x)
      | none => none

/-- `QP4ckageMerger.findChildByName`: `rows[0]` of the children of
`parent` whose text equals `name`, or `None`. -/
def findChildByName (parent : Node) (name : String) : Option (Nat × Node) :=
  findIdxByText parent.children name

/-- `QP4ckageMerger.topLevelItem`: `topLevelItems()[0]`; `none` models the
`IndexError` raised on an empty model. -/
def topLevelItem (m : Model) : Option Node :=
  m.get? 0

/-- The `while` loop of `findChildByPath`: pop a segment and replace the
current item by `findChildByName(item, name)`.  When the current item has
become `None` and a segment remains, the call `findChildByName(None, …)`
raises `AttributeError` (`.error ()`). -/
def resolveAux : Option (Node × Pos) → Pth → Except Unit (Option (Node × Pos))
  | cur, [] => .ok cur
  | none, _ :: _ => .error ()
  | some (n, pos), name :: rest =>
    match findChildByName n name with
    | some (i, c) => resolveAux (some (c, pos ++ [i])) rest
    | none => resolveAux none rest

/-- `QP4ckageMerger.findChildByPath`.  The empty segment list models the
path `'.'` (which returns the top-level item). -/
def findChildByPath (m : Model) (path : Pth) : Except Unit (Option (Node × Pos)) :=
  match topLevelItem m with
  | none => .error ()
  | some top =>
    if path.isEmpty then .ok (some (top, [0]))
    else resolveAux (some (top, [0])) path

/-- Clean one-segment-at-a-time first-match resolution (the behaviour the
spec describes), used to state what `findChildByPath` actually does. -/
def resolveChain (n : Node) : Pth → Option Node
  | [] => some n
  | s :: rest =>
    match findChildByName n s with
    | some (_, c) => resolveChain c rest
    | none => none

theorem resolveAux_none_err (rest : Pth) (h : rest ≠ []) :
    resolveAux none rest = .error () := by
  cases rest with
  | nil => exact absurd rfl h
  | cons a l => rfl

theorem resolveAux_spec (n : Node) (pos : Pos) (path : Pth) (hne : path ≠ []) :
    (resolveChain n path.dropLast = none →
      resolveAux (some (n, pos)) path = .error ()) ∧
    (∀ p, resolveChain n path.dropLast = some p →
      findChildByName p (path.getLast hne) = none →
      resolveAux (some (n, pos)) path = .ok none) ∧
    (∀ p i c, resolveChain n path.dropLast = some p →
      findChildByName p (path.getLast hne) = some (i, c) →
      ∃ pos', resolveAux (some (n, pos)) path = .ok (some (c, pos'))) := by
  induction path generalizing n pos with
  | nil => exact absurd rfl hne
  | cons a rest ih =>
    by_cases hr : rest = []
    · subst hr
      refine ⟨?_, ?_, ?_⟩
      · intro h; simp [resolveChain] at h
      · intro p hp hfind
        simp [List.dropLast, resolveChain] at hp
        subst hp
        simp [List.getLast] at hfind
        simp [resolveAux, hfind]
      · intro p i c hp hfind
        simp [List.dropLast, resolveChain] at hp
        subst hp
        simp [List.getLast] at hfind
        exact ⟨pos ++ [i], by simp [resolveAux, hfind]⟩
    · have hdl : (a :: rest).dropLast = a :: rest.dropLast :=
        List.dropLast_cons_of_ne_nil hr
      have hgl : (a :: rest).getLast hne = rest.getLast hr :=
        List.getLast_cons hr
      refine ⟨?_, ?_, ?_⟩
      · intro h
        rw [hdl] at h
        simp only [resolveChain] at h
        match hfc : findChildByName n a with
        | some (i, c) =>
          rw [hfc] at h
          simp only [resolveAux, hfc]
          exact (ih c (pos ++ [i]) hr).1 h
        | none =>
          simp only [resolveAux, hfc]
          exact resolveAux_none_err rest hr
      · intro p hp hfind
        rw [hdl] at hp
        simp only [resolveChain] at hp
        rw [hgl] at hfind
        match hfc : findChildByName n a with
        | some (i, c) =>
          rw [hfc] at hp
          simp only [resolveAux, hfc]
          exact (ih c (pos ++ [i]) hr).2.1 p hp hfind
        | none => rw [hfc] at hp; exact absurd hp (by simp)
      · intro p i c hp hfind
        rw [hdl] at hp
        simp only [resolveChain] at hp
        rw [hgl] at hfind
        match hfc : findChildByName n a with
        | some (j, d) =>
          rw [hfc] at hp
          simp only [resolveAux, hfc]
          exact (ih d (pos ++ [j]) hr).2.2 p i c hp hfind
        | none => rw [hfc] at hp; exact absurd hp (by simp)

/-- C8 (amended): for a non-empty relative path, `findChildByPath` walks
the tree from the top-level item one segment at a time by linear scan;
it returns `None` when only the final segment has no matching child, it
returns the matched node when every segment matches — but when a missing
segment is followed by further segments it raises (`findChildByName` is
called on `None`), rather than returning none. -/
theorem claim8_findChildByPath_chain (m : Model) (top : Node) (path : Pth)
    (htop : topLevelItem m = some top) (hne : path ≠ []) :
    (resolveChain top path.dropLast = none →
      findChildByPath m path = .error ()) ∧
    (∀ p, resolveChain top path.dropLast = some p →
      findChildByName p (path.getLast hne) = none →
      findChildByPath m path = .ok none) ∧
    (∀ p i c, resolveChain top path.dropLast = some p →
      findChildByName p (path.getLast hne) = some (i, c) →
      ∃ pos', findChildByPath m path = .ok (some (c, pos'))) := by
  have hspec := resolveAux_spec top [0] path hne
  have hpe : path.isEmpty = false := by
    cases path with
    | nil => exact absurd rfl hne
    | cons a l => rfl
  refine ⟨?_, ?_, ?_⟩
  · intro h
    simp only [findChildByPath, htop, hpe, Bool.false_eq_true, if_false]
    exact hspec.1 h
  · intro p hp hfind
    simp only [findChildByPath, htop, hpe, Bool.false_eq_true, if_false]
    exact hspec.2.1 p hp hfind
  · intro p i c hp hfind
    simp only [findChildByPath, htop, hpe, Bool.false_eq_true, if_false]
    exact hspec.2.2 p i c hp hfind

/-- A model with a single childless top-level item. -/
def mEx8 : Model := [Node.mk "root" .plain []]

/-- C8 counterexample: on a path whose missing segment is followed by a
further segment, `findChildByPath` raises (AttributeError on `None`)
instead of returning none, refuting the claim as stated. -/
theorem claim8_counterexample :
    findChildByPath mEx8 ["a", "b"] = .error () := rfl

/-- A model whose top item has a child `a` with a child `b`. -/
def mEx8b : Model :=
  [Node.mk "root" .plain [Node.mk "a" .plain [Node.mk "b" .plain []]]]

/-- Witness for the amended C8 at a concrete input: a fully matching
path resolves to the matched node. -/
theorem claim8_witness :
    ∃ pos', findChildByPath mEx8b ["a", "b"] =
      .ok (some (Node.mk "b" .plain [], pos')) :=
  (claim8_findChildByPath_chain mEx8b (Node.mk "root" .plain
      [Node.mk "a" .plain [Node.mk "b" .plain []]])
    ["a", "b"] rfl (by simp)).2.2
    (Node.mk "a" .plain [Node.mk "b" .plain []]) 0
    (Node.mk "b" .plain []) rfl rfl

/-! ## Tree construction (`diff`, `addFileItem`, `addDirectoryItem`)

`addDirectoryItem` is split into its two halves: `dirStep` (locate the
directory's item, creating it under `parent` when absent) and
`addEntries` (the `os.listdir` loop).  The recursive
`addDirectoryItem(filePath, parent=item)` call of the loop is the
composition of the two.  A directory walk carries the listing of the
walked directory (`FSNode.dir` entries) alongside its absolute path; the
`os.path.isfile` / `os.path.isdir` test on a listed entry is the entry's
own kind. -/

/-- `os.path.split(p)[1]`. -/
def filename (p : Pth) : String :=
  p.getLast?.getD ""

/-- `QP4ckageMerger.isSourceFile`: `filePath.startswith(sourceDirectory)`
(segment-wise; equivalent for disjoint roots). -/
def isSourceFile (w : World) (p : Pth) : Bool :=
  prefixSeg w.src p

/-- `os.path.relpath(p, root)` when `root` is a prefix of `p` (the only
case the program exercises; `relpath` would otherwise produce `..`
segments, which no run under disjoint roots reaches). -/
def relpathSeg (p root : Pth) : Pth :=
  match stripRoot root p with
  | some rel => rel
  | none => p

/-- `QP4ckageMerger.makePathRelative`. -/
def makePathRelative (w : World) (filePath : Pth) : Pth :=
  if isSourceFile w filePath then relpathSeg filePath w.src
  else relpathSeg filePath w.tgt

/-- Result of a mutation on the item model: normal return, or an
uncaught exception (the model keeps the rows already added). -/
inductive BuildRes where
  | ok (model : Model)
  | exn (model : Model)
deriving Repr

def BuildRes.model : BuildRes → Model
  | .ok m => m
  | .exn m => m

/-- `QP4ckageMerger.addFileItem`.  A raised exception can come from
`findChildByPath` (missing intermediate segment), from
`evaluateFileStatus` (comparing against a directory or special file), or
from `parent.appendRow` when `parent` is `None`. -/
def addFileItem (w : World) (filePath : Pth) (parent : Option Pos) (m : Model) :
    BuildRes :=
  let relativePath := makePathRelative w filePath
  match findChildByPath m relativePath with
  | .error _ => .exn m
  | .ok (some _) => .ok m
  | .ok none =>
    let sourcePath := if isSourceFile w filePath then filePath
      else w.src ++ relativePath
    let targetPath := if isSourceFile w filePath then w.tgt ++ relativePath
      else filePath
    match evaluateFileStatus w sourcePath targetPath with
    | .error _ => .exn m
    | .ok status =>
      match parent with
      | none => .exn m
      | some pos =>
        match appendAtM m pos
            (.mk (filename sourcePath) (.depot sourcePath targetPath status) []) with
        | some m' => .ok m'
        | none => .exn m

/-- The first half of `QP4ckageMerger.addDirectoryItem`: find the item
for this directory's relative path, or create a new folder item under
`parent`; returns the item's position (`.error` models an exception). -/
def dirStep (w : World) (directory : Pth) (parent : Option Pos) (m : Model) :
    Except Model (Model × Pos) :=
  let relativePath := makePathRelative w directory
  match findChildByPath m relativePath with
  | .error _ => .error m
  | .ok (some (_, pos)) => .ok (m, pos)
  | .ok none =>
    match parent with
    | none => .error m
    | some ppos =>
      match getAtM m ppos with
      | some pn =>
        match appendAtM m ppos (.mk (filename directory) .plain []) with
        | some m' => .ok (m', ppos ++ [pn.children.length])
        | none => .error m
      | none => .error m

/-- The `os.listdir` loop of `addDirectoryItem`: plain files that do not
end in `.pyc` go through `addFileItem`, sub-directories recurse
(`dirStep` + this loop), anything else is logged and skipped. -/
def addEntries (w : World) (directory : Pth) :
    List (String × FSNode) → Pos → Model → BuildRes
  | [], _, m => .ok m
  | (name, fsn) :: rest, itemPos, m =>
    let filePath := directory ++ [name]
    match fsn with
    | .file _ =>
      if name.endsWith ".pyc" then addEntries w directory rest itemPos m
      else
        match addFileItem w filePath (some itemPos) m with
        | .ok m' => addEntries w directory rest itemPos m'
        | .exn m' => .exn m'
    | .dir es =>
      match dirStep w filePath (some itemPos) m with
      | .error m' => .exn m'
      | .ok (m', childPos) =>
        match addEntries w filePath es childPos m' with
        | .ok m'' => addEntries w directory rest itemPos m''
        | .exn m'' => .exn m''
    | .other => addEntries w directory rest itemPos m

/-- `QP4ckageMerger.addDirectoryItem`. -/
def addDirectoryItem (w : World) (directory : Pth)
    (entries : List (String × FSNode)) (parent : Option Pos) (m : Model) :
    BuildRes :=
  match dirStep w directory parent m with
  | .error m' => .exn m'
  | .ok (m', itemPos) => addEntries w directory entries itemPos m'

/-- `QP4ckageMerger.diff`: reject unless both roots are existing
directories; otherwise reset the model, append the top-level folder item
named after the source root, then walk the source root and the target
root. -/
def diff (w : World) (m : Model) : BuildRes :=
  match pathLookup w w.src, pathLookup w w.tgt with
  | some (.dir srcEs), some (.dir tgtEs) =>
    let m1 : Model := [.mk (filename w.src) .plain []]
    match addDirectoryItem w w.src srcEs none m1 with
    | .exn m2 => .exn m2
    | .ok m2 => addDirectoryItem w w.tgt tgtEs none m2
  | _, _ => .ok m

/-- C9: if either root is not an existing directory at diff time, `diff`
is rejected up front: the existing item model is returned unchanged (it
is only reset after both roots pass the directory check). -/
theorem claim9_diff_guard (w : World) (m : Model)
    (h : isdir w w.src = false ∨ isdir w w.tgt = false) :
    diff w m = .ok m := by
  unfold diff
  cases hs : pathLookup w w.src with
  | none => cases ht : pathLookup w w.tgt <;> simp
  | some ns =>
    cases ht : pathLookup w w.tgt with
    | none => cases ns <;> simp
    | some nt =>
      cases ns with
      | file c => cases nt <;> simp
      | other => cases nt <;> simp
      | dir es =>
        cases nt with
        | file c => simp
        | other => simp
        | dir es2 =>
          exfalso
          rcases h with h | h
          · rw [isdir, hs] at h; simp at h
          · rw [isdir, ht] at h; simp at h

/-- A world whose source root does not exist. -/
def wEx9 : World := ⟨["s"], ["t"], none, some (.dir [])⟩

/-- Witness for C9 at a concrete input: with a missing source root,
`diff` leaves a pre-existing model untouched. -/
theorem claim9_witness : diff wEx9 mEx8 = .ok mEx8 :=
  claim9_diff_guard wEx9 mEx8 (.inl rfl)

/-! ## The breadth-first walk -/

mutual
/-- Size of a node (for termination of the queue-based walk). -/
def Node.size : Node → Nat
  | .mk _ _ cs => 1 + sizeListN cs
/-- Total size of a list of nodes. -/
def sizeListN : List Node → Nat
  | [] => 0
  | c :: cs => Node.size c + sizeListN cs
end

theorem sizeListN_append (a b : List Node) :
    sizeListN (a ++ b) = sizeListN a + sizeListN b := by
  induction a with
  | nil => simp [sizeListN]
  | cons c cs ih => simp [sizeListN, ih]; omega

theorem sizeListN_children_lt (n : Node) :
    sizeListN n.children < Node.size n := by
  cases n with
  | mk t k cs => simp [Node.size, Node.children]

/-- The queue loop of `QP4ckageMerger.walk`: pop an item from the front,
yield it, extend the queue with its children. -/
def walkAux : List Node → List Node
  | [] => []
  | n :: rest => n :: walkAux (rest ++ n.children)
termination_by q => sizeListN q
decreasing_by
  have h := sizeListN_children_lt c
  simp [sizeListN_append, sizeListN]
  omega

/-- `QP4ckageMerger.walk`: the queue starts from the (first) top-level
item; `none` models the `IndexError` on an empty model. -/
def walkM (m : Model) : Option (List Node) :=
  (topLevelItem m).map (fun top => walkAux [top])

theorem sizeListN_flatMap_le (l : List Node) :
    sizeListN (l.flatMap Node.children) ≤ sizeListN l := by
  induction l with
  | nil => simp [sizeListN]
  | cons c cs ih =>
    have hc := sizeListN_children_lt c
    simp only [List.flatMap_cons, sizeListN_append, sizeListN]
    omega

/-- Level-by-level breadth-first order, used to state what the queue
walk produces. -/
def bfsLevels (q : List Node) : List Node :=
  match q with
  | [] => []
  | a :: l => (a :: l) ++ bfsLevels ((a :: l).flatMap Node.children)
termination_by sizeListN q
decreasing_by
  have h1 := sizeListN_children_lt c
  have h2 := sizeListN_flatMap_le cs
  simp only [List.flatMap_cons, sizeListN_append, sizeListN]
  omega

/-! ## Commit -/

/-- Operations observable during a commit: the three Perforce calls and
the two local filesystem actions. -/
inductive P4Op where
  | edit (path : Pth)
  | add (path : Pth)
  | delete (path : Pth)
  | copy (source target : Pth)
  | makeDirs (path : Pth)
deriving DecidableEq, Repr

/-- Replace the first entry with a given name. -/
def replaceName (es : List (String × FSNode)) (s : String) (n : FSNode) :
    List (String × FSNode) :=
  match es with
  | [] => []
  | e :: rest => if e.1 = s then (s, n) :: rest else e :: replaceName rest s n

/-- Remove the first entry with a given name. -/
def eraseName : List (String × FSNode) → String → List (String × FSNode)
  | [], _ => []
  | e :: rest, s => if e.1 = s then rest else e :: eraseName rest s

/-- Write a file at a relative path inside a directory listing
(`shutil.copy`'s destination side): overwrites an existing file or
creates a new entry; fails (uncaught `OSError`) if a directory or
special file is in the way or a parent directory is missing. -/
def writeEntries : List (String × FSNode) → Pth → Content →
    Option (List (String × FSNode))
  | _, [], _ => none
  | es, [s], c =>
    match lookupName es s with
    | none => some (es ++ [(s, .file c)])
    | some (.file _) => some (replaceName es s (.file c))
    | some _ => none
  | es, s :: rest, c =>
    match lookupName es s with
    | some (.dir ces) =>
      match writeEntries ces rest c with
      | some ces' => some (replaceName es s (.dir ces'))
      | none => none
    | _ => none

/-- A chain of fresh nested directories. -/
def freshDirs : Pth → List (String × FSNode)
  | [] => []
  | s :: rest => [(s, .dir (freshDirs rest))]

/-- `os.makedirs` under `makeDirectories`'s try/except: create every
missing ancestor; any `OSError` (existing directory, or a file in the
way) is logged and swallowed, leaving the filesystem as it was. -/
def mkdirsEntries : List (String × FSNode) → Pth → List (String × FSNode)
  | es, [] => es
  | es, s :: rest =>
    match lookupName es s with
    | some (.dir ces) => replaceName es s (.dir (mkdirsEntries ces rest))
    | some _ => es
    | none => es ++ [(s, .dir (freshDirs rest))]

/-- Remove the file at a relative path; fails when the path does not
hold a regular file. -/
def removeFileEntries : List (String × FSNode) → Pth →
    Option (List (String × FSNode))
  | _, [] => none
  | es, [s] =>
    match lookupName es s with
    | some (.file _) => some (eraseName es s)
    | _ => none
  | es, s :: rest =>
    match lookupName es s with
    | some (.dir ces) =>
      match removeFileEntries ces rest with
      | some ces' => some (replaceName es s (.dir ces'))
      | none => none
    | _ => none

/-- Write a file at an absolute path (dispatching to whichever root the
path lies under, like `pathLookup`). -/
def writeFileW (w : World) (p : Pth) (c : Content) : Option World :=
  match stripRoot w.src p with
  | some rel =>
    match w.srcObj with
    | some (.dir es) =>
      (writeEntries es rel c).map (fun es' => ⟨w.src, w.tgt, some (.dir es'), w.tgtObj⟩)
    | _ => none
  | none =>
    match stripRoot w.tgt p with
    | some rel =>
      match w.tgtObj with
      | some (.dir es) =>
        (writeEntries es rel c).map (fun es' => ⟨w.src, w.tgt, w.srcObj, some (.dir es')⟩)
      | _ => none
    | none => none

/-- `QP4ckageMerger.makeDirectories`: total — all `OSError`s are
swallowed. -/
def mkdirsW (w : World) (p : Pth) : World :=
  match stripRoot w.src p with
  | some rel =>
    match w.srcObj with
    | some (.dir es) => ⟨w.src, w.tgt, some (.dir (mkdirsEntries es rel)), w.tgtObj⟩
    | some _ => w
    | none => ⟨w.src, w.tgt, some (.dir (freshDirs rel)), w.tgtObj⟩
  | none =>
    match stripRoot w.tgt p with
    | some rel =>
      match w.tgtObj with
      | some (.dir es) => ⟨w.src, w.tgt, w.srcObj, some (.dir (mkdirsEntries es rel))⟩
      | some _ => w
      | none => ⟨w.src, w.tgt, w.srcObj, some (.dir (freshDirs rel))⟩
    | none => w

/-- Modelled from the spec: `cmds.delete` (from the external
`dcc.perforce` backend) stages the file for delete and is responsible
for the physical removal of the client file, failing with a
`BackendError` when the path is not in a state consistent with a delete
(not a regular file). -/
def removeFileW (w : World) (p : Pth) : Option World :=
  match stripRoot w.src p with
  | some rel =>
    match w.srcObj with
    | some (.dir es) =>
      (removeFileEntries es rel).map (fun es' => ⟨w.src, w.tgt, some (.dir es'), w.tgtObj⟩)
    | _ => none
  | none =>
    match stripRoot w.tgt p with
    | some rel =>
      match w.tgtObj with
      | some (.dir es) =>
        (removeFileEntries es rel).map (fun es' => ⟨w.src, w.tgt, w.srcObj, some (.dir es')⟩)
      | _ => none
    | none => none

/-- Outcome of a commit: the final filesystem and the operations issued
in order; `exn` marks an uncaught exception (abort, no rollback). -/
inductive CommitRes where
  | ok (w : World) (ops : List P4Op)
  | exn (w : World) (ops : List P4Op)
deriving Repr

def CommitRes.world : CommitRes → World
  | .ok w _ => w
  | .exn w _ => w

def CommitRes.ops : CommitRes → List P4Op
  | .ok _ ops => ops
  | .exn _ ops => ops

/-- Prepend an operation to a commit outcome. -/
def consOp (op : P4Op) : CommitRes → CommitRes
  | .ok w ops => .ok w (op :: ops)
  | .exn w ops => .exn w (op :: ops)

def consOps (l : List P4Op) (r : CommitRes) : CommitRes :=
  l.foldr consOp r

/-- The item loop of `QP4ckageMerger.commit`: folder items are skipped;
`QDepotItem`s dispatch on their status.  `cmds.edit` / `cmds.add` are
modelled from the spec as succeeding backend calls (the claims below
hypothesise no backend failure); `cmds.delete` additionally removes the
physical file (see `removeFileW`).  `shutil.copy` failures are uncaught
exceptions that abort the walk. -/
def commitItems (w : World) : List Node → CommitRes
  | [] => .ok w []
  | n :: rest =>
    match n.kind with
    | .plain => commitItems w rest
    | .depot sourcePath targetPath status =>
      match status with
      | .Edit =>
        match openFile w targetPath with
        | none => .exn w [.edit sourcePath]
        | some c =>
          match writeFileW w sourcePath c with
          | none => .exn w [.edit sourcePath]
          | some w' =>
            consOps [.edit sourcePath, .copy targetPath sourcePath]
              (commitItems w' rest)
      | .Add =>
        let w1 := mkdirsW w sourcePath.dropLast
        match openFile w1 targetPath with
        | none => .exn w1 [.makeDirs sourcePath.dropLast]
        | some c =>
          match writeFileW w1 sourcePath c with
          | none => .exn w1 [.makeDirs sourcePath.dropLast]
          | some w2 =>
            consOps [.makeDirs sourcePath.dropLast, .copy targetPath sourcePath,
                .add sourcePath] (commitItems w2 rest)
      | .Delete =>
        match removeFileW w sourcePath with
        | none => .exn w []
        | some w' => consOps [.delete sourcePath] (commitItems w' rest)
      | .Unchanged => commitItems w rest

/-- `QP4ckageMerger.commit`: reject (message box, return) when the
selected workspace or changelist is empty; otherwise walk the tree and
dispatch every depot item. -/
def commit (w : World) (m : Model) (client changelist : String) : CommitRes :=
  if client.isEmpty || changelist.isEmpty then .ok w []
  else
    match walkM m with
    | none => .exn w []
    | some items => commitItems w items

/-- C5: an empty workspace or an empty changelist rejects the whole
commit before any operation runs — no backend call, no copy, no
directory creation, and the filesystem unchanged. -/
theorem claim5_commit_guard (w : World) (m : Model) (client changelist : String)
    (h : client = "" ∨ changelist = "") :
    commit w m client changelist = .ok w [] := by
  unfold commit
  rcases h with h | h <;> subst h <;> simp [String.isEmpty]

/-- Witness for C5 at a concrete input. -/
theorem claim5_witness : commit wEx1 mEx8 "ws" "" = .ok wEx1 [] :=
  claim5_commit_guard wEx1 mEx8 "ws" "" (.inr rfl)

/-- C10: with a non-empty workspace and changelist but an empty item
model, `commit` raises (indexing element 0 of the empty top-level item
list) and performs no backend call, no copy and no directory
creation. -/
theorem claim10_commit_empty_model (w : World) (client changelist : String)
    (hc : client ≠ "") (hl : changelist ≠ "") :
    commit w [] client changelist = .exn w [] := by
  unfold commit
  have hc' : client.isEmpty = false := by
    cases h : client.isEmpty
    · rfl
    · exact absurd ((String.isEmpty_iff _).mp h) hc
  have hl' : changelist.isEmpty = false := by
    cases h : changelist.isEmpty
    · rfl
    · exact absurd ((String.isEmpty_iff _).mp h) hl
  simp [hc', hl', walkM, topLevelItem]

/-- Witness for C10 at a concrete input. -/
theorem claim10_witness : commit wEx1 [] "ws" "default" = .exn wEx1 [] :=
  claim10_commit_empty_model wEx1 "ws" "default" (by simp) (by simp)

/-! ## C6 / C7: commit dispatch and traversal order -/

/-- C6: during commit, the operations dispatched for one tree item are
exactly: `Edit` — a backend edit call on the source path followed by
overwriting the source file with the target file's bytes; `Add` —
creating missing parent directories of the source path, copying the
target file's bytes to the source path, then a backend add call;
`Delete` — a backend delete call only (no local copy, no `makeDirs`; the
physical removal is the backend's own effect); `Unchanged` — no
operation at all. -/
theorem claim6_commit_dispatch (w : World) (n : Node) (rest : List Node)
    (sp tp : Pth) :
    (n.kind = .depot sp tp .Edit →
      ∀ c w', openFile w tp = some c → writeFileW w sp c = some w' →
        commitItems w (n :: rest) =
          consOps [.edit sp, .copy tp sp] (commitItems w' rest)) ∧
    (n.kind = .depot sp tp .Add →
      ∀ c w2, openFile (mkdirsW w sp.dropLast) tp = some c →
        writeFileW (mkdirsW w sp.dropLast) sp c = some w2 →
        commitItems w (n :: rest) =
          consOps [.makeDirs sp.dropLast, .copy tp sp, .add sp]
            (commitItems w2 rest)) ∧
    (n.kind = .depot sp tp .Delete →
      ∀ w', removeFileW w sp = some w' →
        commitItems w (n :: rest) =
          consOps [.delete sp] (commitItems w' rest)) ∧
    (n.kind = .depot sp tp .Unchanged →
      commitItems w (n :: rest) = commitItems w rest) ∧
    (n.kind = .plain → commitItems w (n :: rest) = commitItems w rest) := by
  refine ⟨?_, ?_, ?_, ?_, ?_⟩
  · intro hk c w' hc hw
    simp only [commitItems, hk, hc, hw]
  · intro hk c w2 hc hw
    simp only [commitItems, hk, hc, hw]
  · intro hk w' hw
    simp only [commitItems, hk, hw]
  · intro hk
    simp only [commitItems, hk]
  · intro hk
    simp only [commitItems, hk]

/-- The world `wEx1` after copying target `a` over source `a`. -/
def wEx6 : World :=
  ⟨["s"], ["t"],
    some (.dir [("a", .file (.text "y"))]),
    some (.dir [("a", .file (.text "y"))])⟩

/-- Witness for C6 at a concrete input: an `Edit` item issues the edit
call and then the local copy. -/
theorem claim6_witness :
    commitItems wEx1 [Node.mk "a" (.depot ["s", "a"] ["t", "a"] .Edit) []] =
      consOps [.edit ["s", "a"], .copy ["t", "a"] ["s", "a"]]
        (commitItems wEx6 []) :=
  (claim6_commit_dispatch wEx1 (Node.mk "a" (.depot ["s", "a"] ["t", "a"] .Edit) [])
    [] ["s", "a"] ["t", "a"]).1 rfl (.text "y") wEx6 rfl rfl

theorem walkAux_append (q1 q2 : List Node) :
    walkAux (q1 ++ q2) = q1 ++ walkAux (q2 ++ q1.flatMap Node.children) := by
  induction q1 generalizing q2 with
  | nil => simp
  | cons n r ih =>
    show walkAux (n :: (r ++ q2)) = _
    rw [walkAux, List.append_assoc, ih (q2 ++ n.children)]
    simp [List.append_assoc]

theorem walkAux_eq_bfsLevels (q : List Node) : walkAux q = bfsLevels q := by
  induction q using bfsLevels.induct with
  | case1 => simp [walkAux, bfsLevels]
  | case2 a l ih =>
    have h := walkAux_append (a :: l) []
    simp only [List.append_nil, List.nil_append] at h
    rw [h, ih, bfsLevels]

/-- Operations a single tree item contributes during commit. -/
def opsFor (n : Node) : List P4Op :=
  match n.kind with
  | .plain => []
  | .depot sp tp st =>
    match st with
    | .Unchanged => []
    | .Edit => [.edit sp, .copy tp sp]
    | .Add => [.makeDirs sp.dropLast, .copy tp sp, .add sp]
    | .Delete => [.delete sp]

theorem consOp_ok {op : P4Op} {r : CommitRes} {w' : World} {ops : List P4Op}
    (h : consOp op r = .ok w' ops) :
    ∃ ops0, r = .ok w' ops0 ∧ ops = op :: ops0 := by
  cases r with
  | ok w2 ops2 =>
    simp [consOp] at h
    exact ⟨ops2, by simp [h.1], by simp [h.2]⟩
  | exn w2 ops2 => simp [consOp] at h

theorem consOps_ok {l : List P4Op} {r : CommitRes} {w' : World} {ops : List P4Op}
    (h : consOps l r = .ok w' ops) :
    ∃ ops0, r = .ok w' ops0 ∧ ops = l ++ ops0 := by
  induction l generalizing ops with
  | nil => exact ⟨ops, h, rfl⟩
  | cons op l ih =>
    have h' : consOp op (consOps l r) = .ok w' ops := h
    obtain ⟨ops1, h1, h2⟩ := consOp_ok h'
    obtain ⟨ops0, h3, h4⟩ := ih h1
    exact ⟨ops0, h3, by simp [h2, h4]⟩

theorem commitItems_ok_ops (w : World) (items : List Node) (w' : World)
    (ops : List P4Op) (h : commitItems w items = .ok w' ops) :
    ops = items.flatMap opsFor := by
  induction items generalizing w ops with
  | nil =>
    simp [commitItems] at h
    simp [h.2]
  | cons n rest ih =>
    match hk : n.kind with
    | .plain =>
      simp only [commitItems, hk] at h
      simp [List.flatMap_cons, opsFor, hk, ih w ops h]
    | .depot sp tp st =>
      match st with
      | .Unchanged =>
        simp only [commitItems, hk] at h
        simp [List.flatMap_cons, opsFor, hk, ih w ops h]
      | .Edit =>
        simp only [commitItems, hk] at h
        match hc : openFile w tp with
        | none => rw [hc] at h; exact absurd h (by simp)
        | some c =>
          rw [hc] at h
          dsimp only at h
          match hw : writeFileW w sp c with
          | none => rw [hw] at h; exact absurd h (by simp)
          | some w2 =>
            rw [hw] at h
            dsimp only at h
            obtain ⟨ops0, h1, h2⟩ := consOps_ok h
            simp [List.flatMap_cons, opsFor, hk, h2, ih w2 ops0 h1]
      | .Add =>
        simp only [commitItems, hk] at h
        match hc : openFile (mkdirsW w sp.dropLast) tp with
        | none => rw [hc] at h; exact absurd h (by simp)
        | some c =>
          rw [hc] at h
          dsimp only at h
          match hw : writeFileW (mkdirsW w sp.dropLast) sp c with
          | none => rw [hw] at h; exact absurd h (by simp)
          | some w2 =>
            rw [hw] at h
            dsimp only at h
            obtain ⟨ops0, h1, h2⟩ := consOps_ok h
            simp [List.flatMap_cons, opsFor, hk, h2, ih w2 ops0 h1]
      | .Delete =>
        simp only [commitItems, hk] at h
        match hw : removeFileW w sp with
        | none => rw [hw] at h; exact absurd h (by simp)
        | some w2 =>
          rw [hw] at h
          dsimp only at h
          obtain ⟨ops0, h1, h2⟩ := consOps_ok h
          simp [List.flatMap_cons, opsFor, hk, h2, ih w2 ops0 h1]

/-- C7: the commit walk visits items in queue-based breadth-first order
from the top-level item (pop a node, enqueue its children); folder items
trigger no operations, only depot items do, and a completed commit's
operations are exactly the per-item operations concatenated in that
traversal order. -/
theorem claim7_commit_walk_order (m : Model) (top : Node)
    (htop : topLevelItem m = some top) :
    walkM m = some (bfsLevels [top]) ∧
    (∀ w client changelist w' ops, client ≠ "" → changelist ≠ "" →
      commit w m client changelist = .ok w' ops →
      ops = (bfsLevels [top]).flatMap opsFor) ∧
    (∀ n, n.kind = .plain → opsFor n = []) := by
  refine ⟨?_, ?_, ?_⟩
  · simp [walkM, htop, walkAux_eq_bfsLevels]
  · intro w client changelist w' ops hc hl h
    have hc' : client.isEmpty = false := by
      cases hh : client.isEmpty
      · rfl
      · exact absurd ((String.isEmpty_iff _).mp hh) hc
    have hl' : changelist.isEmpty = false := by
      cases hh : changelist.isEmpty
      · rfl
      · exact absurd ((String.isEmpty_iff _).mp hh) hl
    rw [commit, hc', hl'] at h
    simp only [Bool.false_or, Bool.false_eq_true, if_false, walkM, htop,
      Option.map_some'] at h
    rw [walkAux_eq_bfsLevels] at h
    exact commitItems_ok_ops w _ w' ops h
  · intro n hk
    simp [opsFor, hk]

/-- A model holding a folder item with one `Unchanged` depot child. -/
def mEx7 : Model :=
  [Node.mk "s" .plain
    [Node.mk "a" (.depot ["s", "a"] ["t", "a"] .Unchanged) []]]

/-- Witness for C7 at a concrete input: a completed commit of a tree
whose only depot item is `Unchanged` issues exactly the concatenated
per-item operations (none). -/
theorem claim7_witness :
    ([] : List P4Op) =
      (bfsLevels [Node.mk "s" .plain
        [Node.mk "a" (.depot ["s", "a"] ["t", "a"] .Unchanged) []]]).flatMap
          opsFor :=
  (claim7_commit_walk_order mEx7 _ rfl).2.1 wEx1 "ws" "default" wEx1 []
    (by simp) (by simp)
    (by simp [commit, walkM, topLevelItem, mEx7, walkAux, commitItems,
      Node.kind, Node.children])

/-! ## Path and filesystem lemmas -/

theorem stripRoot_append (r x : Pth) : stripRoot r (r ++ x) = some x := by
  induction r with
  | nil => rfl
  | cons a t ih => simp [stripRoot, ih]

theorem stripRoot_eq_some {r p x : Pth} (h : stripRoot r p = some x) :
    p = r ++ x := by
  induction r generalizing p with
  | nil => simp [stripRoot] at h; simp [h]
  | cons a t ih =>
    cases p with
    | nil => simp [stripRoot] at h
    | cons b q =>
      simp only [stripRoot] at h
      by_cases hab : a = b
      · subst hab; rw [if_pos rfl] at h; simp [ih h]
      · rw [if_neg hab] at h; exact absurd h (by simp)

theorem prefixSeg_of_strip {r p x : Pth} (h : stripRoot r p = some x) :
    prefixSeg r p = true := by
  induction r generalizing p with
  | nil => rfl
  | cons a t ih =>
    cases p with
    | nil => simp [stripRoot] at h
    | cons b q =>
      simp only [stripRoot] at h
      by_cases hab : a = b
      · subst hab; rw [if_pos rfl] at h
        simp [prefixSeg, ih h]
      · rw [if_neg hab] at h; exact absurd h (by simp)

theorem strip_of_prefixSeg {r p : Pth} (h : prefixSeg r p = true) :
    ∃ x, stripRoot r p = some x := by
  induction r generalizing p with
  | nil => exact ⟨p, rfl⟩
  | cons a t ih =>
    cases p with
    | nil => simp [prefixSeg] at h
    | cons b q =>
      simp only [prefixSeg, Bool.and_eq_true, decide_eq_true_eq] at h
      obtain ⟨x, hx⟩ := ih h.2
      exact ⟨x, by simp [stripRoot, h.1, hx]⟩

theorem prefixSeg_false_strip {r p : Pth} (h : prefixSeg r p = false) :
    stripRoot r p = none := by
  match hs : stripRoot r p with
  | none => rfl
  | some x => rw [prefixSeg_of_strip hs] at h; exact absurd h (by simp)

theorem prefixSeg_append_elim {a b x : Pth}
    (h : prefixSeg a (b ++ x) = true) :
    prefixSeg a b = true ∨ prefixSeg b a = true := by
  induction a generalizing b with
  | nil => exact .inl rfl
  | cons ha ta ih =>
    cases b with
    | nil => exact .inr rfl
    | cons hb tb =>
      simp only [List.cons_append, prefixSeg, Bool.and_eq_true,
        decide_eq_true_eq] at h ⊢
      rcases ih h.2 with h' | h'
      · exact .inl ⟨h.1, h'⟩
      · exact .inr ⟨h.1.symm, h'⟩

/-- Disjointness of the two package roots (neither is a segment-prefix of
the other); the programs' documented precondition. -/
def RootsDisjoint (w : World) : Prop :=
  prefixSeg w.src w.tgt = false ∧ prefixSeg w.tgt w.src = false

theorem not_prefix_src_tgt_ext {w : World} (hd : RootsDisjoint w) (x : Pth) :
    prefixSeg w.src (w.tgt ++ x) = false := by
  cases h : prefixSeg w.src (w.tgt ++ x)
  · rfl
  · rcases prefixSeg_append_elim h with h' | h'
    · rw [hd.1] at h'; exact absurd h' (by simp)
    · rw [hd.2] at h'; exact absurd h' (by simp)

theorem not_prefix_tgt_src_ext {w : World} (hd : RootsDisjoint w) (x : Pth) :
    prefixSeg w.tgt (w.src ++ x) = false := by
  cases h : prefixSeg w.tgt (w.src ++ x)
  · rfl
  · rcases prefixSeg_append_elim h with h' | h'
    · rw [hd.2] at h'; exact absurd h' (by simp)
    · rw [hd.1] at h'; exact absurd h' (by simp)

theorem lookupRel_nil (obj : Option FSNode) : lookupRel obj [] = obj := by
  match obj with
  | none => rfl
  | some (.file c) => rfl
  | some (.dir es) => rfl
  | some .other => rfl

theorem lookupRel_append (obj : Option FSNode) (p q : Pth) :
    lookupRel obj (p ++ q) = lookupRel (lookupRel obj p) q := by
  induction p generalizing obj with
  | nil => rw [List.nil_append, lookupRel_nil]
  | cons s rest ih =>
    match obj with
    | none => simp [lookupRel]; cases q <;> simp [lookupRel]
    | some (.file c) => simp [lookupRel]; cases q <;> simp [lookupRel]
    | some .other => simp [lookupRel]; cases q <;> simp [lookupRel]
    | some (.dir es) => simp only [List.cons_append, lookupRel]; exact ih _

theorem pathLookup_src (w : World) (x : Pth) :
    pathLookup w (w.src ++ x) = lookupRel w.srcObj x := by
  simp [pathLookup, stripRoot_append]

theorem pathLookup_tgt {w : World} (hd : RootsDisjoint w) (x : Pth) :
    pathLookup w (w.tgt ++ x) = lookupRel w.tgtObj x := by
  have h1 : stripRoot w.src (w.tgt ++ x) = none :=
    prefixSeg_false_strip (not_prefix_src_tgt_ext hd x)
  simp [pathLookup, h1, stripRoot_append]

/-- Wellformedness of a filesystem object: every directory listing has
pairwise-distinct entry names. -/
inductive FSWf : FSNode → Prop where
  | file (c : Content) : FSWf (.file c)
  | other : FSWf .other
  | dir (es : List (String × FSNode))
      (hnd : (es.map Prod.fst).Nodup)
      (hch : ∀ e ∈ es, FSWf e.2) : FSWf (.dir es)

def FSWfO (o : Option FSNode) : Prop :=
  ∀ n, o = some n → FSWf n

/-- Wellformed world: both sides' filesystems have unique names per
directory. -/
def WorldWf (w : World) : Prop :=
  FSWfO w.srcObj ∧ FSWfO w.tgtObj

theorem lookupName_mem {es : List (String × FSNode)} {s : String} {n : FSNode}
    (h : lookupName es s = some n) : (s, n) ∈ es := by
  induction es with
  | nil => simp [lookupName] at h
  | cons e rest ih =>
    obtain ⟨a, b⟩ := e
    by_cases he : a = s
    · subst he
      simp [lookupName, List.find?] at h
      simp [h]
    · simp only [lookupName, List.find?] at h
      simp only [decide_eq_false he] at h
      exact .tail _ (ih h)

theorem mem_lookupName {es : List (String × FSNode)} {s : String} {n : FSNode}
    (hnd : (es.map Prod.fst).Nodup) (h : (s, n) ∈ es) :
    lookupName es s = some n := by
  induction es with
  | nil => simp at h
  | cons e rest ih =>
    simp only [List.map_cons, List.nodup_cons] at hnd
    rcases List.mem_cons.mp h with h | h
    · subst h
      simp [lookupName]
    · have hne : e.1 ≠ s := by
        intro hc
        exact hnd.1 (hc ▸ (List.mem_map.mpr ⟨(s, n), h, rfl⟩))
      simp only [lookupName, List.find?]
      simp only [decide_eq_false hne]
      exact ih hnd.2 h

theorem FSWf_lookupName {es : List (String × FSNode)} {s : String} {n : FSNode}
    (hwf : FSWf (.dir es)) (h : lookupName es s = some n) : FSWf n := by
  cases hwf with
  | dir es hnd hch => exact hch (s, n) (lookupName_mem h)

/-! ## List helper lemmas -/

theorem get?_set_self {α : Type _} (l : List α) (i : Nat) (a : α)
    (h : i < l.length) : (l.set i a).get? i = some a := by
  induction l generalizing i with
  | nil => simp at h
  | cons x xs ih =>
    cases i with
    | zero => rfl
    | succ j =>
      show (xs.set j a).get? j = some a
      exact ih j (by simpa using h)

theorem get?_set_other {α : Type _} (l : List α) (i j : Nat) (a : α)
    (h : i ≠ j) : (l.set i a).get? j = l.get? j := by
  induction l generalizing i j with
  | nil => simp
  | cons x xs ih =>
    cases i with
    | zero => cases j with
      | zero => exact absurd rfl h
      | succ j' => rfl
    | succ i' => cases j with
      | zero => rfl
      | succ j' => simpa using ih i' j' (by omega)

theorem set_get?_self {α : Type _} (l : List α) (i : Nat) (a : α)
    (h : l.get? i = some a) : l.set i a = l := by
  induction l generalizing i with
  | nil => simp at h
  | cons x xs ih =>
    cases i with
    | zero =>
      have h' : x = a := by
        have : some x = some a := h
        exact Option.some.inj this
      show (a :: xs : List α) = x :: xs
      rw [h']
    | succ j =>
      have h' : xs.get? j = some a := h
      show x :: xs.set j a = x :: xs
      rw [ih j h']

theorem map_set_eq {α β : Type _} {l : List α} {i : Nat} {a b : α}
    (f : α → β) (hg : l.get? i = some a) (hf : f b = f a) :
    (l.set i b).map f = l.map f := by
  induction l generalizing i with
  | nil => simp at hg
  | cons x xs ih =>
    cases i with
    | zero =>
      have : x = a := Option.some.inj hg
      subst this
      simp [hf]
    | succ j =>
      have hg' : xs.get? j = some a := hg
      simp [ih hg']

theorem mem_set_elim {α : Type _} {l : List α} {i : Nat} {a x : α}
    (h : x ∈ l.set i a) : x ∈ l ∨ x = a := by
  induction l generalizing i with
  | nil => simp at h
  | cons y ys ih =>
    cases i with
    | zero =>
      rcases List.mem_cons.mp h with h | h
      · exact .inr h
      · exact .inl (.tail _ h)
    | succ j =>
      rcases List.mem_cons.mp h with h | h
      · exact .inl (h ▸ List.mem_cons_self _ _)
      · rcases ih h with h' | h'
        · exact .inl (.tail _ h')
        · exact .inr h'

theorem filter_len_le_one {p : Node → Bool} {cs : List Node} {s : String}
    (hnd : (cs.map Node.text).Nodup)
    (hp : ∀ c, p c = true → c.text = s) :
    (cs.filter p).length ≤ 1 := by
  induction cs with
  | nil => simp
  | cons c rest ih =>
    simp only [List.map_cons, List.nodup_cons] at hnd
    by_cases hc : p c = true
    · have hrest : rest.filter p = [] := by
        rw [List.filter_eq_nil_iff]
        intro b hb hpb
        exact hnd.1 ((hp c hc ▸ hp b hpb ▸ rfl : b.text = c.text) ▸
          List.mem_map.mpr ⟨b, hb, rfl⟩)
      simp [List.filter_cons, hc, hrest]
    · simp only [List.filter_cons, Bool.not_eq_true] at hc ⊢
      rw [hc]
      exact ih hnd.2

/-! ## Node occurrence counting and the tree invariant -/

/-- All nodes sitting at a given relative path below `n` (the relative
path of a node is the chain of texts from the top-level item down to
it). -/
def nodesAtPath : Pth → Node → List Node
  | [], n => [n]
  | s :: rest, n =>
    (n.children.filter (fun c => c.text = s)).flatMap (fun c => nodesAtPath rest c)

/-- The chain of texts leading to the descendant at a position. -/
def Node.textPathAt : Node → Pos → Option Pth
  | _, [] => some []
  | n, i :: rest =>
    match n.children.get? i with
    | some c => (c.textPathAt rest).map (fun p => c.text :: p)
    | none => none

/-- Facts recorded about a node's payload given the relative path it
occupies:
* a folder item is the root or marks a directory of one of the roots;
* a `QDepotItem` at relative path `rp` carries exactly the source/target
  absolute paths joined from `rp`, a status truthfully computed by
  `evaluateFileStatus`, and stems from walking an actual non-`.pyc` file
  of one of the roots. -/
def KindOk (w : World) (rp : Pth) : NodeKind → Prop
  | .plain => rp = [] ∨ isdir w (w.src ++ rp) = true ∨ isdir w (w.tgt ++ rp) = true
  | .depot sp tp st =>
    sp = w.src ++ rp ∧ tp = w.tgt ++ rp ∧
    evaluateFileStatus w sp tp = .ok st ∧
    (isfile w sp = true ∨ isfile w tp = true) ∧
    (filename sp).endsWith ".pyc" = false ∧ rp ≠ []

/-- Invariant of the item tree during construction: every node's
children carry pairwise-distinct texts, every payload satisfies
`KindOk` for the relative path it occupies, and depot items are
leaves. -/
inductive Good (w : World) : Pth → Node → Prop where
  | intro {rp : Pth} {t : String} {k : NodeKind} {cs : List Node}
      (hnd : (cs.map Node.text).Nodup)
      (hkind : KindOk w rp k)
      (hleaf : ∀ sp tp st, k = .depot sp tp st → cs = [])
      (hch : ∀ c ∈ cs, Good w (rp ++ [c.text]) c) :
      Good w rp (.mk t k cs)

theorem Good.nodup {w rp n} (h : Good w rp n) :
    (n.children.map Node.text).Nodup := by
  cases h with | intro hnd hkind hleaf hch => exact hnd

theorem Good.kindOk {w rp n} (h : Good w rp n) : KindOk w rp n.kind := by
  cases h with | intro hnd hkind hleaf hch => exact hkind

theorem Good.depotLeaf {w rp n} (h : Good w rp n) :
    ∀ sp tp st, n.kind = .depot sp tp st → n.children = [] := by
  cases h with | intro hnd hkind hleaf hch => exact hleaf

theorem Good.child {w rp n} (h : Good w rp n) :
    ∀ c ∈ n.children, Good w (rp ++ [c.text]) c := by
  cases h with | intro hnd hkind hleaf hch => exact hch

/-- At most one node per relative path, below any `Good` node. -/
theorem Good.count_le_one {w : World} {rp : Pth} {n : Node}
    (h : Good w rp n) : ∀ r, (nodesAtPath r n).length ≤ 1 := by
  intro r
  induction r generalizing n rp with
  | nil => simp [nodesAtPath]
  | cons s rest ih =>
    have hrw : nodesAtPath (s :: rest) n =
        (n.children.filter (fun c => c.text = s)).flatMap
          (fun c => nodesAtPath rest c) := rfl
    have hf : (n.children.filter (fun c => c.text = s)).length ≤ 1 :=
      filter_len_le_one h.nodup (fun c hc => of_decide_eq_true hc)
    match hcs : n.children.filter (fun c => c.text = s) with
    | [] => rw [hrw, hcs]; simp
    | [c1] =>
      have hc1 : c1 ∈ n.children :=
        List.mem_of_mem_filter (hcs ▸ List.mem_singleton_self c1)
      rw [hrw, hcs]
      simp only [List.flatMap_cons, List.flatMap_nil, List.append_nil]
      exact ih (h.child c1 hc1)
    | c1 :: c2 :: crest => rw [hcs] at hf; simp at hf

/-- A descendant of a `Good` node is `Good` at the extended path. -/
theorem Good.sub {w : World} {rp : Pth} {n d : Node} {q : Pos} {tq : Pth}
    (h : Good w rp n) (hget : n.getAt q = some d)
    (htp : n.textPathAt q = some tq) : Good w (rp ++ tq) d := by
  induction q generalizing n rp tq with
  | nil =>
    simp only [Node.getAt] at hget
    simp only [Node.textPathAt] at htp
    cases hget; cases htp
    simpa using h
  | cons i qr ih =>
    simp only [Node.getAt] at hget
    simp only [Node.textPathAt] at htp
    match hg : n.children.get? i with
    | none => rw [hg] at hget; simp at hget
    | some ci =>
      rw [hg] at hget htp
      dsimp only at hget htp
      match htq : ci.textPathAt qr with
      | none => rw [htq] at htp; simp at htp
      | some tq' =>
        rw [htq] at htp
        simp only [Option.map_some'] at htp
        cases htp
        have hci : ci ∈ n.children := List.get?_mem hg
        have := ih (h.child ci hci) hget htq
        simpa [List.append_assoc] using this

/-! ## Append lemmas -/

theorem get?_some_lt {α : Type _} {l : List α} {i : Nat} {a : α}
    (h : l.get? i = some a) : i < l.length := by
  induction l generalizing i with
  | nil => simp at h
  | cons x xs ih =>
    cases i with
    | zero => simp
    | succ j => exact Nat.succ_lt_succ (ih (h : xs.get? j = some a))

theorem get?_append_left {α : Type _} {l : List α} (l' : List α) {i : Nat}
    {a : α} (h : l.get? i = some a) : (l ++ l').get? i = some a := by
  induction l generalizing i with
  | nil => simp at h
  | cons x xs ih =>
    cases i with
    | zero => exact h
    | succ j => exact ih (h : xs.get? j = some a)

theorem get?_append_length {α : Type _} (l : List α) (a : α) :
    (l ++ [a]).get? l.length = some a := by
  induction l with
  | nil => rfl
  | cons x xs ih => exact ih

theorem getAt_cons (n : Node) (i : Nat) (rest : Pos) :
    n.getAt (i :: rest) =
      match n.children.get? i with
      | some ci => ci.getAt rest
      | none => none := rfl

theorem textPathAt_cons (n : Node) (i : Nat) (rest : Pos) :
    n.textPathAt (i :: rest) =
      match n.children.get? i with
      | some ci => (ci.textPathAt rest).map (fun p => ci.text :: p)
      | none => none := rfl

theorem appendAt_cons (t : String) (k : NodeKind) (cs : List Node)
    (i : Nat) (rest : Pos) (c : Node) :
    (Node.mk t k cs).appendAt (i :: rest) c =
      match cs.get? i with
      | some ci =>
        match ci.appendAt rest c with
        | some ci' => some (.mk t k (cs.set i ci'))
        | none => none
      | none => none := rfl

/-- Destructure a successful `appendAt` along a non-empty position. -/
theorem appendAt_cons_elim {t : String} {k : NodeKind} {cs : List Node}
    {i : Nat} {rest : Pos} {c n' : Node}
    (h : (Node.mk t k cs).appendAt (i :: rest) c = some n') :
    ∃ ci ci', cs.get? i = some ci ∧ ci.appendAt rest c = some ci' ∧
      n' = .mk t k (cs.set i ci') := by
  rw [appendAt_cons] at h
  match hg : cs.get? i with
  | none => rw [hg] at h; simp at h
  | some ci =>
    rw [hg] at h
    dsimp only at h
    match hc : ci.appendAt rest c with
    | none => rw [hc] at h; simp at h
    | some ci' =>
      rw [hc] at h
      dsimp only at h
      exact ⟨ci, ci', rfl, hc, (Option.some.inj h).symm⟩

theorem appendAt_of_getAt {n p : Node} {pos : Pos} (c : Node)
    (h : n.getAt pos = some p) : ∃ n', n.appendAt pos c = some n' := by
  induction pos generalizing n with
  | nil => cases n with | mk t k cs => exact ⟨_, rfl⟩
  | cons i rest ih =>
    cases n with | mk t k cs =>
    rw [getAt_cons] at h
    dsimp only [Node.children] at h
    match hg : cs.get? i with
    | none => rw [hg] at h; simp at h
    | some ci =>
      rw [hg] at h
      dsimp only [Node.children] at h
      obtain ⟨ci', hci⟩ := ih h
      exact ⟨.mk t k (cs.set i ci'), by rw [appendAt_cons, hg]; dsimp only; rw [hci]⟩

theorem appendAt_root_pres {n n' c : Node} {pos : Pos}
    (h : n.appendAt pos c = some n') :
    n'.text = n.text ∧ n'.kind = n.kind := by
  cases n with | mk t k cs =>
  cases pos with
  | nil =>
    have h' : some (Node.mk t k (cs ++ [c])) = some n' := h
    cases h'
    exact ⟨rfl, rfl⟩
  | cons i rest =>
    obtain ⟨ci, ci', hg, hci, hn'⟩ := appendAt_cons_elim h
    subst hn'
    exact ⟨rfl, rfl⟩

theorem appendAt_getAt_pres {c : Node} {pos : Pos} :
    ∀ {n n' : Node}, n.appendAt pos c = some n' →
    ∀ q p, n.getAt q = some p →
      ∃ p', n'.getAt q = some p' ∧ p'.text = p.text ∧ p'.kind = p.kind := by
  induction pos with
  | nil =>
    intro n n' h q p hq
    cases n with | mk t k cs =>
    have h' : some (Node.mk t k (cs ++ [c])) = some n' := h
    cases h'
    cases q with
    | nil =>
      cases hq
      exact ⟨_, rfl, rfl, rfl⟩
    | cons j qr =>
      rw [getAt_cons] at hq
      dsimp only [Node.children] at hq
      match hg : cs.get? j with
      | none => rw [hg] at hq; simp at hq
      | some cj =>
        rw [hg] at hq
        dsimp only at hq
        refine ⟨p, ?_, rfl, rfl⟩
        rw [getAt_cons]
        have hgj : (Node.mk t k (cs ++ [c])).children.get? j = some cj := by
          dsimp only [Node.children]
          exact get?_append_left [c] hg
        rw [hgj]
        dsimp only
        exact hq
  | cons i rest ih =>
    intro n n' h q p hq
    cases n with | mk t k cs =>
    obtain ⟨ci, ci', hg, hci, hn'⟩ := appendAt_cons_elim h
    subst hn'
    cases q with
    | nil =>
      cases hq
      exact ⟨_, rfl, rfl, rfl⟩
    | cons j qr =>
      rw [getAt_cons] at hq
      dsimp only [Node.children] at hq
      by_cases hij : i = j
      · subst hij
        rw [hg] at hq
        dsimp only at hq
        obtain ⟨p', hp', ht', hk'⟩ := ih hci qr p hq
        refine ⟨p', ?_, ht', hk'⟩
        rw [getAt_cons]
        dsimp only [Node.children]
        rw [get?_set_self cs i ci' (get?_some_lt hg)]
        dsimp only
        exact hp'
      · match hgj : cs.get? j with
        | none => rw [hgj] at hq; simp at hq
        | some cj =>
          rw [hgj] at hq
          dsimp only at hq
          refine ⟨p, ?_, rfl, rfl⟩
          rw [getAt_cons]
          dsimp only [Node.children]
          rw [get?_set_other cs i j ci' hij, hgj]
          dsimp only
          exact hq

theorem appendAt_textPath_pres {c : Node} {pos : Pos} :
    ∀ {n n' : Node}, n.appendAt pos c = some n' →
    ∀ q tq, n.textPathAt q = some tq → n'.textPathAt q = some tq := by
  induction pos with
  | nil =>
    intro n n' h q tq hq
    cases n with | mk t k cs =>
    have h' : some (Node.mk t k (cs ++ [c])) = some n' := h
    cases h'
    cases q with
    | nil => exact hq
    | cons j qr =>
      rw [textPathAt_cons] at hq ⊢
      dsimp only [Node.children] at hq ⊢
      match hg : cs.get? j with
      | none => rw [hg] at hq; simp at hq
      | some cj =>
        rw [hg] at hq
        rw [get?_append_left [c] hg]
        exact hq
  | cons i rest ih =>
    intro n n' h q tq hq
    cases n with | mk t k cs =>
    obtain ⟨ci, ci', hg, hci, hn'⟩ := appendAt_cons_elim h
    subst hn'
    cases q with
    | nil => exact hq
    | cons j qr =>
      rw [textPathAt_cons] at hq ⊢
      dsimp only [Node.children] at hq ⊢
      by_cases hij : i = j
      · subst hij
        rw [hg] at hq
        rw [get?_set_self cs i ci' (get?_some_lt hg)]
        dsimp only at hq ⊢
        match htq : ci.textPathAt qr with
        | none => rw [htq] at hq; simp at hq
        | some tq' =>
          rw [htq] at hq
          rw [ih hci qr tq' htq]
          rw [(appendAt_root_pres hci).1]
          exact hq
      · rw [get?_set_other cs i j ci' hij]
        exact hq

theorem appendAt_getAt_new {c : Node} {pos : Pos} :
    ∀ {n n' p : Node}, n.appendAt pos c = some n' → n.getAt pos = some p →
      n'.getAt (pos ++ [p.children.length]) = some c := by
  induction pos with
  | nil =>
    intro n n' p h hp
    cases n with | mk t k cs =>
    have h' : some (Node.mk t k (cs ++ [c])) = some n' := h
    cases h'
    cases hp
    rw [List.nil_append, getAt_cons]
    dsimp only [Node.children]
    rw [get?_append_length]
    rfl
  | cons i rest ih =>
    intro n n' p h hp
    cases n with | mk t k cs =>
    obtain ⟨ci, ci', hg, hci, hn'⟩ := appendAt_cons_elim h
    subst hn'
    rw [getAt_cons] at hp
    dsimp only [Node.children] at hp
    rw [hg] at hp
    dsimp only at hp
    rw [List.cons_append, getAt_cons]
    dsimp only [Node.children]
    rw [get?_set_self cs i ci' (get?_some_lt hg)]
    dsimp only
    exact ih hci hp

theorem appendAt_textPath_new {c : Node} {pos : Pos} :
    ∀ {n n' p : Node} {tp : Pth}, n.appendAt pos c = some n' →
      n.getAt pos = some p → n.textPathAt pos = some tp →
      n'.textPathAt (pos ++ [p.children.length]) = some (tp ++ [c.text]) := by
  induction pos with
  | nil =>
    intro n n' p tp h hp htp
    cases n with | mk t k cs =>
    have h' : some (Node.mk t k (cs ++ [c])) = some n' := h
    cases h'
    cases hp
    have htp' : some ([] : Pth) = some tp := htp
    cases htp'
    rw [List.nil_append, textPathAt_cons]
    dsimp only [Node.children]
    rw [get?_append_length]
    rfl
  | cons i rest ih =>
    intro n n' p tp h hp htp
    cases n with | mk t k cs =>
    obtain ⟨ci, ci', hg, hci, hn'⟩ := appendAt_cons_elim h
    subst hn'
    rw [getAt_cons] at hp
    rw [textPathAt_cons] at htp
    dsimp only [Node.children] at hp htp
    rw [hg] at hp htp
    dsimp only at hp htp
    match htq : ci.textPathAt rest with
    | none => rw [htq] at htp; simp at htp
    | some tq' =>
      rw [htq] at htp
      simp only [Option.map_some'] at htp
      cases htp
      rw [List.cons_append, textPathAt_cons]
      dsimp only [Node.children]
      rw [get?_set_self cs i ci' (get?_some_lt hg)]
      show Option.map (fun q => ci'.text :: q)
        (ci'.textPathAt (rest ++ [p.children.length])) = _
      rw [ih hci hp htq]
      rw [(appendAt_root_pres hci).1]
      rfl

/-- Appending a `Good` leaf under a `plain` node whose children do not
already carry the new text preserves the invariant. -/
theorem Good_append {w : World} {c : Node} {pos : Pos} :
    ∀ {n n' p : Node} {rp tp : Pth},
      Good w rp n → n.getAt pos = some p → n.textPathAt pos = some tp →
      p.kind = .plain → (∀ cc ∈ p.children, cc.text ≠ c.text) →
      Good w (rp ++ tp ++ [c.text]) c →
      n.appendAt pos c = some n' →
      Good w rp n' := by
  induction pos with
  | nil =>
    intro n n' p rp tp hg hget htp hplain hnotin hcgood happ
    cases n with | mk t k cs =>
    have h' : some (Node.mk t k (cs ++ [c])) = some n' := happ
    cases h'
    cases hget
    have htp' : some ([] : Pth) = some tp := htp
    cases htp'
    cases hg with
    | intro hnd hkind hleaf hch =>
      refine Good.intro ?_ hkind ?_ ?_
      · rw [List.map_append, List.map_singleton]
        apply List.Nodup.append hnd (List.nodup_singleton _)
        intro a ha hb
        obtain ⟨cc, hcc, hcct⟩ := List.mem_map.mp ha
        have : a = c.text := List.mem_singleton.mp hb
        exact hnotin cc hcc (hcct.trans this)
      · intro sp' tp' st' hk
        have hpk : k = NodeKind.plain := hplain
        rw [hk] at hpk
        exact absurd hpk (by simp)
      · intro cc hcc
        rcases List.mem_append.mp hcc with hcc | hcc
        · exact hch cc hcc
        · have : cc = c := List.mem_singleton.mp hcc
          subst this
          simpa using hcgood
  | cons i rest ih =>
    intro n n' p rp tp hg hget htp hplain hnotin hcgood happ
    cases n with | mk t k cs =>
    obtain ⟨ci, ci', hgi, hci, hn'⟩ := appendAt_cons_elim happ
    subst hn'
    rw [getAt_cons] at hget
    rw [textPathAt_cons] at htp
    dsimp only [Node.children] at hget htp
    rw [hgi] at hget htp
    dsimp only at hget htp
    match htq : ci.textPathAt rest with
    | none => rw [htq] at htp; simp at htp
    | some tq' =>
      rw [htq] at htp
      simp only [Option.map_some'] at htp
      cases htp
      cases hg with
      | intro hnd hkind hleaf hch =>
        have hcimem : ci ∈ cs := List.get?_mem hgi
        have hcigood : Good w (rp ++ [ci.text]) ci := hch ci hcimem
        have hcgood' : Good w ((rp ++ [ci.text]) ++ tq' ++ [c.text]) c := by
          simpa [List.append_assoc] using hcgood
        have hci'good : Good w (rp ++ [ci.text]) ci' :=
          ih hcigood hget htq hplain hnotin hcgood' hci
        have htext : ci'.text = ci.text := (appendAt_root_pres hci).1
        refine Good.intro ?_ hkind ?_ ?_
        · rw [map_set_eq Node.text hgi htext]; exact hnd
        · intro sp tp' st hk
          subst hk
          have := hleaf _ _ _ rfl
          subst this
          simp at hgi
        · intro cc hcc
          rcases mem_set_elim hcc with hcc | hcc
          · exact hch cc hcc
          · subst hcc
            rw [htext]
            exact hci'good
/-! ## Resolution lemmas -/

theorem findIdxByText_some {cs : List Node} {name : String} {i : Nat} {c : Node}
    (h : findIdxByText cs name = some (i, c)) :
    cs.get? i = some c ∧ c.text = name := by
  induction cs generalizing i with
  | nil => simp [findIdxByText] at h
  | cons x xs ih =>
    simp only [findIdxByText] at h
    by_cases hx : x.text = name
    · rw [if_pos hx] at h
      simp only [Option.some.injEq, Prod.mk.injEq] at h
      obtain ⟨h1, h2⟩ := h
      subst h1
      subst h2
      exact ⟨rfl, hx⟩
    · rw [if_neg hx] at h
      match hr : findIdxByText xs name with
      | none => rw [hr] at h; simp at h
      | some (j, cj) =>
        rw [hr] at h
        simp only [Option.map_some', Option.some.injEq, Prod.mk.injEq] at h
        obtain ⟨h1, h2⟩ := h
        subst h2
        obtain ⟨hg, ht⟩ := ih hr
        rw [← h1]
        exact ⟨hg, ht⟩

theorem findIdxByText_none {cs : List Node} {name : String}
    (h : findIdxByText cs name = none) : ∀ c ∈ cs, c.text ≠ name := by
  induction cs with
  | nil => intro c hc; simp at hc
  | cons x xs ih =>
    simp only [findIdxByText] at h
    by_cases hx : x.text = name
    · rw [if_pos hx] at h; simp at h
    · rw [if_neg hx] at h
      intro c hc
      rcases List.mem_cons.mp hc with hc | hc
      · subst hc; exact hx
      · match hr : findIdxByText xs name with
        | none => exact ih hr c hc
        | some (j, cj) => rw [hr] at h; simp at h

theorem findIdxByText_of_nodup {cs : List Node} {i : Nat} {ci : Node}
    (hnd : (cs.map Node.text).Nodup) (hg : cs.get? i = some ci) :
    findIdxByText cs ci.text = some (i, ci) := by
  induction cs generalizing i with
  | nil => simp at hg
  | cons x xs ih =>
    simp only [List.map_cons, List.nodup_cons] at hnd
    cases i with
    | zero =>
      have hx : x = ci := Option.some.inj hg
      subst hx
      simp [findIdxByText]
    | succ j =>
      have hg' : xs.get? j = some ci := hg
      have hci : ci ∈ xs := List.get?_mem hg'
      have hx : x.text ≠ ci.text := by
        intro hc
        exact hnd.1 (hc ▸ List.mem_map.mpr ⟨ci, hci, rfl⟩)
      simp only [findIdxByText, if_neg hx, ih hnd.2 hg']

theorem resolveAux_reach {w : World} :
    ∀ {relPos : Pos} {n d : Node} {rp tq : Pth} (pos : Pos),
      Good w rp n → n.getAt relPos = some d →
      n.textPathAt relPos = some tq →
      resolveAux (some (n, pos)) tq = .ok (some (d, pos ++ relPos)) := by
  intro relPos
  induction relPos with
  | nil =>
    intro n d rp tq pos hGood hget htp
    cases hget
    have htp' : some ([] : Pth) = some tq := htp
    cases htp'
    simp [resolveAux]
  | cons i qr ih =>
    intro n d rp tq pos hGood hget htp
    rw [getAt_cons] at hget
    rw [textPathAt_cons] at htp
    match hg : n.children.get? i with
    | none => rw [hg] at hget; simp at hget
    | some ci =>
      rw [hg] at hget htp
      dsimp only at hget htp
      match htq : ci.textPathAt qr with
      | none => rw [htq] at htp; simp at htp
      | some tq' =>
        rw [htq] at htp
        simp only [Option.map_some'] at htp
        cases htp
        have hfind : findChildByName n ci.text = some (i, ci) :=
          findIdxByText_of_nodup hGood.nodup hg
        show resolveAux (some (n, pos)) (ci.text :: tq') = _
        simp only [resolveAux, hfind]
        have hcig : Good w (rp ++ [ci.text]) ci :=
          hGood.child ci (List.get?_mem hg)
        rw [ih (pos ++ [i]) hcig hget htq]
        simp [List.append_assoc]

theorem resolveAux_append_of_some {p : Pth} :
    ∀ {n d : Node} {pos pos' : Pos},
      resolveAux (some (n, pos)) p = .ok (some (d, pos')) →
      ∀ q, resolveAux (some (n, pos)) (p ++ q) = resolveAux (some (d, pos')) q := by
  induction p with
  | nil =>
    intro n d pos pos' h q
    have h' : Except.ok (ε := Unit) (some (n, pos)) = .ok (some (d, pos')) := h
    obtain ⟨h1, h2⟩ := Prod.mk.injEq .. ▸ Option.some.inj (Except.ok.inj h')
    subst h1; subst h2
    rfl
  | cons a pr ih =>
    intro n d pos pos' h q
    show resolveAux (some (n, pos)) (a :: (pr ++ q)) = _
    have hstep : resolveAux (some (n, pos)) (a :: pr) =
        match findChildByName n a with
        | some (i, c) => resolveAux (some (c, pos ++ [i])) pr
        | none => resolveAux none pr := rfl
    match hf : findChildByName n a with
    | some (i, c) =>
      rw [hstep, hf] at h
      dsimp only at h
      simp only [resolveAux, hf]
      exact ih h q
    | none =>
      rw [hstep, hf] at h
      dsimp only at h
      exfalso
      cases pr with
      | nil => exact absurd (Except.ok.inj h) (by simp)
      | cons b pr' => exact absurd h (by simp [resolveAux])

/-- Computation of `findChildByPath` on a path `dRel ++ [name]` whose
prefix resolves (through the invariant) to `item`. -/
theorem findChildByPath_snoc {w : World} {top item : Node} {ipos : Pos}
    {dRel : Pth} (name : String)
    (hGood : Good w [] top) (hget : top.getAt ipos = some item)
    (htp : top.textPathAt ipos = some dRel) :
    findChildByPath [top] (dRel ++ [name]) =
      match findIdxByText item.children name with
      | some (j, c) => .ok (some (c, ((0 :: ipos : Pos) ++ [j])))
      | none => .ok none := by
  have htop : topLevelItem [top] = some top := rfl
  have hne : (dRel ++ [name]).isEmpty = false := by
    cases dRel <;> rfl
  show (match topLevelItem [top] with
    | none => Except.error ()
    | some t =>
      if (dRel ++ [name]).isEmpty then .ok (some (t, [0]))
      else resolveAux (some (t, [0])) (dRel ++ [name])) = _
  rw [htop]
  dsimp only
  rw [if_neg (by simp [hne])]
  rw [resolveAux_append_of_some (resolveAux_reach [0] hGood hget htp) [name]]
  show (match findChildByName item name with
    | some (i, c) => resolveAux (some (c, ((0 :: ipos : Pos) ++ [i]))) []
    | none => resolveAux none []) = _
  match hf : findIdxByText item.children name with
  | some (j, c) =>
    have hf' : findChildByName item name = some (j, c) := hf
    rw [hf']
    rfl
  | none =>
    have hf' : findChildByName item name = none := hf
    rw [hf']
    rfl

/-! ## Model-level bridges -/

theorem getAtM_single (top : Node) (q : Pos) :
    getAtM [top] (0 :: q) = top.getAt q := rfl

theorem appendAtM_single {top n' : Node} (c : Node) (q : Pos)
    (h : top.appendAt q c = some n') :
    appendAtM [top] (0 :: q) c = some [n'] := by
  show (match ([top] : Model).get? 0 with
    | some n =>
      match n.appendAt q c with
      | some n2 => some (([top] : Model).set 0 n2)
      | none => none
    | none => none) = some [n']
  rw [show ([top] : Model).get? 0 = some top from rfl]
  dsimp only
  rw [h]
  rfl

/-! ## Status-evaluation error lemmas (file/directory collisions) -/

theorem exists?_of_isdir {w : World} {p : Pth} (h : isdir w p = true) :
    exists? w p = true := by
  unfold isdir at h
  unfold exists?
  revert h
  match pathLookup w p with
  | some (.dir es) => intro h; rfl
  | some (.file c) => intro h; simp at h
  | some .other => intro h; simp at h
  | none => intro h; simp at h

theorem exists?_of_isfile {w : World} {p : Pth} (h : isfile w p = true) :
    exists? w p = true := by
  unfold isfile at h
  unfold exists?
  revert h
  match pathLookup w p with
  | some (.file c) => intro h; rfl
  | some (.dir es) => intro h; simp at h
  | some .other => intro h; simp at h
  | none => intro h; simp at h

theorem openFile_of_isdir {w : World} {p : Pth} (h : isdir w p = true) :
    openFile w p = none := by
  unfold isdir at h
  unfold openFile
  revert h
  match pathLookup w p with
  | some (.dir es) => intro h; rfl
  | some (.file c) => intro h; simp at h
  | some .other => intro h; simp at h
  | none => intro h; simp at h

theorem isfile_isdir_exclusive {w : World} {p : Pth}
    (h1 : isfile w p = true) (h2 : isdir w p = true) : False := by
  unfold isfile at h1
  unfold isdir at h2
  revert h1 h2
  match pathLookup w p with
  | some (.file c) => intro h1 h2; simp at h2
  | some (.dir es) => intro h1 h2; simp at h1
  | some .other => intro h1 h2; simp at h1
  | none => intro h1 h2; simp at h1

theorem eval_error_dir_left {w : World} {a b : Pth}
    (ha : isdir w a = true) (hb : exists? w b = true) :
    evaluateFileStatus w a b = .error () := by
  rw [evaluateFileStatus, if_pos (exists?_of_isdir ha), if_pos hb]
  have : isIdentical w a b = .error () := by
    rw [isIdentical, openFile_of_isdir ha]
  rw [this]

theorem eval_error_dir_right {w : World} {a b : Pth}
    (ha : isfile w a = true) (hb : isdir w b = true) :
    evaluateFileStatus w a b = .error () := by
  rw [evaluateFileStatus, if_pos (exists?_of_isfile ha),
    if_pos (exists?_of_isdir hb)]
  have hfa : ∃ c, openFile w a = some c := by
    unfold isfile at ha
    unfold openFile
    revert ha
    match pathLookup w a with
    | some (.file c) => intro ha; exact ⟨c, rfl⟩
    | some (.dir es) => intro ha; simp at ha
    | some .other => intro ha; simp at ha
    | none => intro ha; simp at ha
  obtain ⟨c, hc⟩ := hfa
  have : isIdentical w a b = .error () := by
    rw [isIdentical, hc, openFile_of_isdir hb]
  rw [this]

/-! ## Relative-path computation lemmas -/

theorem prefixSeg_self_append (r x : Pth) : prefixSeg r (r ++ x) = true :=
  prefixSeg_of_strip (stripRoot_append r x)

theorem makeRel_src (w : World) (x : Pth) :
    makePathRelative w (w.src ++ x) = x := by
  rw [makePathRelative, isSourceFile, if_pos (by rw [prefixSeg_self_append])]
  rw [relpathSeg, stripRoot_append]

theorem makeRel_tgt {w : World} (hd : RootsDisjoint w) (x : Pth) :
    makePathRelative w (w.tgt ++ x) = x := by
  rw [makePathRelative, isSourceFile,
    if_neg (by rw [not_prefix_src_tgt_ext hd]; simp)]
  rw [relpathSeg, stripRoot_append]

theorem filename_concat (xs : Pth) (a : String) :
    filename (xs ++ [a]) = a := by
  rw [filename, List.getLast?_concat]
  rfl

/-! ## Wellformedness propagation -/

theorem FSWfO_lookupRel {obj : Option FSNode} {p : Pth} {x : FSNode}
    (hwf : FSWfO obj) (h : lookupRel obj p = some x) : FSWf x := by
  induction p generalizing obj with
  | nil => rw [lookupRel_nil] at h; exact hwf x h
  | cons s rest ih =>
    match obj with
    | none => simp [lookupRel] at h
    | some (.file c) => simp [lookupRel] at h
    | some .other => simp [lookupRel] at h
    | some (.dir es) =>
      have h' : lookupRel (lookupName es s) rest = some x := h
      refine ih ?_ h'
      intro n hn
      exact FSWf_lookupName (hwf _ rfl) hn

/-! ## Walked-root bookkeeping and the construction invariant proof -/

/-- The root currently being walked by `addDirectoryItem`, together with
its filesystem object. -/
def WalkedRoot (w : World) (R : Pth) (obj : Option FSNode) : Prop :=
  (R = w.src ∧ obj = w.srcObj) ∨ (R = w.tgt ∧ obj = w.tgtObj)

theorem pathLookup_walked {w : World} {R : Pth} {obj : Option FSNode}
    (hd : RootsDisjoint w) (hR : WalkedRoot w R obj) (x : Pth) :
    pathLookup w (R ++ x) = lookupRel obj x := by
  rcases hR with ⟨h1, h2⟩ | ⟨h1, h2⟩ <;> subst h1 <;> subst h2
  · exact pathLookup_src w x
  · exact pathLookup_tgt hd x

theorem makeRel_walked {w : World} {R : Pth} {obj : Option FSNode}
    (hd : RootsDisjoint w) (hR : WalkedRoot w R obj) (x : Pth) :
    makePathRelative w (R ++ x) = x := by
  rcases hR with ⟨h1, h2⟩ | ⟨h1, h2⟩ <;> subst h1
  · exact makeRel_src w x
  · exact makeRel_tgt hd x

theorem lookupRel_snoc (obj : Option FSNode) (p : Pth) (s : String) :
    lookupRel obj (p ++ [s]) =
      match lookupRel obj p with
      | some (.dir es) => lookupName es s
      | _ => none := by
  rw [lookupRel_append]
  match lookupRel obj p with
  | none => rfl
  | some (.file c) => rfl
  | some .other => rfl
  | some (.dir es) => show lookupRel (lookupName es s) [] = _; rw [lookupRel_nil]

/-- Monotone relation between an item tree and its extension: every item
keeps its position, text and kind, and all text paths survive. -/
def Pres (top top' : Node) : Prop :=
  (∀ q p, top.getAt q = some p →
    ∃ p', top'.getAt q = some p' ∧ p'.text = p.text ∧ p'.kind = p.kind) ∧
  (∀ q tq, top.textPathAt q = some tq → top'.textPathAt q = some tq)

theorem Pres.refl (top : Node) : Pres top top :=
  ⟨fun _ p h => ⟨p, h, rfl, rfl⟩, fun _ _ h => h⟩

theorem Pres.trans {a b c : Node} (h1 : Pres a b) (h2 : Pres b c) :
    Pres a c := by
  refine ⟨fun q p h => ?_, fun q tq h => h2.2 q tq (h1.2 q tq h)⟩
  obtain ⟨p1, hp1, ht1, hk1⟩ := h1.1 q p h
  obtain ⟨p2, hp2, ht2, hk2⟩ := h2.1 q p1 hp1
  exact ⟨p2, hp2, ht2.trans ht1, hk2.trans hk1⟩

theorem Pres_of_append {top top' c : Node} {pos : Pos}
    (h : top.appendAt pos c = some top') : Pres top top' :=
  ⟨fun q p hq => appendAt_getAt_pres h q p hq,
   fun q tq hq => appendAt_textPath_pres h q tq hq⟩

theorem getAt_append (n : Node) (p q : Pos) :
    n.getAt (p ++ q) =
      match n.getAt p with
      | some d => d.getAt q
      | none => none := by
  induction p generalizing n with
  | nil => rfl
  | cons i pr ih =>
    rw [List.cons_append, getAt_cons, getAt_cons]
    match n.children.get? i with
    | some ci => exact ih ci
    | none => rfl

theorem textPathAt_append_child {n d c : Node} {p : Pos} {tp : Pth} {j : Nat}
    (hget : n.getAt p = some d) (htp : n.textPathAt p = some tp)
    (hc : d.children.get? j = some c) :
    n.textPathAt (p ++ [j]) = some (tp ++ [c.text]) := by
  induction p generalizing n tp with
  | nil =>
    cases hget
    have htp' : some ([] : Pth) = some tp := htp
    cases htp'
    rw [List.nil_append, textPathAt_cons, hc]
    rfl
  | cons i pr ih =>
    rw [getAt_cons] at hget
    rw [textPathAt_cons] at htp
    match hg : n.children.get? i with
    | none => rw [hg] at hget; simp at hget
    | some ci =>
      rw [hg] at hget htp
      dsimp only at hget htp
      match htq : ci.textPathAt pr with
      | none => rw [htq] at htp; simp at htp
      | some tq' =>
        rw [htq] at htp
        simp only [Option.map_some'] at htp
        cases htp
        rw [List.cons_append, textPathAt_cons, hg]
        dsimp only
        rw [ih hget htq]
        rfl

/-- `addFileItem` written out with its `let`s expanded (definitional). -/
theorem addFileItem_eq (w : World) (filePath : Pth) (parent : Option Pos)
    (m : Model) :
    addFileItem w filePath parent m =
      match findChildByPath m (makePathRelative w filePath) with
      | .error _ => .exn m
      | .ok (some _) => .ok m
      | .ok none =>
        match evaluateFileStatus w
            (if isSourceFile w filePath then filePath
              else w.src ++ makePathRelative w filePath)
            (if isSourceFile w filePath then w.tgt ++ makePathRelative w filePath
              else filePath) with
        | .error _ => .exn m
        | .ok status =>
          match parent with
          | none => .exn m
          | some pos =>
            match appendAtM m pos
                (.mk (filename (if isSourceFile w filePath then filePath
                    else w.src ++ makePathRelative w filePath))
                  (.depot
                    (if isSourceFile w filePath then filePath
                      else w.src ++ makePathRelative w filePath)
                    (if isSourceFile w filePath then
                        w.tgt ++ makePathRelative w filePath
                      else filePath) status) []) with
            | some m' => .ok m'
            | none => .exn m := rfl

/-- `dirStep` written out with its `let` expanded (definitional). -/
theorem dirStep_eq (w : World) (directory : Pth) (parent : Option Pos)
    (m : Model) :
    dirStep w directory parent m =
      match findChildByPath m (makePathRelative w directory) with
      | .error _ => .error m
      | .ok (some (_, pos)) => .ok (m, pos)
      | .ok none =>
        match parent with
        | none => .error m
        | some ppos =>
          match getAtM m ppos with
          | some pn =>
            match appendAtM m ppos (.mk (filename directory) .plain []) with
            | some m' => .ok (m', ppos ++ [pn.children.length])
            | none => .error m
          | none => .error m := rfl

/-- Behaviour of `addFileItem` for a file entry of a walked directory:
either it returns normally with the invariant intact (no-op when the
relative path already has an item, append of a truthful depot item
otherwise), or it raises leaving the model unchanged. -/
theorem addFileItem_spec {w : World} {R : Pth} {obj : Option FSNode}
    {top item : Node} {ipos : Pos} {dRel : Pth} {name : String} {cnt : Content}
    (hd : RootsDisjoint w) (hR : WalkedRoot w R obj)
    (hGood : Good w [] top)
    (hget : top.getAt ipos = some item) (htp : top.textPathAt ipos = some dRel)
    (hplain : item.kind = .plain)
    (hlf : lookupRel obj (dRel ++ [name]) = some (.file cnt))
    (hpyc : name.endsWith ".pyc" = false) :
    (∃ top', addFileItem w (R ++ (dRel ++ [name])) (some (0 :: ipos)) [top] =
        .ok [top'] ∧ Good w [] top' ∧ Pres top top') ∨
    addFileItem w (R ++ (dRel ++ [name])) (some (0 :: ipos)) [top] =
      .exn [top] := by
  have hrel : makePathRelative w (R ++ (dRel ++ [name])) = dRel ++ [name] :=
    makeRel_walked hd hR (dRel ++ [name])
  have hspv : (if isSourceFile w (R ++ (dRel ++ [name]))
      then R ++ (dRel ++ [name])
      else w.src ++ (dRel ++ [name])) =
      w.src ++ (dRel ++ [name]) := by
    rcases hR with ⟨h1, h2⟩ | ⟨h1, h2⟩ <;> subst h1
    · rw [if_pos]
      rw [isSourceFile, prefixSeg_self_append]
    · rw [if_neg]
      rw [isSourceFile, not_prefix_src_tgt_ext hd]
      simp
  have htpv : (if isSourceFile w (R ++ (dRel ++ [name]))
      then w.tgt ++ (dRel ++ [name])
      else R ++ (dRel ++ [name])) =
      w.tgt ++ (dRel ++ [name]) := by
    rcases hR with ⟨h1, h2⟩ | ⟨h1, h2⟩ <;> subst h1
    · rw [if_pos]
      rw [isSourceFile, prefixSeg_self_append]
    · rw [if_neg]
      rw [isSourceFile, not_prefix_src_tgt_ext hd]
      simp
  have hisf : isfile w (R ++ (dRel ++ [name])) = true := by
    rw [isfile, pathLookup_walked hd hR, hlf]
  rw [addFileItem_eq, hrel, hspv, htpv]
  rw [findChildByPath_snoc name hGood hget htp]
  match hf : findIdxByText item.children name with
  | some (j, c) =>
    exact .inl ⟨top, rfl, hGood, Pres.refl top⟩
  | none =>
    match hev : evaluateFileStatus w (w.src ++ (dRel ++ [name]))
        (w.tgt ++ (dRel ++ [name])) with
    | .error e => cases e; exact .inr rfl
    | .ok st =>
      have hfn : filename (w.src ++ (dRel ++ [name])) = name := by
        rw [show w.src ++ (dRel ++ [name]) = (w.src ++ dRel) ++ [name] by
          simp [List.append_assoc]]
        exact filename_concat _ _
      obtain ⟨top1, happ⟩ := appendAt_of_getAt
        (Node.mk (filename (w.src ++ (dRel ++ [name])))
          (.depot (w.src ++ (dRel ++ [name])) (w.tgt ++ (dRel ++ [name])) st) [])
        hget
      dsimp only
      rw [appendAtM_single _ _ happ]
      refine .inl ⟨top1, rfl, ?_, Pres_of_append happ⟩
      have hkind : KindOk w (dRel ++ [name])
          (NodeKind.depot (w.src ++ (dRel ++ [name]))
            (w.tgt ++ (dRel ++ [name])) st) := by
        refine ⟨rfl, rfl, hev, ?_, ?_, by simp⟩
        · rcases hR with ⟨h1, h2⟩ | ⟨h1, h2⟩ <;> subst h1
          · exact .inl hisf
          · exact .inr hisf
        · rw [hfn]
          exact hpyc
      have hcgood : Good w ([] ++ dRel ++
          [(Node.mk (filename (w.src ++ (dRel ++ [name])))
            (.depot (w.src ++ (dRel ++ [name])) (w.tgt ++ (dRel ++ [name])) st)
            []).text]) (Node.mk (filename (w.src ++ (dRel ++ [name])))
            (.depot (w.src ++ (dRel ++ [name])) (w.tgt ++ (dRel ++ [name])) st)
            []) := by
        show Good w ([] ++ dRel ++ [filename (w.src ++ (dRel ++ [name]))]) _
        rw [hfn, List.nil_append]
        exact Good.intro (by simp) hkind (fun _ _ _ _ => rfl) (by simp)
      exact Good_append hGood hget htp hplain
        (fun cc hcc => by
          rw [show (Node.mk (filename (w.src ++ (dRel ++ [name])))
            (.depot (w.src ++ (dRel ++ [name])) (w.tgt ++ (dRel ++ [name])) st)
            []).text = filename (w.src ++ (dRel ++ [name])) from rfl, hfn]
          exact findIdxByText_none hf cc hcc)
        hcgood happ

/-- Behaviour of `dirStep` for a sub-directory of a walked directory: it
finds the existing folder item (necessarily `plain`) or creates a new
one, never raising, and returns the item's position. -/
theorem dirStep_spec {w : World} {R : Pth} {obj : Option FSNode}
    {top item : Node} {ipos : Pos} {dRel : Pth} {name : String}
    {es2 : List (String × FSNode)}
    (hd : RootsDisjoint w) (hR : WalkedRoot w R obj)
    (hGood : Good w [] top)
    (hget : top.getAt ipos = some item) (htp : top.textPathAt ipos = some dRel)
    (hplain : item.kind = .plain)
    (hld : lookupRel obj (dRel ++ [name]) = some (.dir es2)) :
    ∃ top' item' jpos,
      dirStep w (R ++ (dRel ++ [name])) (some (0 :: ipos)) [top] =
        .ok ([top'], 0 :: jpos) ∧
      Good w [] top' ∧ Pres top top' ∧
      top'.getAt jpos = some item' ∧
      top'.textPathAt jpos = some (dRel ++ [name]) ∧
      item'.kind = .plain := by
  have hrel : makePathRelative w (R ++ (dRel ++ [name])) = dRel ++ [name] :=
    makeRel_walked hd hR (dRel ++ [name])
  have hisd : isdir w (R ++ (dRel ++ [name])) = true := by
    rw [isdir, pathLookup_walked hd hR, hld]
  have hfn : filename (R ++ (dRel ++ [name])) = name := by
    rw [show R ++ (dRel ++ [name]) = (R ++ dRel) ++ [name] by
      simp [List.append_assoc]]
    exact filename_concat _ _
  rw [dirStep_eq, hrel]
  rw [findChildByPath_snoc name hGood hget htp]
  match hf : findIdxByText item.children name with
  | some (j, c) =>
    obtain ⟨hgj, htj⟩ := findIdxByText_some hf
    have hgetc : top.getAt (ipos ++ [j]) = some c := by
      rw [getAt_append, hget]
      dsimp only
      rw [getAt_cons, hgj]
      rfl
    have htpc : top.textPathAt (ipos ++ [j]) = some (dRel ++ [name]) := by
      rw [← htj]
      exact textPathAt_append_child hget htp hgj
    have hcgood : Good w ([] ++ (dRel ++ [name])) c := Good.sub hGood hgetc htpc
    have hcplain : c.kind = .plain := by
      match hk : c.kind with
      | .plain => rfl
      | .depot sp tp st =>
        exfalso
        have hko := hcgood.kindOk
        rw [hk] at hko
        obtain ⟨hsp, htp', hev, hexf, _, _⟩ := hko
        rw [List.nil_append] at hsp htp'
        rcases hR with ⟨h1, h2⟩ | ⟨h1, h2⟩ <;> subst h1
        · rcases hexf with hexf | hexf
          · exact isfile_isdir_exclusive (hsp ▸ hexf) hisd
          · rw [eval_error_dir_left (hsp ▸ hisd)
              (exists?_of_isfile (htp' ▸ hexf))] at hev
            exact absurd hev (by simp)
        · rcases hexf with hexf | hexf
          · rw [eval_error_dir_right (hsp ▸ hexf) (htp' ▸ hisd)] at hev
            exact absurd hev (by simp)
          · exact isfile_isdir_exclusive (htp' ▸ hexf) hisd
    refine ⟨top, c, ipos ++ [j], rfl, hGood,
      Pres.refl top, hgetc, htpc, hcplain⟩
  | none =>
    obtain ⟨top1, happ⟩ := appendAt_of_getAt
      (Node.mk (filename (R ++ (dRel ++ [name]))) .plain []) hget
    have hstep : getAtM [top] (0 :: ipos) = some item := by
      rw [getAtM_single]; exact hget
    dsimp only
    rw [hstep]
    dsimp only
    rw [appendAtM_single _ _ happ]
    have hkind : KindOk w (dRel ++ [name]) NodeKind.plain := by
      rcases hR with ⟨h1, h2⟩ | ⟨h1, h2⟩ <;> subst h1
      · exact .inr (.inl hisd)
      · exact .inr (.inr hisd)
    have hcgood : Good w ([] ++ dRel ++
        [(Node.mk (filename (R ++ (dRel ++ [name]))) .plain []).text])
        (Node.mk (filename (R ++ (dRel ++ [name]))) .plain []) := by
      show Good w ([] ++ dRel ++ [filename (R ++ (dRel ++ [name]))]) _
      rw [hfn, List.nil_append]
      exact Good.intro (by simp) hkind (by simp) (by simp)
    have hgood1 : Good w [] top1 :=
      Good_append hGood hget htp hplain
        (fun cc hcc => by
          rw [show (Node.mk (filename (R ++ (dRel ++ [name]))) .plain []).text
            = filename (R ++ (dRel ++ [name])) from rfl, hfn]
          exact findIdxByText_none hf cc hcc)
        hcgood happ
    refine ⟨top1, Node.mk (filename (R ++ (dRel ++ [name]))) .plain [],
      ipos ++ [item.children.length], rfl, hgood1,
      Pres_of_append happ, appendAt_getAt_new happ hget, ?_, rfl⟩
    have := appendAt_textPath_new happ hget htp
    rw [show (Node.mk (filename (R ++ (dRel ++ [name]))) .plain []).text
      = filename (R ++ (dRel ++ [name])) from rfl, hfn] at this
    exact this

theorem walked_wf {w : World} {R : Pth} {obj : Option FSNode}
    (hwf : WorldWf w) (hR : WalkedRoot w R obj) : FSWfO obj := by
  rcases hR with ⟨h1, h2⟩ | ⟨h1, h2⟩ <;> subst h2
  · exact hwf.1
  · exact hwf.2

theorem lookupRel_child {obj : Option FSNode} {fullEs : List (String × FSNode)}
    {dRel : Pth} {name : String} {x : FSNode}
    (hfull : lookupRel obj dRel = some (.dir fullEs))
    (hnd : (fullEs.map Prod.fst).Nodup)
    (hmem : (name, x) ∈ fullEs) :
    lookupRel obj (dRel ++ [name]) = some x := by
  rw [lookupRel_snoc, hfull]
  show lookupName fullEs name = some x
  exact mem_lookupName hnd hmem

theorem fullEs_nodup {w : World} {R : Pth} {obj : Option FSNode}
    {dRel : Pth} {fullEs : List (String × FSNode)}
    (hwf : WorldWf w) (hR : WalkedRoot w R obj)
    (hfull : lookupRel obj dRel = some (.dir fullEs)) :
    (fullEs.map Prod.fst).Nodup := by
  have := FSWfO_lookupRel (walked_wf hwf hR) hfull
  cases this with
  | dir es hnd hch => exact hnd

/-- Main invariant-preservation lemma: the listing loop of
`addDirectoryItem`, run on a walked directory of either root, keeps the
model a single `Good` top-level tree and only extends it. -/
theorem addEntries_inv (w : World) (hd : RootsDisjoint w) (hwf : WorldWf w)
    (directory : Pth) (entries : List (String × FSNode)) (itemPos : Pos)
    (m : Model) :
    ∀ (R : Pth) (obj : Option FSNode) (fullEs : List (String × FSNode))
      (top item : Node) (ipos : Pos) (dRel : Pth),
      WalkedRoot w R obj → directory = R ++ dRel →
      lookupRel obj dRel = some (.dir fullEs) →
      (∀ e ∈ entries, e ∈ fullEs) →
      m = [top] → itemPos = 0 :: ipos → Good w [] top →
      top.getAt ipos = some item → top.textPathAt ipos = some dRel →
      item.kind = .plain →
      ∃ top', (addEntries w directory entries itemPos m).model = [top'] ∧
        Good w [] top' ∧ Pres top top' := by
  induction directory, entries, itemPos, m using addEntries.induct with
  | w => exact w
  | case1 directory itemPos m =>
    intro R obj fullEs top item ipos dRel hR hdir hfull hsub hm hip hGood hget
      htp hplain
    subst hm
    refine ⟨top, ?_, hGood, Pres.refl top⟩
    simp only [addEntries]
    rfl
  | case2 directory name rest itemPos m a hpyc ih =>
    intro R obj fullEs top item ipos dRel hR hdir hfull hsub hm hip hGood hget
      htp hplain
    obtain ⟨top', hmod, hGood', hPres⟩ := ih R obj fullEs top item ipos dRel hR
      hdir hfull (fun e he => hsub e (List.mem_cons_of_mem _ he)) hm hip hGood
      hget htp hplain
    refine ⟨top', ?_, hGood', hPres⟩
    simp only [addEntries]
    rw [if_pos hpyc]
    exact hmod
  | case3 directory name rest itemPos m fp a hnpyc m1 haf ih =>
    intro R obj fullEs top item ipos dRel hR hdir hfull hsub hm hip hGood hget
      htp hplain
    subst hdir; subst hm; subst hip
    have hndf := fullEs_nodup hwf hR hfull
    have hmem : (name, FSNode.file a) ∈ fullEs := hsub _ (List.mem_cons_self _ _)
    have hlf := lookupRel_child hfull hndf hmem
    have hpyc' : name.endsWith ".pyc" = false := by simpa using hnpyc
    have haf' : addFileItem w (R ++ (dRel ++ [name])) (some (0 :: ipos)) [top]
        = .ok m1 := by
      rw [← List.append_assoc]
      exact haf
    rcases addFileItem_spec hd hR hGood hget htp hplain hlf hpyc' with
      ⟨top1, hok, hGood1, hPres1⟩ | hexn
    · rw [haf'] at hok
      have hm1 : m1 = [top1] := BuildRes.ok.inj hok
      obtain ⟨item1, hget1, htext1, hkind1⟩ := hPres1.1 ipos item hget
      have htp1 := hPres1.2 ipos dRel htp
      obtain ⟨top2, hmod2, hGood2, hPres2⟩ := ih R obj fullEs top1 item1 ipos
        dRel hR rfl hfull (fun e he => hsub e (List.mem_cons_of_mem _ he)) hm1
        rfl hGood1 hget1 htp1 (hkind1.trans hplain)
      refine ⟨top2, ?_, hGood2, hPres1.trans hPres2⟩
      simp only [addEntries]
      rw [if_neg hnpyc, haf]
      exact hmod2
    · rw [haf'] at hexn
      exact absurd hexn (by simp)
  | case4 directory name rest itemPos m fp a hnpyc m1 haf =>
    intro R obj fullEs top item ipos dRel hR hdir hfull hsub hm hip hGood hget
      htp hplain
    subst hdir; subst hm; subst hip
    have hndf := fullEs_nodup hwf hR hfull
    have hmem : (name, FSNode.file a) ∈ fullEs := hsub _ (List.mem_cons_self _ _)
    have hlf := lookupRel_child hfull hndf hmem
    have hpyc' : name.endsWith ".pyc" = false := by simpa using hnpyc
    have haf' : addFileItem w (R ++ (dRel ++ [name])) (some (0 :: ipos)) [top]
        = .exn m1 := by
      rw [← List.append_assoc]
      exact haf
    rcases addFileItem_spec hd hR hGood hget htp hplain hlf hpyc' with
      ⟨top1, hok, hGood1, hPres1⟩ | hexn
    · rw [haf'] at hok
      exact absurd hok (by simp)
    · rw [haf'] at hexn
      have hm1 : m1 = [top] := (BuildRes.exn.inj hexn)
      subst hm1
      refine ⟨top, ?_, hGood, Pres.refl top⟩
      simp only [addEntries]
      rw [if_neg hnpyc, haf]
      rfl
  | case5 directory name rest itemPos m fp es2 m' hds =>
    intro R obj fullEs top item ipos dRel hR hdir hfull hsub hm hip hGood hget
      htp hplain
    subst hdir; subst hm; subst hip
    have hndf := fullEs_nodup hwf hR hfull
    have hmem : (name, FSNode.dir es2) ∈ fullEs := hsub _ (List.mem_cons_self _ _)
    have hld := lookupRel_child hfull hndf hmem
    obtain ⟨top1, item1, jpos, hok, _, _, _, _, _⟩ :=
      dirStep_spec hd hR hGood hget htp hplain hld
    rw [show fp = R ++ dRel ++ [name] from rfl, List.append_assoc] at hds
    rw [hok] at hds
    exact absurd hds (by simp)
  | case6 directory name rest itemPos m fp es2 m' childPos hds m1 hae ih1 ih2 =>
    intro R obj fullEs top item ipos dRel hR hdir hfull hsub hm hip hGood hget
      htp hplain
    subst hdir; subst hm; subst hip
    have hndf := fullEs_nodup hwf hR hfull
    have hmem : (name, FSNode.dir es2) ∈ fullEs := hsub _ (List.mem_cons_self _ _)
    have hld := lookupRel_child hfull hndf hmem
    obtain ⟨top1, item1, jpos, hok, hGood1, hPres1, hget1, htp1, hplain1⟩ :=
      dirStep_spec hd hR hGood hget htp hplain hld
    rw [show fp = R ++ dRel ++ [name] from rfl, List.append_assoc]
      at hds hae ih1
    rw [hok] at hds
    obtain ⟨hm', hcp⟩ := Prod.mk.injEq .. ▸ (Except.ok.inj hds).symm
    subst hm'
    subst hcp
    obtain ⟨top2, hmod2, hGood2, hPres2⟩ := ih1 R obj es2 top1 item1 jpos
      (dRel ++ [name]) hR rfl hld (fun e he => he) rfl
      rfl hGood1 hget1 htp1 hplain1
    rw [hae] at hmod2
    have hm1 : m1 = [top2] := hmod2
    obtain ⟨item2, hget2, htext2, hkind2⟩ :=
      (hPres1.trans hPres2).1 ipos item hget
    have htp2 := (hPres1.trans hPres2).2 ipos dRel htp
    obtain ⟨top3, hmod3, hGood3, hPres3⟩ := ih2 R obj fullEs top2 item2 ipos
      dRel hR rfl hfull (fun e he => hsub e (List.mem_cons_of_mem _ he)) hm1
      rfl hGood2 hget2 htp2 (hkind2.trans hplain)
    refine ⟨top3, ?_, hGood3, (hPres1.trans hPres2).trans hPres3⟩
    simp only [addEntries]
    rw [List.append_assoc, hok]
    dsimp only
    rw [hae]
    exact hmod3
  | case7 directory name rest itemPos m fp es2 m' childPos hds m1 hae ih1 =>
    intro R obj fullEs top item ipos dRel hR hdir hfull hsub hm hip hGood hget
      htp hplain
    subst hdir; subst hm; subst hip
    have hndf := fullEs_nodup hwf hR hfull
    have hmem : (name, FSNode.dir es2) ∈ fullEs := hsub _ (List.mem_cons_self _ _)
    have hld := lookupRel_child hfull hndf hmem
    obtain ⟨top1, item1, jpos, hok, hGood1, hPres1, hget1, htp1, hplain1⟩ :=
      dirStep_spec hd hR hGood hget htp hplain hld
    rw [show fp = R ++ dRel ++ [name] from rfl, List.append_assoc]
      at hds hae ih1
    rw [hok] at hds
    obtain ⟨hm', hcp⟩ := Prod.mk.injEq .. ▸ (Except.ok.inj hds).symm
    subst hm'
    subst hcp
    obtain ⟨top2, hmod2, hGood2, hPres2⟩ := ih1 R obj es2 top1 item1 jpos
      (dRel ++ [name]) hR rfl hld (fun e he => he) rfl
      rfl hGood1 hget1 htp1 hplain1
    rw [hae] at hmod2
    have hm1 : m1 = [top2] := hmod2
    refine ⟨top2, ?_, hGood2, hPres1.trans hPres2⟩
    simp only [addEntries]
    rw [List.append_assoc, hok]
    dsimp only
    rw [hae]
    exact hm1
  | case8 directory name rest itemPos m ih =>
    intro R obj fullEs top item ipos dRel hR hdir hfull hsub hm hip hGood hget
      htp hplain
    obtain ⟨top', hmod, hGood', hPres⟩ := ih R obj fullEs top item ipos dRel hR
      hdir hfull (fun e he => hsub e (List.mem_cons_of_mem _ he)) hm hip hGood
      hget htp hplain
    refine ⟨top', ?_, hGood', hPres⟩
    simp only [addEntries]
    exact hmod

/-- The body of `diff` after the model reset: apply `addDirectoryItem`
with no parent for each root directory in the given order. -/
def buildRoots (w : World) : List (Pth × List (String × FSNode)) → Model → BuildRes
  | [], m => .ok m
  | (d, es) :: rest, m =>
    match addDirectoryItem w d es none m with
    | .ok m' => buildRoots w rest m'
    | .exn m' => .exn m'

/-- Top-level `addDirectoryItem` call on a whole root. -/
theorem addDirectoryItem_root {w : World} {R : Pth} {obj : Option FSNode}
    {es : List (String × FSNode)} {top : Node}
    (hd : RootsDisjoint w) (hwf : WorldWf w) (hR : WalkedRoot w R obj)
    (hobj : obj = some (.dir es))
    (hGood : Good w [] top) (hplain : top.kind = .plain) :
    ∃ top', (addDirectoryItem w R es none [top]).model = [top'] ∧
      Good w [] top' ∧ Pres top top' := by
  have hrel : makePathRelative w R = [] := by
    have := makeRel_walked hd hR []
    rwa [List.append_nil] at this
  have hds : dirStep w R none [top] = .ok ([top], [0]) := by
    rw [dirStep_eq, hrel]
    rfl
  have hstep : addDirectoryItem w R es none [top] =
      addEntries w R es [0] [top] := by
    rw [addDirectoryItem, hds]
  rw [hstep]
  exact addEntries_inv w hd hwf R es [0] [top] R obj es top top [] [] hR
    (List.append_nil R).symm (by rw [lookupRel_nil]; exact hobj)
    (fun e he => he) rfl rfl hGood rfl rfl hplain

theorem kind_pres_top {top top' : Node} (hPres : Pres top top')
    (h : top.kind = .plain) : top'.kind = .plain := by
  obtain ⟨p', hp', ht', hk'⟩ := hPres.1 [] top rfl
  have heq : top' = p' := Option.some.inj hp'
  rw [heq]
  exact hk'.trans h

theorem buildRoots_inv {w : World} (hd : RootsDisjoint w) (hwf : WorldWf w) :
    ∀ (roots : List (Pth × List (String × FSNode))) (top : Node),
      (∀ rt ∈ roots, ∃ obj, WalkedRoot w rt.1 obj ∧ obj = some (.dir rt.2)) →
      Good w [] top → top.kind = .plain →
      ∃ top', (buildRoots w roots [top]).model = [top'] ∧
        Good w [] top' ∧ Pres top top' := by
  intro roots
  induction roots with
  | nil =>
    intro top hroots hGood hplain
    exact ⟨top, rfl, hGood, Pres.refl top⟩
  | cons rt rest ih =>
    intro top hroots hGood hplain
    obtain ⟨d, es⟩ := rt
    obtain ⟨obj, hR, hobj⟩ := hroots (d, es) (List.mem_cons_self _ _)
    obtain ⟨top1, hmod1, hGood1, hPres1⟩ :=
      addDirectoryItem_root hd hwf hR hobj hGood hplain
    show ∃ top', (match addDirectoryItem w d es none [top] with
      | .ok m' => buildRoots w rest m'
      | .exn m' => BuildRes.exn m').model = [top'] ∧ _
    match hcall : addDirectoryItem w d es none [top] with
    | .exn m' =>
      rw [hcall] at hmod1
      have : m' = [top1] := hmod1
      subst this
      exact ⟨top1, rfl, hGood1, hPres1⟩
    | .ok m' =>
      rw [hcall] at hmod1
      have : m' = [top1] := hmod1
      subst this
      obtain ⟨top2, hmod2, hGood2, hPres2⟩ := ih top1
        (fun r hr => hroots r (List.mem_cons_of_mem _ hr)) hGood1
        (kind_pres_top hPres1 hplain)
      exact ⟨top2, hmod2, hGood2, hPres1.trans hPres2⟩

/-- C2: throughout tree construction — `addFileItem` and
`addDirectoryItem` applied for whole roots in any order — the model
keeps at most one node per distinct relative path; adding a relative
path that already has an item creates no duplicate: `addFileItem`
returns with the model untouched, and the directory half of
`addDirectoryItem` re-uses the existing item. -/
theorem claim2_tree_unique (w : World) (hd : RootsDisjoint w) (hwf : WorldWf w)
    (roots : List (Pth × List (String × FSNode)))
    (hroots : ∀ rt ∈ roots, ∃ obj, WalkedRoot w rt.1 obj ∧
      obj = some (.dir rt.2))
    (topName : String) :
    (∃ top', (buildRoots w roots [Node.mk topName .plain []]).model = [top'] ∧
      ∀ r, (nodesAtPath r top').length ≤ 1) ∧
    (∀ (m : Model) (filePath : Pth) (parent : Option Pos) x,
      findChildByPath m (makePathRelative w filePath) = .ok (some x) →
      addFileItem w filePath parent m = .ok m) ∧
    (∀ (m : Model) (directory : Pth) (parent : Option Pos) (nd : Node)
      (pos : Pos),
      findChildByPath m (makePathRelative w directory) = .ok (some (nd, pos)) →
      dirStep w directory parent m = .ok (m, pos)) := by
  refine ⟨?_, ?_, ?_⟩
  · have hGood0 : Good w [] (Node.mk topName .plain []) :=
      Good.intro (by simp) (.inl rfl) (by simp) (by simp)
    obtain ⟨top', hmod, hGood', hPres⟩ :=
      buildRoots_inv hd hwf roots (Node.mk topName .plain []) hroots hGood0 rfl
    exact ⟨top', hmod, hGood'.count_le_one⟩
  · intro m filePath parent x hfind
    rw [addFileItem_eq, hfind]
  · intro m directory parent nd pos hfind
    rw [dirStep_eq, hfind]

/-- A wellformed, disjoint concrete world for the C2 witness. -/
def rootsEx2 : List (Pth × List (String × FSNode)) :=
  [(["s"], [("a", .file (.text "x"))]), (["t"], [("a", .file (.text "y"))])]

theorem wEx1_wf : WorldWf wEx1 := by
  constructor
  · intro n hn
    have : FSNode.dir [("a", .file (.text "x"))] = n := Option.some.inj hn
    subst this
    refine FSWf.dir _ (by simp) ?_
    intro e he
    have : e = ("a", FSNode.file (.text "x")) := by simpa using he
    subst this
    exact FSWf.file _
  · intro n hn
    have : FSNode.dir [("a", .file (.text "y"))] = n := Option.some.inj hn
    subst this
    refine FSWf.dir _ (by simp) ?_
    intro e he
    have : e = ("a", FSNode.file (.text "y")) := by simpa using he
    subst this
    exact FSWf.file _

theorem rootsEx2_ok : ∀ rt ∈ rootsEx2, ∃ obj, WalkedRoot wEx1 rt.1 obj ∧
    obj = some (.dir rt.2) := by
  intro rt hrt
  rcases (by simpa [rootsEx2] using hrt :
      rt = (["s"], [("a", FSNode.file (.text "x"))]) ∨
      rt = (["t"], [("a", FSNode.file (.text "y"))])) with h | h <;> subst h
  · exact ⟨wEx1.srcObj, .inl ⟨rfl, rfl⟩, rfl⟩
  · exact ⟨wEx1.tgtObj, .inr ⟨rfl, rfl⟩, rfl⟩

/-- Witness for C2 at a concrete input. -/
theorem claim2_witness :
    ∃ top', (buildRoots wEx1 rootsEx2 [Node.mk "s" .plain []]).model =
      [top'] ∧ ∀ r, (nodesAtPath r top').length ≤ 1 :=
  (claim2_tree_unique wEx1 ⟨rfl, rfl⟩ wEx1_wf rootsEx2 rootsEx2_ok "s").1


/-! ## C4: membership and position lemmas -/

theorem mem_nodesAtPath_pos {d : Node} {r : Pth} {n : Node}
    (h : d ∈ nodesAtPath r n) :
    ∃ pos, n.getAt pos = some d ∧ n.textPathAt pos = some r := by
  induction r generalizing n with
  | nil =>
    have hd : d = n := by simpa [nodesAtPath] using h
    subst hd
    exact ⟨[], rfl, rfl⟩
  | cons s rest ih =>
    simp only [nodesAtPath, List.mem_flatMap] at h
    obtain ⟨c, hc, hd⟩ := h
    obtain ⟨hcm, hct⟩ := List.mem_filter.mp hc
    have hct' : c.text = s := of_decide_eq_true hct
    obtain ⟨i, hi⟩ := List.mem_iff_get?.mp hcm
    obtain ⟨pos, hg, ht⟩ := ih hd
    refine ⟨i :: pos, ?_, ?_⟩
    · rw [getAt_cons, hi]
      exact hg
    · rw [textPathAt_cons, hi]
      dsimp only
      rw [ht, hct']
      rfl

theorem pos_mem_nodesAtPath {d : Node} {pos : Pos} {r : Pth} {n : Node}
    (hg : n.getAt pos = some d) (ht : n.textPathAt pos = some r) :
    d ∈ nodesAtPath r n := by
  induction pos generalizing n r with
  | nil =>
    have hd : n = d := Option.some.inj hg
    have hr : ([] : Pth) = r := Option.some.inj ht
    subst hd
    rw [← hr]
    simp [nodesAtPath]
  | cons i rest ih =>
    rw [getAt_cons] at hg
    rw [textPathAt_cons] at ht
    match hc : n.children.get? i with
    | none => rw [hc] at hg; simp at hg
    | some c =>
      rw [hc] at hg ht
      dsimp only at hg ht
      match htq : c.textPathAt rest with
      | none => rw [htq] at ht; simp at ht
      | some tq =>
        rw [htq] at ht
        simp only [Option.map_some'] at ht
        cases ht
        show d ∈ nodesAtPath (c.text :: tq) n
        simp only [nodesAtPath, List.mem_flatMap]
        refine ⟨c, List.mem_filter.mpr ⟨List.get?_mem hc, by simp⟩, ih hg htq⟩

theorem Pres_nodesAtPath {top top' d : Node} {r : Pth}
    (hP : Pres top top') (h : d ∈ nodesAtPath r top) :
    ∃ d', d' ∈ nodesAtPath r top' ∧ d'.text = d.text ∧ d'.kind = d.kind := by
  obtain ⟨pos, hg, ht⟩ := mem_nodesAtPath_pos h
  obtain ⟨d', hg', htx, hk⟩ := hP.1 pos d hg
  exact ⟨d', pos_mem_nodesAtPath hg' (hP.2 pos r ht), htx, hk⟩

theorem textPathAt_isSome_of_getAt {n d : Node} {pos : Pos}
    (h : n.getAt pos = some d) : ∃ r, n.textPathAt pos = some r := by
  induction pos generalizing n with
  | nil => exact ⟨[], rfl⟩
  | cons i rest ih =>
    rw [getAt_cons] at h
    match hc : n.children.get? i with
    | none => rw [hc] at h; simp at h
    | some c =>
      rw [hc] at h
      dsimp only at h
      obtain ⟨r, hr⟩ := ih h
      refine ⟨c.text :: r, ?_⟩
      rw [textPathAt_cons, hc]
      dsimp only
      rw [hr]
      rfl

theorem mem_walkAux (x : Node) (q : List Node) :
    x ∈ walkAux q ↔ ∃ n0 ∈ q, ∃ pos, n0.getAt pos = some x := by
  induction q using walkAux.induct with
  | case1 => simp [walkAux]
  | case2 n rest ih =>
    rw [show walkAux (n :: rest) = n :: walkAux (rest ++ n.children) by
      simp [walkAux]]
    constructor
    · intro hx
      rcases List.mem_cons.mp hx with hx | hx
      · refine ⟨n, List.mem_cons_self _ _, [], ?_⟩
        rw [hx]
        rfl
      · obtain ⟨n0, hn0, pos, hg⟩ := ih.mp hx
        rcases List.mem_append.mp hn0 with h | h
        · exact ⟨n0, List.mem_cons_of_mem _ h, pos, hg⟩
        · obtain ⟨i, hi⟩ := List.mem_iff_get?.mp h
          exact ⟨n, List.mem_cons_self _ _, i :: pos,
            by rw [getAt_cons, hi]; exact hg⟩
    · rintro ⟨n0, hn0, pos, hg⟩
      rcases List.mem_cons.mp hn0 with h | h
      · subst h
        match pos, hg with
        | [], hg =>
          exact List.mem_cons.mpr (.inl (Option.some.inj hg).symm)
        | i :: rest', hg =>
          rw [getAt_cons] at hg
          match hc : n0.children.get? i with
          | none => rw [hc] at hg; simp at hg
          | some c =>
            rw [hc] at hg
            dsimp only at hg
            exact List.mem_cons_of_mem _ (ih.mpr
              ⟨c, List.mem_append_right _ (List.get?_mem hc), rest', hg⟩)
      · exact List.mem_cons_of_mem _ (ih.mpr
          ⟨n0, List.mem_append_left _ h, pos, hg⟩)

theorem textPathAt_length {n : Node} {pos : Pos} {r : Pth}
    (h : n.textPathAt pos = some r) : r.length = pos.length := by
  induction pos generalizing n r with
  | nil =>
    have : ([] : Pth) = r := Option.some.inj h
    rw [← this]
    rfl
  | cons i rest ih =>
    rw [textPathAt_cons] at h
    match hc : n.children.get? i with
    | none => rw [hc] at h; simp at h
    | some c =>
      rw [hc] at h
      dsimp only at h
      match htq : c.textPathAt rest with
      | none => rw [htq] at h; simp at h
      | some tq =>
        rw [htq] at h
        simp only [Option.map_some'] at h
        cases h
        simp [ih htq]

theorem textPathAt_take {n : Node} {pos : Pos} {r : Pth}
    (h : n.textPathAt pos = some r) (k : Nat) :
    n.textPathAt (pos.take k) = some (r.take k) := by
  induction pos generalizing n r k with
  | nil =>
    have : ([] : Pth) = r := Option.some.inj h
    rw [← this]
    simp only [List.take_nil]
    rfl
  | cons i rest ih =>
    rw [textPathAt_cons] at h
    match hc : n.children.get? i with
    | none => rw [hc] at h; simp at h
    | some c =>
      rw [hc] at h
      dsimp only at h
      match htq : c.textPathAt rest with
      | none => rw [htq] at h; simp at h
      | some tq =>
        rw [htq] at h
        simp only [Option.map_some'] at h
        cases h
        match k with
        | 0 => rfl
        | k + 1 =>
          rw [List.take_succ_cons, List.take_succ_cons, textPathAt_cons, hc]
          dsimp only
          rw [ih htq k]
          rfl

theorem getAt_take {n d : Node} {pos : Pos} (h : n.getAt pos = some d)
    (k : Nat) : ∃ a, n.getAt (pos.take k) = some a := by
  have hsplit := getAt_append n (pos.take k) (pos.drop k)
  rw [List.take_append_drop, h] at hsplit
  match hg : n.getAt (pos.take k) with
  | some a => exact ⟨a, rfl⟩
  | none => rw [hg] at hsplit; simp at hsplit

theorem length_le_one_unique {α : Type _} {l : List α} (h : l.length ≤ 1)
    {a b : α} (ha : a ∈ l) (hb : b ∈ l) : a = b := by
  match l with
  | [] => simp at ha
  | [x] =>
    have h1 : a = x := by simpa using ha
    have h2 : b = x := by simpa using hb
    rw [h1, h2]
  | x :: y :: rest => simp at h

/-- Below a `Good` tree, no node sits strictly below a depot item: a
depot item's relative path is never a proper prefix of another node's. -/
theorem depot_rel_not_prefix {w : World} {top : Node}
    (hGood : Good w [] top)
    {d1 d2 : Node} {r1 : Pth} {sp1 tp1 : Pth} {st1 : QFileStatus}
    (h1 : d1 ∈ nodesAtPath r1 top) (hk1 : d1.kind = .depot sp1 tp1 st1)
    {x : Pth} (hx : x ≠ [])
    (h2 : d2 ∈ nodesAtPath (r1 ++ x) top) : False := by
  obtain ⟨pos2, hg2, ht2⟩ := mem_nodesAtPath_pos h2
  have hlen : (r1 ++ x).length = pos2.length := textPathAt_length ht2
  obtain ⟨a, hga⟩ := getAt_take hg2 r1.length
  have hta : top.textPathAt (pos2.take r1.length) = some r1 := by
    have := textPathAt_take ht2 r1.length
    rwa [List.take_left] at this
  have ham : a ∈ nodesAtPath r1 top := pos_mem_nodesAtPath hga hta
  have had1 : a = d1 :=
    length_le_one_unique (hGood.count_le_one r1) ham h1
  have hxl : 0 < x.length := List.length_pos.mpr hx
  have hl2 : r1.length + x.length = pos2.length := by
    simpa [List.length_append] using hlen
  have hdrop : pos2.drop r1.length ≠ [] := by
    intro hc
    have hle := List.drop_eq_nil_iff.mp hc
    omega
  have hsplit := getAt_append top (pos2.take r1.length) (pos2.drop r1.length)
  rw [List.take_append_drop, hg2, hga] at hsplit
  match hdr : pos2.drop r1.length with
  | [] => exact hdrop hdr
  | j :: q' =>
    rw [hdr] at hsplit
    dsimp only at hsplit
    rw [getAt_cons] at hsplit
    match hcj : a.children.get? j with
    | none => rw [hcj] at hsplit; simp at hsplit
    | some cj =>
      have hagood : Good w ([] ++ r1) a := Good.sub hGood hga hta
      have hleaf := hagood.depotLeaf sp1 tp1 st1 (had1 ▸ hk1)
      rw [hleaf] at hcj
      simp at hcj


/-! ## C4: file-name and lookup helpers -/

theorem filename_cons_cons (a b : String) (l : Pth) :
    filename (a :: b :: l) = filename (b :: l) := by
  simp [filename, List.getLast?_cons_cons]

theorem filename_append {root r : Pth} (h : r ≠ []) :
    filename (root ++ r) = filename r := by
  simp [filename, List.getLast?_append_of_ne_nil root h]

theorem isfile_pathLookup {w : World} {p : Pth} (h : isfile w p = true) :
    ∃ c, pathLookup w p = some (.file c) := by
  unfold isfile at h
  match hp : pathLookup w p with
  | some (.file c) => exact ⟨c, rfl⟩
  | some (.dir es) => rw [hp] at h; simp at h
  | some .other => rw [hp] at h; simp at h
  | none => rw [hp] at h; simp at h

/-- After a successful `addFileItem` on a fresh or existing relative
path, the model holds a node at that relative path. -/
theorem addFileItem_node {w : World} {R : Pth} {obj : Option FSNode}
    {top item : Node} {ipos : Pos} {dRel : Pth} {name : String}
    (hd : RootsDisjoint w) (hR : WalkedRoot w R obj)
    (hGood : Good w [] top)
    (hget : top.getAt ipos = some item) (htp : top.textPathAt ipos = some dRel)
    {m1 : Model}
    (hok : addFileItem w (R ++ (dRel ++ [name])) (some (0 :: ipos)) [top] =
      .ok m1) :
    ∃ top1 d, m1 = [top1] ∧ d ∈ nodesAtPath (dRel ++ [name]) top1 := by
  have hrel : makePathRelative w (R ++ (dRel ++ [name])) = dRel ++ [name] :=
    makeRel_walked hd hR (dRel ++ [name])
  rw [addFileItem_eq, hrel, findChildByPath_snoc name hGood hget htp] at hok
  match hf : findIdxByText item.children name with
  | some (j, c) =>
    rw [hf] at hok
    dsimp only at hok
    have hm1 : [top] = m1 := BuildRes.ok.inj hok
    obtain ⟨hgj, htj⟩ := findIdxByText_some hf
    have hgetc : top.getAt (ipos ++ [j]) = some c := by
      rw [getAt_append, hget]
      dsimp only
      rw [getAt_cons, hgj]
      rfl
    have htpc : top.textPathAt (ipos ++ [j]) = some (dRel ++ [name]) := by
      rw [← htj]
      exact textPathAt_append_child hget htp hgj
    exact ⟨top, c, hm1.symm, pos_mem_nodesAtPath hgetc htpc⟩
  | none =>
    rw [hf] at hok
    dsimp only at hok
    match hev : evaluateFileStatus w
        (if isSourceFile w (R ++ (dRel ++ [name])) then R ++ (dRel ++ [name])
          else w.src ++ (dRel ++ [name]))
        (if isSourceFile w (R ++ (dRel ++ [name])) then
            w.tgt ++ (dRel ++ [name])
          else R ++ (dRel ++ [name])) with
    | .error e => rw [hev] at hok; exact absurd hok (by simp)
    | .ok st =>
      rw [hev] at hok
      dsimp only at hok
      obtain ⟨top1, happ⟩ := appendAt_of_getAt
        (Node.mk (filename (if isSourceFile w (R ++ (dRel ++ [name]))
            then R ++ (dRel ++ [name])
            else w.src ++ (dRel ++ [name])))
          (.depot
            (if isSourceFile w (R ++ (dRel ++ [name])) then R ++ (dRel ++ [name])
              else w.src ++ (dRel ++ [name]))
            (if isSourceFile w (R ++ (dRel ++ [name])) then
                w.tgt ++ (dRel ++ [name])
              else R ++ (dRel ++ [name])) st) []) hget
    
      rw [appendAtM_single _ _ happ] at hok
      have hm1 : [top1] = m1 := BuildRes.ok.inj hok
      have hfn : filename (if isSourceFile w (R ++ (dRel ++ [name]))
          then R ++ (dRel ++ [name])
          else w.src ++ (dRel ++ [name])) = name := by
        split <;> exact (filename_append (by simp)).trans (filename_concat dRel name)
      refine ⟨top1, _, hm1.symm, pos_mem_nodesAtPath
        (appendAt_getAt_new happ hget) ?_⟩
      have htp1 := appendAt_textPath_new happ hget htp
      rw [show (Node.mk (filename (if isSourceFile w (R ++ (dRel ++ [name]))
          then R ++ (dRel ++ [name])
          else w.src ++ (dRel ++ [name])))
          (.depot _ _ st) []).text = filename (if isSourceFile w
            (R ++ (dRel ++ [name])) then R ++ (dRel ++ [name])
          else w.src ++ (dRel ++ [name])) from rfl, hfn] at htp1
      exact htp1


/-- Coverage: a completed listing loop leaves a node for every
(non-`.pyc`-named) file reachable under the entries it walked. -/
theorem addEntries_cover (w : World) (hd : RootsDisjoint w) (hwf : WorldWf w)
    (directory : Pth) (entries : List (String × FSNode)) (itemPos : Pos)
    (m : Model) :
    ∀ (R : Pth) (obj : Option FSNode) (fullEs : List (String × FSNode))
      (top item : Node) (ipos : Pos) (dRel : Pth),
      WalkedRoot w R obj → directory = R ++ dRel →
      lookupRel obj dRel = some (.dir fullEs) →
      (∀ e ∈ entries, e ∈ fullEs) →
      m = [top] → itemPos = 0 :: ipos → Good w [] top →
      top.getAt ipos = some item → top.textPathAt ipos = some dRel →
      item.kind = .plain →
      ∀ (mfin : Model) (topF : Node),
      addEntries w directory entries itemPos m = .ok mfin → mfin = [topF] →
      ∀ (nm : String) (fsn : FSNode), (nm, fsn) ∈ entries →
      ∀ (subRel : Pth) (c : Content),
        lookupRel (some fsn) subRel = some (.file c) →
        (filename (nm :: subRel)).endsWith ".pyc" = false →
        ∃ d, d ∈ nodesAtPath (dRel ++ nm :: subRel) topF := by
  induction directory, entries, itemPos, m using addEntries.induct with
  | w => exact w
  | case1 directory itemPos m =>
    intro R obj fullEs top item ipos dRel hR hdir hfull hsub hm hip hGood hget
      htp hplain
    intro mfin topF hok hmf nm fsn hmem
    simp at hmem
  | case2 directory name rest itemPos m a hpyc ih =>
    intro R obj fullEs top item ipos dRel hR hdir hfull hsub hm hip hGood hget
      htp hplain
    intro mfin topF hok hmf nm fsn hmem subRel c hlk hpyc2
    simp only [addEntries] at hok
    rw [if_pos hpyc] at hok
    rcases List.mem_cons.mp hmem with hh | hh
    · injection hh with h1 h2
      subst h1
      subst h2
      cases subRel with
      | nil =>
        rw [show filename [nm] = nm from rfl] at hpyc2
        rw [hpyc2] at hpyc
        exact absurd hpyc (by simp)
      | cons s2 sub2 => exact absurd hlk (by simp [lookupRel])
    · exact ih R obj fullEs top item ipos dRel hR hdir hfull
        (fun e he => hsub e (List.mem_cons_of_mem _ he)) hm hip hGood hget htp
        hplain mfin topF hok hmf nm fsn hh subRel c hlk hpyc2
  | case3 directory name rest itemPos m fp a hnpyc m1 haf ih =>
    intro R obj fullEs top item ipos dRel hR hdir hfull hsub hm hip hGood hget
      htp hplain
    intro mfin topF hok hmf nm fsn hmem subRel c hlk hpyc2
    subst hdir; subst hm; subst hip
    have hndf := fullEs_nodup hwf hR hfull
    have hmemf : (name, FSNode.file a) ∈ fullEs := hsub _ (List.mem_cons_self _ _)
    have hlf := lookupRel_child hfull hndf hmemf
    have hpyc' : name.endsWith ".pyc" = false := by simpa using hnpyc
    have haf' : addFileItem w (R ++ (dRel ++ [name])) (some (0 :: ipos)) [top]
        = .ok m1 := by
      rw [← List.append_assoc]
      exact haf
    simp only [addEntries] at hok
    rw [if_neg hnpyc, haf] at hok
    dsimp only at hok
    rcases addFileItem_spec hd hR hGood hget htp hplain hlf hpyc' with
      ⟨top1, hokf, hGood1, hPres1⟩ | hexn
    · rw [haf'] at hokf
      have hm1 : m1 = [top1] := BuildRes.ok.inj hokf
      obtain ⟨item1, hget1, htext1, hkind1⟩ := hPres1.1 ipos item hget
      have htp1 := hPres1.2 ipos dRel htp
      rcases List.mem_cons.mp hmem with hh | hh
      · injection hh with h1 h2
        subst h1
        subst h2
        cases subRel with
        | cons s2 sub2 => exact absurd hlk (by simp [lookupRel])
        | nil =>
          obtain ⟨top1', d1, hm1', hd1⟩ := addFileItem_node hd hR hGood hget
            htp haf'
          have ht1 : top1' = top1 := by
            rw [hm1] at hm1'
            exact ((List.cons.inj hm1').1).symm
          obtain ⟨top2, hmod2, hGood2, hPres2⟩ := addEntries_inv w hd hwf
            (R ++ dRel) rest (0 :: ipos) m1 R obj fullEs top1 item1 ipos dRel
            hR rfl hfull (fun e he => hsub e (List.mem_cons_of_mem _ he)) hm1
            rfl hGood1 hget1 htp1 (hkind1.trans hplain)
          rw [hok] at hmod2
          have hmf2 : mfin = [top2] := hmod2
          have htf : topF = top2 := by
            rw [hmf] at hmf2
            exact (List.cons.inj hmf2).1
          rw [ht1] at hd1
          obtain ⟨d', hd', _, _⟩ := Pres_nodesAtPath hPres2 hd1
          refine ⟨d', ?_⟩
          rw [htf]
          exact hd'
      · exact ih R obj fullEs top1 item1 ipos dRel hR rfl hfull
          (fun e he => hsub e (List.mem_cons_of_mem _ he)) hm1 rfl hGood1
          hget1 htp1 (hkind1.trans hplain) mfin topF hok hmf nm fsn hh subRel
          c hlk hpyc2
    · rw [haf'] at hexn
      exact absurd hexn (by simp)
  | case4 directory name rest itemPos m fp a hnpyc m1 haf =>
    intro R obj fullEs top item ipos dRel hR hdir hfull hsub hm hip hGood hget
      htp hplain
    intro mfin topF hok hmf nm fsn hmem subRel c hlk hpyc2
    simp only [addEntries] at hok
    rw [if_neg hnpyc, haf] at hok
    exact absurd hok (by simp)
  | case5 directory name rest itemPos m fp es2 m' hds =>
    intro R obj fullEs top item ipos dRel hR hdir hfull hsub hm hip hGood hget
      htp hplain
    intro mfin topF hok hmf nm fsn hmem subRel c hlk hpyc2
    simp only [addEntries] at hok
    rw [show fp = directory ++ [name] from rfl] at hds
    rw [hds] at hok
    exact absurd hok (by simp)
  | case6 directory name rest itemPos m fp es2 m' childPos hds m1 hae ih1 ih2 =>
    intro R obj fullEs top item ipos dRel hR hdir hfull hsub hm hip hGood hget
      htp hplain
    intro mfin topF hok hmf nm fsn hmem subRel c hlk hpyc2
    subst hdir; subst hm; subst hip
    have hndf := fullEs_nodup hwf hR hfull
    have hmemd : (name, FSNode.dir es2) ∈ fullEs := hsub _ (List.mem_cons_self _ _)
    have hld := lookupRel_child hfull hndf hmemd
    obtain ⟨top1, item1, jpos, hokd, hGood1, hPres1, hget1, htp1, hplain1⟩ :=
      dirStep_spec hd hR hGood hget htp hplain hld
    rw [show fp = R ++ dRel ++ [name] from rfl, List.append_assoc]
      at hds hae ih1
    rw [hokd] at hds
    obtain ⟨hm', hcp⟩ := Prod.mk.injEq .. ▸ (Except.ok.inj hds).symm
    subst hm'
    subst hcp
    simp only [addEntries] at hok
    rw [List.append_assoc, hokd] at hok
    dsimp only at hok
    rw [hae] at hok
    dsimp only at hok
    obtain ⟨top2, hmod2, hGood2, hPres2⟩ := addEntries_inv w hd hwf
      (R ++ (dRel ++ [name])) es2 (0 :: jpos) [top1] R obj es2 top1 item1 jpos
      (dRel ++ [name]) hR rfl hld (fun e he => he) rfl rfl hGood1 hget1 htp1
      hplain1
    rw [hae] at hmod2
    have hm1 : m1 = [top2] := hmod2
    obtain ⟨item2, hget2, htext2, hkind2⟩ := (hPres1.trans hPres2).1 ipos item
      hget
    have htp2 := (hPres1.trans hPres2).2 ipos dRel htp
    obtain ⟨top3, hmod3, hGood3, hPres3⟩ := addEntries_inv w hd hwf
      (R ++ dRel) rest (0 :: ipos) m1 R obj fullEs top2 item2 ipos dRel hR rfl
      hfull (fun e he => hsub e (List.mem_cons_of_mem _ he)) hm1 rfl hGood2
      hget2 htp2 (hkind2.trans hplain)
    rw [hok] at hmod3
    have hmf3 : mfin = [top3] := hmod3
    have htf : topF = top3 := by
      rw [hmf] at hmf3
      exact (List.cons.inj hmf3).1
    rcases List.mem_cons.mp hmem with hh | hh
    · injection hh with h1 h2
      subst h1
      subst h2
      cases subRel with
      | nil => exact absurd (Option.some.inj hlk) (by simp)
      | cons s2 sub2 =>
        have hlk2 : lookupRel (lookupName es2 s2) sub2 = some (.file c) := hlk
        match hln : lookupName es2 s2 with
        | none =>
          rw [hln] at hlk2
          cases sub2 with
          | nil => rw [lookupRel_nil] at hlk2; exact absurd hlk2 (by simp)
          | cons u us => exact absurd hlk2 (by simp [lookupRel])
        | some fsn2 =>
          rw [hln] at hlk2
          have hmem2 : (s2, fsn2) ∈ es2 := lookupName_mem hln
          have hpyc3 : (filename (s2 :: sub2)).endsWith ".pyc" = false := by
            rw [← filename_cons_cons nm s2 sub2]
            exact hpyc2
          obtain ⟨d, hd2⟩ := ih1 R obj es2 top1 item1 jpos (dRel ++ [nm]) hR
            rfl hld (fun e he => he) rfl rfl hGood1 hget1 htp1 hplain1
            m1 top2 hae hm1 s2 fsn2 hmem2 sub2 c hlk2 hpyc3
          obtain ⟨d', hd', _, _⟩ := Pres_nodesAtPath hPres3 hd2
          refine ⟨d', ?_⟩
          rw [htf]
          rw [show dRel ++ nm :: s2 :: sub2 = (dRel ++ [nm]) ++ s2 :: sub2 by
            simp]
          exact hd'
    · exact ih2 R obj fullEs top2 item2 ipos dRel hR rfl hfull
        (fun e he => hsub e (List.mem_cons_of_mem _ he)) hm1 rfl hGood2 hget2
        htp2 (hkind2.trans hplain) mfin topF hok hmf nm fsn hh subRel c hlk
        hpyc2
  | case7 directory name rest itemPos m fp es2 m' childPos hds m1 hae ih1 =>
    intro R obj fullEs top item ipos dRel hR hdir hfull hsub hm hip hGood hget
      htp hplain
    intro mfin topF hok hmf nm fsn hmem subRel c hlk hpyc2
    simp only [addEntries] at hok
    rw [show fp = directory ++ [name] from rfl] at hds hae
    rw [hds] at hok
    dsimp only at hok
    rw [hae] at hok
    exact absurd hok (by simp)
  | case8 directory name rest itemPos m ih =>
    intro R obj fullEs top item ipos dRel hR hdir hfull hsub hm hip hGood hget
      htp hplain
    intro mfin topF hok hmf nm fsn hmem subRel c hlk hpyc2
    simp only [addEntries] at hok
    rcases List.mem_cons.mp hmem with hh | hh
    · injection hh with h1 h2
      subst h1
      subst h2
      cases subRel with
      | nil => exact absurd (Option.some.inj hlk) (by simp)
      | cons u us => exact absurd hlk (by simp [lookupRel])
    · exact ih R obj fullEs top item ipos dRel hR hdir hfull
        (fun e he => hsub e (List.mem_cons_of_mem _ he)) hm hip hGood hget htp
        hplain mfin topF hok hmf nm fsn hh subRel c hlk hpyc2


/-- Coverage for a whole root walk. -/
theorem addDirectoryItem_cover {w : World} {R : Pth} {obj : Option FSNode}
    {es : List (String × FSNode)} {top : Node}
    (hd : RootsDisjoint w) (hwf : WorldWf w) (hR : WalkedRoot w R obj)
    (hobj : obj = some (.dir es))
    (hGood : Good w [] top) (hplain : top.kind = .plain)
    {m' : Model} (hok : addDirectoryItem w R es none [top] = .ok m') :
    ∃ top', m' = [top'] ∧
      ∀ (r : Pth) (c : Content), lookupRel obj r = some (.file c) →
        (filename r).endsWith ".pyc" = false →
        ∃ d, d ∈ nodesAtPath r top' := by
  have hrel : makePathRelative w R = [] := by
    have := makeRel_walked hd hR []
    rwa [List.append_nil] at this
  have hds : dirStep w R none [top] = .ok ([top], [0]) := by
    rw [dirStep_eq, hrel]
    rfl
  have hstep : addDirectoryItem w R es none [top] =
      addEntries w R es [0] [top] := by
    rw [addDirectoryItem, hds]
  rw [hstep] at hok
  obtain ⟨top', hmod, hGood', hPres⟩ := addEntries_inv w hd hwf R es [0] [top]
    R obj es top top [] [] hR (List.append_nil R).symm
    (by rw [lookupRel_nil]; exact hobj) (fun e he => he) rfl rfl hGood rfl rfl
    hplain
  rw [hok] at hmod
  have hm' : m' = [top'] := hmod
  refine ⟨top', hm', ?_⟩
  intro r c hr hpyc
  match r, hr with
  | [], hr =>
    rw [lookupRel_nil, hobj] at hr
    exact absurd (Option.some.inj hr) (by simp)
  | name :: subRel, hr =>
    have hr' : lookupRel (lookupName es name) subRel = some (.file c) := by
      rw [hobj] at hr
      exact hr
    match hln : lookupName es name with
    | none =>
      rw [hln] at hr'
      cases subRel with
      | nil => rw [lookupRel_nil] at hr'; exact absurd hr' (by simp)
      | cons u us => exact absurd hr' (by simp [lookupRel])
    | some fsn =>
      rw [hln] at hr'
      have hmem : (name, fsn) ∈ es := lookupName_mem hln
      obtain ⟨d, hd⟩ := addEntries_cover w hd hwf R es [0] [top] R obj es top
        top [] [] hR (List.append_nil R).symm
        (by rw [lookupRel_nil]; exact hobj) (fun e he => he) rfl rfl hGood rfl
        rfl hplain m' top' hok hm' name fsn hmem subRel c hr' hpyc
      exact ⟨d, by simpa using hd⟩

/-- A completed `diff` on the empty model: either the guard rejected the
roots (empty model returned), or the result is a single `Good` tree
holding a node for every non-`.pyc` file present under either root. -/
theorem diff_ok_cover {w : World} (hd : RootsDisjoint w) (hwf : WorldWf w)
    {m1 : Model} (h : diff w [] = .ok m1) :
    m1 = [] ∨
    ∃ top, m1 = [top] ∧ Good w [] top ∧
      (∃ es, w.srcObj = some (.dir es)) ∧
      (∃ es, w.tgtObj = some (.dir es)) ∧
      ∀ r, (isfile w (w.src ++ r) = true ∨ isfile w (w.tgt ++ r) = true) →
        (filename r).endsWith ".pyc" = false →
        ∃ d, d ∈ nodesAtPath r top := by
  unfold diff at h
  match hsrc : pathLookup w w.src, htgt : pathLookup w w.tgt with
  | none, none => rw [hsrc, htgt] at h; exact .inl (BuildRes.ok.inj h).symm
  | none, some nt => rw [hsrc, htgt] at h; exact .inl (BuildRes.ok.inj h).symm
  | some (.file c), nt => rw [hsrc] at h; exact .inl (BuildRes.ok.inj h).symm
  | some .other, nt => rw [hsrc] at h; exact .inl (BuildRes.ok.inj h).symm
  | some (.dir srcEs), none =>
    rw [hsrc, htgt] at h; exact .inl (BuildRes.ok.inj h).symm
  | some (.dir srcEs), some (.file c) =>
    rw [hsrc, htgt] at h; exact .inl (BuildRes.ok.inj h).symm
  | some (.dir srcEs), some .other =>
    rw [hsrc, htgt] at h; exact .inl (BuildRes.ok.inj h).symm
  | some (.dir srcEs), some (.dir tgtEs) =>
    rw [hsrc, htgt] at h
    dsimp only at h
    have hsobj : w.srcObj = some (.dir srcEs) := by
      have := pathLookup_src w []
      rw [List.append_nil, lookupRel_nil] at this
      rw [← this]
      exact hsrc
    have htobj : w.tgtObj = some (.dir tgtEs) := by
      have := pathLookup_tgt hd []
      rw [List.append_nil, lookupRel_nil] at this
      rw [← this]
      exact htgt
    have hRs : WalkedRoot w w.src w.srcObj := .inl ⟨rfl, rfl⟩
    have hRt : WalkedRoot w w.tgt w.tgtObj := .inr ⟨rfl, rfl⟩
    have hGood0 : Good w [] (Node.mk (filename w.src) .plain []) :=
      Good.intro (by simp) (.inl rfl) (by simp) (by simp)
    match hcall1 : addDirectoryItem w w.src srcEs none
        [Node.mk (filename w.src) .plain []] with
    | .exn m2 => rw [hcall1] at h; exact absurd h (by simp)
    | .ok m2 =>
      rw [hcall1] at h
      dsimp only at h
      obtain ⟨top1, hm2, cover1⟩ := addDirectoryItem_cover hd hwf hRs hsobj
        hGood0 rfl hcall1
      obtain ⟨top1', hmod1, hGood1, hPres1⟩ := addDirectoryItem_root hd hwf
        hRs hsobj hGood0 rfl
      rw [hcall1] at hmod1
      have ht1 : top1' = top1 := by
        have : m2 = [top1'] := hmod1
        rw [hm2] at this
        exact ((List.cons.inj this).1).symm
      rw [ht1] at hGood1 hPres1
      subst hm2
      obtain ⟨top2, hm1, cover2⟩ := addDirectoryItem_cover hd hwf hRt htobj
        hGood1 (kind_pres_top hPres1 rfl) h
      obtain ⟨top2', hmod2, hGood2, hPres2⟩ := addDirectoryItem_root hd hwf
        hRt htobj hGood1 (kind_pres_top hPres1 rfl)
      rw [h] at hmod2
      have ht2 : top2' = top2 := by
        have : m1 = [top2'] := hmod2
        rw [hm1] at this
        exact ((List.cons.inj this).1).symm
      rw [ht2] at hGood2 hPres2
      refine .inr ⟨top2, hm1, hGood2, ⟨srcEs, hsobj⟩, ⟨tgtEs, htobj⟩, ?_⟩
      intro r hf hpyc
      rcases hf with hf | hf
      · obtain ⟨c, hc⟩ := isfile_pathLookup hf
        rw [pathLookup_src] at hc
        obtain ⟨d, hd1⟩ := cover1 r c (hsobj ▸ hc) hpyc
        obtain ⟨d', hd', _, _⟩ := Pres_nodesAtPath hPres2 hd1
        exact ⟨d', hd'⟩
      · obtain ⟨c, hc⟩ := isfile_pathLookup hf
        rw [pathLookup_tgt hd] at hc
        exact cover2 r c (htobj ▸ hc) hpyc


/-! ## C4: listing-entry algebra for the commit filesystem operations -/

def fileAtO : Option FSNode → Option Content
  | some (.file c) => some c
  | _ => none

def dirAtO : Option FSNode → Bool
  | some (.dir _) => true
  | _ => false

theorem openFile_eq_fileAtO (w : World) (p : Pth) :
    openFile w p = fileAtO (pathLookup w p) := by
  unfold openFile fileAtO
  match pathLookup w p with
  | some (.file c) => rfl
  | some (.dir es) => rfl
  | some .other => rfl
  | none => rfl

theorem isdir_eq_dirAtO (w : World) (p : Pth) :
    isdir w p = dirAtO (pathLookup w p) := by
  unfold isdir dirAtO
  match pathLookup w p with
  | some (.file c) => rfl
  | some (.dir es) => rfl
  | some .other => rfl
  | none => rfl

theorem exists?_eq_isSome (w : World) (p : Pth) :
    exists? w p = (pathLookup w p).isSome := rfl

theorem lookupName_none_names {es : List (String × FSNode)} {s : String}
    (h : lookupName es s = none) : s ∉ es.map Prod.fst := by
  induction es with
  | nil => simp
  | cons e rest ih =>
    by_cases he : e.1 = s
    · simp [lookupName, List.find?, he] at h
    · simp only [lookupName, List.find?, decide_eq_false he] at h
      simp only [List.map_cons, List.mem_cons]
      rintro (hc | hc)
      · exact he hc.symm
      · exact ih h hc

theorem lookupName_replace_self {es : List (String × FSNode)} {s : String}
    {old : FSNode} (h : lookupName es s = some old) (n : FSNode) :
    lookupName (replaceName es s n) s = some n := by
  induction es with
  | nil => simp [lookupName] at h
  | cons e rest ih =>
    by_cases he : e.1 = s
    · rw [replaceName, if_pos he]
      simp [lookupName, List.find?]
    · rw [replaceName, if_neg he]
      simp only [lookupName, List.find?, decide_eq_false he] at h ⊢
      exact ih h

theorem lookupName_replace_other {es : List (String × FSNode)} {s t : String}
    (ht : t ≠ s) (n : FSNode) :
    lookupName (replaceName es s n) t = lookupName es t := by
  induction es with
  | nil => rfl
  | cons e rest ih =>
    by_cases he : e.1 = s
    · rw [replaceName, if_pos he]
      have h1 : ¬((s, n).1 = t) := fun hc => ht (Eq.symm (show s = t from hc))
      have h2 : ¬(e.1 = t) := fun hc => ht ((he ▸ hc : s = t)).symm
      simp only [lookupName, List.find?, decide_eq_false h1, decide_eq_false h2]
    · rw [replaceName, if_neg he]
      by_cases het : e.1 = t
      · simp [lookupName, List.find?, het]
      · simp only [lookupName, List.find?, decide_eq_false het]
        exact ih

theorem lookupName_append_self {es : List (String × FSNode)} {s : String}
    (h : lookupName es s = none) (n : FSNode) :
    lookupName (es ++ [(s, n)]) s = some n := by
  induction es with
  | nil => simp [lookupName, List.find?]
  | cons e rest ih =>
    by_cases he : e.1 = s
    · simp [lookupName, List.find?, he] at h
    · simp only [List.cons_append, lookupName, List.find?,
        decide_eq_false he] at h ⊢
      exact ih h

theorem lookupName_append_other {es : List (String × FSNode)} {s t : String}
    (ht : t ≠ s) (n : FSNode) :
    lookupName (es ++ [(s, n)]) t = lookupName es t := by
  induction es with
  | nil =>
    have h1 : ¬((s, n).1 = t) := fun hc => ht (Eq.symm (show s = t from hc))
    simp only [List.nil_append, lookupName, List.find?, decide_eq_false h1]
  | cons e rest ih =>
    by_cases het : e.1 = t
    · simp [lookupName, List.find?, het]
    · simp only [List.cons_append, lookupName, List.find?,
        decide_eq_false het]
      exact ih

theorem lookupName_erase_self {es : List (String × FSNode)} {s : String}
    (hnd : (es.map Prod.fst).Nodup) :
    lookupName (eraseName es s) s = none := by
  induction es with
  | nil => rfl
  | cons e rest ih =>
    simp only [List.map_cons, List.nodup_cons] at hnd
    by_cases he : e.1 = s
    · rw [eraseName, if_pos he]
      match hln : lookupName rest s with
      | none => rfl
      | some x =>
        exact absurd (he ▸ (List.mem_map.mpr ⟨(s, x), lookupName_mem hln,
          rfl⟩)) hnd.1
    · rw [eraseName, if_neg he]
      simp only [lookupName, List.find?, decide_eq_false he]
      exact ih hnd.2

theorem lookupName_erase_other {es : List (String × FSNode)} {s t : String}
    (ht : t ≠ s) :
    lookupName (eraseName es s) t = lookupName es t := by
  induction es with
  | nil => rfl
  | cons e rest ih =>
    by_cases he : e.1 = s
    · rw [eraseName, if_pos he]
      have h2 : ¬(e.1 = t) := fun hc => ht ((he ▸ hc : s = t)).symm
      simp only [lookupName, List.find?, decide_eq_false h2]
    · rw [eraseName, if_neg he]
      by_cases het : e.1 = t
      · simp [lookupName, List.find?, het]
      · simp only [lookupName, List.find?, decide_eq_false het]
        exact ih

theorem replaceName_names (es : List (String × FSNode)) (s : String)
    (n : FSNode) :
    (replaceName es s n).map Prod.fst = es.map Prod.fst := by
  induction es with
  | nil => rfl
  | cons e rest ih =>
    by_cases he : e.1 = s
    · rw [replaceName, if_pos he]
      simp [he]
    · rw [replaceName, if_neg he]
      simp [ih]

theorem mem_replaceName {es : List (String × FSNode)} {s : String} {n : FSNode}
    {e : String × FSNode} (h : e ∈ replaceName es s n) :
    e ∈ es ∨ e = (s, n) := by
  induction es with
  | nil => simp [replaceName] at h
  | cons e0 rest ih =>
    by_cases he : e0.1 = s
    · rw [replaceName, if_pos he] at h
      rcases List.mem_cons.mp h with h | h
      · exact .inr h
      · exact .inl (List.mem_cons_of_mem _ h)
    · rw [replaceName, if_neg he] at h
      rcases List.mem_cons.mp h with h | h
      · exact .inl (h ▸ List.mem_cons_self _ _)
      · rcases ih h with h | h
        · exact .inl (List.mem_cons_of_mem _ h)
        · exact .inr h

theorem eraseName_sublist (es : List (String × FSNode)) (s : String) :
    (eraseName es s).Sublist es := by
  induction es with
  | nil => simp [eraseName]
  | cons e rest ih =>
    by_cases he : e.1 = s
    · rw [eraseName, if_pos he]
      exact List.sublist_cons_self _ _
    · rw [eraseName, if_neg he]
      exact ih.cons₂ e


theorem lookupRel_dir_cons (es : List (String × FSNode)) (t : String)
    (q : Pth) :
    lookupRel (some (.dir es)) (t :: q) = lookupRel (lookupName es t) q := rfl

theorem lookupRel_none (q : Pth) : lookupRel none q = none := by
  cases q <;> rfl

theorem freshDirs_wf (p : Pth) : FSWf (.dir (freshDirs p)) := by
  induction p with
  | nil => exact FSWf.dir [] (by simp) (by simp)
  | cons s rest ih =>
    refine FSWf.dir _ (by simp [freshDirs]) ?_
    intro e he
    have : e = (s, .dir (freshDirs rest)) := by simpa [freshDirs] using he
    rw [this]
    exact ih

theorem freshDirs_lookup (q p : Pth) :
    fileAtO (lookupRel (some (.dir (freshDirs p))) q) = none ∧
    ((lookupRel (some (.dir (freshDirs p))) q).isSome = true →
      ∃ x, p = q ++ x) := by
  induction q generalizing p with
  | nil => exact ⟨rfl, fun _ => ⟨p, rfl⟩⟩
  | cons t q' ih =>
    match p with
    | [] =>
      rw [lookupRel_dir_cons,
        show lookupName (freshDirs []) t = none from rfl, lookupRel_none]
      exact ⟨rfl, by simp⟩
    | s :: rest =>
      rw [lookupRel_dir_cons]
      by_cases hts : t = s
      · subst hts
        rw [show lookupName (freshDirs (t :: rest)) t =
            some (.dir (freshDirs rest)) from by
          simp [freshDirs, lookupName, List.find?]]
        obtain ⟨h1, h2⟩ := ih rest
        refine ⟨h1, fun hs => ?_⟩
        obtain ⟨x, hx⟩ := h2 hs
        exact ⟨x, by rw [hx]; simp⟩
      · rw [show lookupName (freshDirs (s :: rest)) t = none from by
          simp [freshDirs, lookupName, List.find?, Ne.symm hts],
          lookupRel_none]
        exact ⟨rfl, by simp⟩

/-- Effect of `writeEntries` on every relative path: the written path now
holds the file, every other path is untouched (same file content, same
directory-ness, same existence). -/
theorem writeEntries_frame (rel : Pth) :
    ∀ (es : List (String × FSNode)) (c : Content)
      (es' : List (String × FSNode)),
      writeEntries es rel c = some es' →
      ∀ q, (fileAtO (lookupRel (some (.dir es')) q) =
              if q = rel then some c
              else fileAtO (lookupRel (some (.dir es)) q)) ∧
           (dirAtO (lookupRel (some (.dir es')) q) =
              dirAtO (lookupRel (some (.dir es)) q)) ∧
           (q ≠ rel → (lookupRel (some (.dir es')) q).isSome =
              (lookupRel (some (.dir es)) q).isSome) := by
  induction rel with
  | nil => intro es c es' h; simp [writeEntries] at h
  | cons s rest ih =>
    intro es c es' h q
    cases rest with
    | nil =>
      rw [show writeEntries es [s] c = (match lookupName es s with
        | none => some (es ++ [(s, .file c)])
        | some (.file _) => some (replaceName es s (.file c))
        | some _ => none) from rfl] at h
      match hln : lookupName es s with
      | some (.dir ces) => rw [hln] at h; simp at h
      | some .other => rw [hln] at h; simp at h
      | none =>
        rw [hln] at h
        have hes' : es ++ [(s, .file c)] = es' := Option.some.inj h
        subst hes'
        cases q with
        | nil =>
          refine ⟨?_, rfl, fun _ => rfl⟩
          rw [if_neg (by simp)]
          rfl
        | cons t q' =>
          rw [lookupRel_dir_cons, lookupRel_dir_cons]
          by_cases hts : t = s
          · subst hts
            rw [lookupName_append_self hln, hln, lookupRel_none]
            cases q' with
            | nil =>
              refine ⟨?_, rfl, fun hne => absurd rfl hne⟩
              rw [if_pos rfl]
              rfl
            | cons u q'' =>
              refine ⟨?_, rfl, fun _ => rfl⟩
              rw [if_neg (by simp)]
              rfl
          · rw [lookupName_append_other hts]
            refine ⟨?_, rfl, fun _ => rfl⟩
            rw [if_neg (by simp [hts])]
      | some (.file old) =>
        rw [hln] at h
        have hes' : replaceName es s (.file c) = es' := Option.some.inj h
        subst hes'
        cases q with
        | nil =>
          refine ⟨?_, rfl, fun _ => rfl⟩
          rw [if_neg (by simp)]
          rfl
        | cons t q' =>
          rw [lookupRel_dir_cons, lookupRel_dir_cons]
          by_cases hts : t = s
          · subst hts
            rw [lookupName_replace_self hln, hln]
            cases q' with
            | nil =>
              refine ⟨?_, rfl, fun hne => absurd rfl hne⟩
              rw [if_pos rfl]
              rfl
            | cons u q'' =>
              refine ⟨?_, rfl, fun _ => rfl⟩
              rw [if_neg (by simp)]
              rfl
          · rw [lookupName_replace_other hts]
            refine ⟨?_, rfl, fun _ => rfl⟩
            rw [if_neg (by simp [hts])]
    | cons r1 rs =>
      rw [show writeEntries es (s :: r1 :: rs) c = (match lookupName es s with
        | some (.dir ces) =>
          match writeEntries ces (r1 :: rs) c with
          | some ces' => some (replaceName es s (.dir ces'))
          | none => none
        | _ => none) from rfl] at h
      match hln : lookupName es s with
      | none => rw [hln] at h; simp at h
      | some (.file cf) => rw [hln] at h; simp at h
      | some .other => rw [hln] at h; simp at h
      | some (.dir ces) =>
        rw [hln] at h
        dsimp only at h
        match hwi : writeEntries ces (r1 :: rs) c with
        | none => rw [hwi] at h; simp at h
        | some ces' =>
          rw [hwi] at h
          have hes' : replaceName es s (.dir ces') = es' := Option.some.inj h
          subst hes'
          cases q with
          | nil =>
            refine ⟨?_, rfl, fun _ => rfl⟩
            rw [if_neg (by simp)]
            rfl
          | cons t q' =>
            rw [lookupRel_dir_cons, lookupRel_dir_cons]
            by_cases hts : t = s
            · subst hts
              rw [lookupName_replace_self hln, hln]
              obtain ⟨h1, h2, h3⟩ := ih ces c ces' hwi q'
              refine ⟨?_, h2, ?_⟩
              · rw [h1]
                by_cases hq : q' = r1 :: rs
                · rw [if_pos hq, if_pos (by rw [hq])]
                · rw [if_neg hq, if_neg (fun hc =>
                    hq (List.cons.inj hc).2)]
              · intro hne
                exact h3 (fun hc => hne (by rw [hc]))
            · rw [lookupName_replace_other hts]
              refine ⟨?_, rfl, fun _ => rfl⟩
              rw [if_neg (by simp [hts])]

theorem writeEntries_wf (rel : Pth) :
    ∀ {es : List (String × FSNode)} {c : Content}
      {es' : List (String × FSNode)},
      FSWf (.dir es) → writeEntries es rel c = some es' →
      FSWf (.dir es') := by
  induction rel with
  | nil => intro es c es' hwf h; simp [writeEntries] at h
  | cons s rest ih =>
    intro es c es' hwf h
    cases hwf with
    | dir _ hnd hch =>
    cases rest with
    | nil =>
      rw [show writeEntries es [s] c = (match lookupName es s with
        | none => some (es ++ [(s, .file c)])
        | some (.file _) => some (replaceName es s (.file c))
        | some _ => none) from rfl] at h
      match hln : lookupName es s with
      | some (.dir ces) => rw [hln] at h; simp at h
      | some .other => rw [hln] at h; simp at h
      | none =>
        rw [hln] at h
        have hes' : es ++ [(s, .file c)] = es' := Option.some.inj h
        subst hes'
        refine FSWf.dir _ ?_ ?_
        · rw [List.map_append]
          simp only [List.map_cons, List.map_nil]
          rw [List.nodup_append]
          exact ⟨hnd, by simp, by
            intro a ha hb
            have : a = s := by simpa using hb
            subst this
            exact lookupName_none_names hln ha⟩
        · intro e he
          rcases List.mem_append.mp he with he | he
          · exact hch e he
          · have : e = (s, .file c) := by simpa using he
            rw [this]
            exact FSWf.file c
      | some (.file old) =>
        rw [hln] at h
        have hes' : replaceName es s (.file c) = es' := Option.some.inj h
        subst hes'
        refine FSWf.dir _ (by rw [replaceName_names]; exact hnd) ?_
        intro e he
        rcases mem_replaceName he with he | he
        · exact hch e he
        · rw [he]
          exact FSWf.file c
    | cons r1 rs =>
      rw [show writeEntries es (s :: r1 :: rs) c = (match lookupName es s with
        | some (.dir ces) =>
          match writeEntries ces (r1 :: rs) c with
          | some ces' => some (replaceName es s (.dir ces'))
          | none => none
        | _ => none) from rfl] at h
      match hln : lookupName es s with
      | none => rw [hln] at h; simp at h
      | some (.file cf) => rw [hln] at h; simp at h
      | some .other => rw [hln] at h; simp at h
      | some (.dir ces) =>
        rw [hln] at h
        dsimp only at h
        match hwi : writeEntries ces (r1 :: rs) c with
        | none => rw [hwi] at h; simp at h
        | some ces' =>
          rw [hwi] at h
          have hes' : replaceName es s (.dir ces') = es' := Option.some.inj h
          subst hes'
          have hceswf : FSWf (.dir ces) := hch (s, .dir ces) (lookupName_mem hln)
          refine FSWf.dir _ (by rw [replaceName_names]; exact hnd) ?_
          intro e he
          rcases mem_replaceName he with he | he
          · exact hch e he
          · rw [he]
            exact ih hceswf hwi


/-- Effect of `removeFileEntries` on every relative path: the removed
path no longer resolves, every other path is untouched. -/
theorem removeFileEntries_frame (rel : Pth) :
    ∀ (es es' : List (String × FSNode)),
      FSWf (.dir es) → removeFileEntries es rel = some es' →
      FSWf (.dir es') ∧
      ∀ q, (fileAtO (lookupRel (some (.dir es')) q) =
              if q = rel then none
              else fileAtO (lookupRel (some (.dir es)) q)) ∧
           (dirAtO (lookupRel (some (.dir es')) q) =
              dirAtO (lookupRel (some (.dir es)) q)) ∧
           (q ≠ rel → (lookupRel (some (.dir es')) q).isSome =
              (lookupRel (some (.dir es)) q).isSome) ∧
           (q = rel → lookupRel (some (.dir es')) q = none) := by
  induction rel with
  | nil => intro es es' hwf h; simp [removeFileEntries] at h
  | cons s rest ih =>
    intro es es' hwf h
    cases hwf with
    | dir _ hnd hch =>
    cases rest with
    | nil =>
      rw [show removeFileEntries es [s] = (match lookupName es s with
        | some (.file _) => some (eraseName es s)
        | _ => none) from rfl] at h
      match hln : lookupName es s with
      | none => rw [hln] at h; simp at h
      | some (.dir ces) => rw [hln] at h; simp at h
      | some .other => rw [hln] at h; simp at h
      | some (.file old) =>
        rw [hln] at h
        have hes' : eraseName es s = es' := Option.some.inj h
        subst hes'
        have hsub := eraseName_sublist es s
        refine ⟨FSWf.dir _ ((hsub.map Prod.fst).nodup hnd)
          (fun e he => hch e (hsub.mem he)), ?_⟩
        intro q
        cases q with
        | nil =>
          refine ⟨?_, rfl, fun _ => rfl, fun hc => absurd hc (by simp)⟩
          rw [if_neg (by simp)]
          rfl
        | cons t q' =>
          rw [lookupRel_dir_cons, lookupRel_dir_cons]
          by_cases hts : t = s
          · subst hts
            rw [lookupName_erase_self hnd, hln, lookupRel_none]
            cases q' with
            | nil =>
              refine ⟨?_, rfl, fun hne => absurd rfl hne, fun _ =>
                lookupRel_none []⟩
              rw [if_pos rfl]
              rfl
            | cons u q'' =>
              refine ⟨?_, rfl, fun _ => rfl, fun hc => absurd hc (by simp)⟩
              rw [if_neg (by simp)]
              rfl
          · rw [lookupName_erase_other hts]
            refine ⟨?_, rfl, fun _ => rfl, fun hc =>
              absurd hc (by simp [hts])⟩
            rw [if_neg (by simp [hts])]
    | cons r1 rs =>
      rw [show removeFileEntries es (s :: r1 :: rs) =
        (match lookupName es s with
        | some (.dir ces) =>
          match removeFileEntries ces (r1 :: rs) with
          | some ces' => some (replaceName es s (.dir ces'))
          | none => none
        | _ => none) from rfl] at h
      match hln : lookupName es s with
      | none => rw [hln] at h; simp at h
      | some (.file cf) => rw [hln] at h; simp at h
      | some .other => rw [hln] at h; simp at h
      | some (.dir ces) =>
        rw [hln] at h
        dsimp only at h
        match hwi : removeFileEntries ces (r1 :: rs) with
        | none => rw [hwi] at h; simp at h
        | some ces' =>
          rw [hwi] at h
          have hes' : replaceName es s (.dir ces') = es' := Option.some.inj h
          subst hes'
          have hceswf : FSWf (.dir ces) := hch (s, .dir ces)
            (lookupName_mem hln)
          obtain ⟨hwf', hframe⟩ := ih ces ces' hceswf hwi
          refine ⟨FSWf.dir _ (by rw [replaceName_names]; exact hnd) ?_, ?_⟩
          · intro e he
            rcases mem_replaceName he with he | he
            · exact hch e he
            · rw [he]
              exact hwf'
          · intro q
            cases q with
            | nil =>
              refine ⟨?_, rfl, fun _ => rfl, fun hc => absurd hc (by simp)⟩
              rw [if_neg (by simp)]
              rfl
            | cons t q' =>
              rw [lookupRel_dir_cons, lookupRel_dir_cons]
              by_cases hts : t = s
              · subst hts
                rw [lookupName_replace_self hln, hln]
                obtain ⟨h1, h2, h3, h4⟩ := hframe q'
                refine ⟨?_, h2, ?_, ?_⟩
                · rw [h1]
                  by_cases hq : q' = r1 :: rs
                  · rw [if_pos hq, if_pos (by rw [hq])]
                  · rw [if_neg hq, if_neg (fun hc =>
                      hq (List.cons.inj hc).2)]
                · intro hne
                  exact h3 (fun hc => hne (by rw [hc]))
                · intro hc
                  exact h4 (List.cons.inj hc).2
              · rw [lookupName_replace_other hts]
                refine ⟨?_, rfl, fun _ => rfl, fun hc =>
                  absurd hc (by simp [hts])⟩
                rw [if_neg (by simp [hts])]

/-- Effect of `mkdirsEntries` on every relative path: no file content
changes, directories and existing paths persist, and anything newly
existing lies on the created chain. -/
theorem mkdirsEntries_frame (rel : Pth) :
    ∀ (es : List (String × FSNode)) (q : Pth),
      (fileAtO (lookupRel (some (.dir (mkdirsEntries es rel))) q) =
        fileAtO (lookupRel (some (.dir es)) q)) ∧
      (dirAtO (lookupRel (some (.dir es)) q) = true →
        dirAtO (lookupRel (some (.dir (mkdirsEntries es rel))) q) = true) ∧
      ((lookupRel (some (.dir es)) q).isSome = true →
        (lookupRel (some (.dir (mkdirsEntries es rel))) q).isSome = true) ∧
      ((lookupRel (some (.dir (mkdirsEntries es rel))) q).isSome = true →
        (lookupRel (some (.dir es)) q).isSome = true ∨ ∃ x, rel = q ++ x) := by
  induction rel with
  | nil =>
    intro es q
    rw [show mkdirsEntries es [] = es from rfl]
    exact ⟨rfl, fun h => h, fun h => h, fun h => .inl h⟩
  | cons s rest ih =>
    intro es q
    rw [show mkdirsEntries es (s :: rest) = (match lookupName es s with
      | some (.dir ces) => replaceName es s (.dir (mkdirsEntries ces rest))
      | some _ => es
      | none => es ++ [(s, .dir (freshDirs rest))]) from rfl]
    match hln : lookupName es s with
    | some (.file cf) =>
      exact ⟨rfl, fun h => h, fun h => h, fun h => .inl h⟩
    | some .other =>
      exact ⟨rfl, fun h => h, fun h => h, fun h => .inl h⟩
    | some (.dir ces) =>
      cases q with
      | nil => exact ⟨rfl, fun _ => rfl, fun _ => rfl, fun h => .inl h⟩
      | cons t q' =>
        rw [lookupRel_dir_cons, lookupRel_dir_cons]
        by_cases hts : t = s
        · subst hts
          rw [lookupName_replace_self hln, hln]
          obtain ⟨h1, h2, h3, h4⟩ := ih ces q'
          refine ⟨h1, h2, h3, fun hs => ?_⟩
          rcases h4 hs with hh | ⟨x, hx⟩
          · exact .inl hh
          · exact .inr ⟨x, by rw [hx]; simp⟩
        · rw [lookupName_replace_other hts]
          exact ⟨rfl, fun h => h, fun h => h, fun h => .inl h⟩
    | none =>
      cases q with
      | nil => exact ⟨rfl, fun _ => rfl, fun _ => rfl, fun h => .inl h⟩
      | cons t q' =>
        rw [lookupRel_dir_cons, lookupRel_dir_cons]
        by_cases hts : t = s
        · subst hts
          rw [lookupName_append_self hln, hln, lookupRel_none]
          obtain ⟨h1, h2⟩ := freshDirs_lookup q' rest
          refine ⟨h1, by simp [dirAtO], by simp, fun hs => ?_⟩
          obtain ⟨x, hx⟩ := h2 hs
          exact .inr ⟨x, by rw [hx]; simp⟩
        · rw [lookupName_append_other hts]
          exact ⟨rfl, fun h => h, fun h => h, fun h => .inl h⟩

theorem mkdirsEntries_wf (rel : Pth) :
    ∀ {es : List (String × FSNode)}, FSWf (.dir es) →
      FSWf (.dir (mkdirsEntries es rel)) := by
  induction rel with
  | nil =>
    intro es hwf
    rw [show mkdirsEntries es [] = es from rfl]
    exact hwf
  | cons s rest ih =>
    intro es hwf
    cases hwf with
    | dir _ hnd hch =>
    rw [show mkdirsEntries es (s :: rest) = (match lookupName es s with
      | some (.dir ces) => replaceName es s (.dir (mkdirsEntries ces rest))
      | some _ => es
      | none => es ++ [(s, .dir (freshDirs rest))]) from rfl]
    match hln : lookupName es s with
    | some (.file cf) => exact FSWf.dir _ hnd hch
    | some .other => exact FSWf.dir _ hnd hch
    | some (.dir ces) =>
      have hceswf : FSWf (.dir ces) := hch (s, .dir ces) (lookupName_mem hln)
      refine FSWf.dir _ (by rw [replaceName_names]; exact hnd) ?_
      intro e he
      rcases mem_replaceName he with he | he
      · exact hch e he
      · rw [he]
        exact ih hceswf
    | none =>
      refine FSWf.dir _ ?_ ?_
      · rw [List.map_append]
        simp only [List.map_cons, List.map_nil]
        rw [List.nodup_append]
        exact ⟨hnd, by simp, by
          intro a ha hb
          have : a = s := by simpa using hb
          subst this
          exact lookupName_none_names hln ha⟩
      · intro e he
        rcases List.mem_append.mp he with he | he
        · exact hch e he
        · have : e = (s, .dir (freshDirs rest)) := by simpa using he
          rw [this]
          exact freshDirs_wf rest


/-! ## C4: world-level frame lemmas -/

theorem pathLookup_tgt_eq {w w2 : World} (hd : RootsDisjoint w)
    (hsrc : w2.src = w.src) (htgt : w2.tgt = w.tgt)
    (hobj' : w2.tgtObj = w.tgtObj) (q : Pth) :
    pathLookup w2 (w.tgt ++ q) = pathLookup w (w.tgt ++ q) := by
  have hd2 : RootsDisjoint w2 :=
    ⟨by rw [hsrc, htgt]; exact hd.1, by rw [hsrc, htgt]; exact hd.2⟩
  rw [← htgt, pathLookup_tgt hd2, hobj', htgt, pathLookup_tgt hd]

/-- `writeFileW` on a source-side path: only that path's file content
changes; directory-ness and existence elsewhere are untouched, and the
target side of the world is untouched. -/
theorem writeFileW_src {w : World} {rel : Pth}
    {c : Content} {w2 : World}
    (h : writeFileW w (w.src ++ rel) c = some w2) :
    w2.src = w.src ∧ w2.tgt = w.tgt ∧ w2.tgtObj = w.tgtObj ∧
    (∃ es', w2.srcObj = some (.dir es')) ∧
    (FSWfO w.srcObj → FSWfO w2.srcObj) ∧
    (∀ q, openFile w2 (w.src ++ q) =
      if q = rel then some c else openFile w (w.src ++ q)) ∧
    (∀ q, isdir w2 (w.src ++ q) = isdir w (w.src ++ q)) ∧
    (∀ q, q ≠ rel → exists? w2 (w.src ++ q) = exists? w (w.src ++ q)) := by
  unfold writeFileW at h
  rw [stripRoot_append] at h
  match hso : w.srcObj with
  | none => rw [hso] at h; simp at h
  | some (.file cf) => rw [hso] at h; simp at h
  | some .other => rw [hso] at h; simp at h
  | some (.dir es) =>
    rw [hso] at h
    dsimp only at h
    match hwe : writeEntries es rel c with
    | none => rw [hwe] at h; simp at h
    | some es' =>
      rw [hwe] at h
      simp only [Option.map_some'] at h
      have hw2 : w2 = ⟨w.src, w.tgt, some (.dir es'), w.tgtObj⟩ :=
        (Option.some.inj h).symm
      subst hw2
      have hlu : ∀ q, pathLookup ⟨w.src, w.tgt, some (.dir es'), w.tgtObj⟩
          (w.src ++ q) = lookupRel (some (.dir es')) q := fun q =>
        pathLookup_src ⟨w.src, w.tgt, some (.dir es'), w.tgtObj⟩ q
      have hlu0 : ∀ q, pathLookup w (w.src ++ q) =
          lookupRel (some (.dir es)) q := fun q => by
        rw [pathLookup_src w q, hso]
      refine ⟨rfl, rfl, rfl, ⟨es', rfl⟩, ?_, ?_, ?_, ?_⟩
      · intro hwf n hn
        have : FSNode.dir es' = n := Option.some.inj hn
        rw [← this]
        exact writeEntries_wf rel (hwf _ rfl) hwe
      · intro q
        rw [openFile_eq_fileAtO, openFile_eq_fileAtO, hlu, hlu0]
        exact (writeEntries_frame rel es c es' hwe q).1
      · intro q
        rw [isdir_eq_dirAtO, isdir_eq_dirAtO, hlu, hlu0]
        exact (writeEntries_frame rel es c es' hwe q).2.1
      · intro q hne
        rw [exists?_eq_isSome, exists?_eq_isSome, hlu, hlu0]
        exact (writeEntries_frame rel es c es' hwe q).2.2 hne

/-- `removeFileW` on a source-side path: that path stops existing, every
other path is untouched, and the target side is untouched. -/
theorem removeFileW_src {w : World} {rel : Pth}
    {w2 : World} (hwf : FSWfO w.srcObj)
    (h : removeFileW w (w.src ++ rel) = some w2) :
    w2.src = w.src ∧ w2.tgt = w.tgt ∧ w2.tgtObj = w.tgtObj ∧
    (∃ es', w2.srcObj = some (.dir es')) ∧
    FSWfO w2.srcObj ∧
    (∀ q, openFile w2 (w.src ++ q) =
      if q = rel then none else openFile w (w.src ++ q)) ∧
    (∀ q, isdir w2 (w.src ++ q) = isdir w (w.src ++ q)) ∧
    (∀ q, q ≠ rel → exists? w2 (w.src ++ q) = exists? w (w.src ++ q)) ∧
    exists? w2 (w.src ++ rel) = false := by
  unfold removeFileW at h
  rw [stripRoot_append] at h
  match hso : w.srcObj with
  | none => rw [hso] at h; simp at h
  | some (.file cf) => rw [hso] at h; simp at h
  | some .other => rw [hso] at h; simp at h
  | some (.dir es) =>
    rw [hso] at h
    dsimp only at h
    match hre : removeFileEntries es rel with
    | none => rw [hre] at h; simp at h
    | some es' =>
      rw [hre] at h
      simp only [Option.map_some'] at h
      have hw2 : w2 = ⟨w.src, w.tgt, some (.dir es'), w.tgtObj⟩ :=
        (Option.some.inj h).symm
      subst hw2
      obtain ⟨hwf', hframe⟩ := removeFileEntries_frame rel es es'
        (hwf _ hso) hre
      have hlu : ∀ q, pathLookup ⟨w.src, w.tgt, some (.dir es'), w.tgtObj⟩
          (w.src ++ q) = lookupRel (some (.dir es')) q := fun q =>
        pathLookup_src ⟨w.src, w.tgt, some (.dir es'), w.tgtObj⟩ q
      have hlu0 : ∀ q, pathLookup w (w.src ++ q) =
          lookupRel (some (.dir es)) q := fun q => by
        rw [pathLookup_src w q, hso]
      refine ⟨rfl, rfl, rfl, ⟨es', rfl⟩, ?_, ?_, ?_, ?_, ?_⟩
      · intro n hn
        have : FSNode.dir es' = n := Option.some.inj hn
        rw [← this]
        exact hwf'
      · intro q
        rw [openFile_eq_fileAtO, openFile_eq_fileAtO, hlu, hlu0]
        exact (hframe q).1
      · intro q
        rw [isdir_eq_dirAtO, isdir_eq_dirAtO, hlu, hlu0]
        exact (hframe q).2.1
      · intro q hne
        rw [exists?_eq_isSome, exists?_eq_isSome, hlu, hlu0]
        exact (hframe q).2.2.1 hne
      · rw [exists?_eq_isSome, hlu, (hframe rel).2.2.2 rfl]
        rfl

/-- `mkdirsW` on a source-side path: no file content changes anywhere,
directories and existing paths persist, anything newly existing lies on
the created chain, and the target side is untouched. -/
theorem mkdirsW_src {w : World} (rel : Pth)
    {es : List (String × FSNode)} (hso : w.srcObj = some (.dir es)) :
    (mkdirsW w (w.src ++ rel)).src = w.src ∧
    (mkdirsW w (w.src ++ rel)).tgt = w.tgt ∧
    (mkdirsW w (w.src ++ rel)).tgtObj = w.tgtObj ∧
    (mkdirsW w (w.src ++ rel)).srcObj =
      some (.dir (mkdirsEntries es rel)) ∧
    (FSWfO w.srcObj → FSWfO (mkdirsW w (w.src ++ rel)).srcObj) ∧
    (∀ q, openFile (mkdirsW w (w.src ++ rel)) (w.src ++ q) =
      openFile w (w.src ++ q)) ∧
    (∀ q, isdir w (w.src ++ q) = true →
      isdir (mkdirsW w (w.src ++ rel)) (w.src ++ q) = true) ∧
    (∀ q, exists? w (w.src ++ q) = true →
      exists? (mkdirsW w (w.src ++ rel)) (w.src ++ q) = true) ∧
    (∀ q, exists? (mkdirsW w (w.src ++ rel)) (w.src ++ q) = true →
      exists? w (w.src ++ q) = true ∨ ∃ x, rel = q ++ x) := by
  have hw2 : mkdirsW w (w.src ++ rel) =
      ⟨w.src, w.tgt, some (.dir (mkdirsEntries es rel)), w.tgtObj⟩ := by
    unfold mkdirsW
    rw [stripRoot_append, hso]
  rw [hw2]
  have hlu : ∀ q, pathLookup
      ⟨w.src, w.tgt, some (.dir (mkdirsEntries es rel)), w.tgtObj⟩
      (w.src ++ q) = lookupRel (some (.dir (mkdirsEntries es rel))) q :=
    fun q => pathLookup_src _ q
  have hlu0 : ∀ q, pathLookup w (w.src ++ q) =
      lookupRel (some (.dir es)) q := fun q => by
    rw [pathLookup_src w q, hso]
  refine ⟨rfl, rfl, rfl, rfl, ?_, ?_, ?_, ?_, ?_⟩
  · intro hwf n hn
    have : FSNode.dir (mkdirsEntries es rel) = n := Option.some.inj hn
    rw [← this]
    exact mkdirsEntries_wf rel (hwf _ hso)
  · intro q
    rw [openFile_eq_fileAtO, openFile_eq_fileAtO, hlu, hlu0]
    exact (mkdirsEntries_frame rel es q).1
  · intro q hq
    rw [isdir_eq_dirAtO, hlu]
    rw [isdir_eq_dirAtO, hlu0] at hq
    exact (mkdirsEntries_frame rel es q).2.1 hq
  · intro q hq
    rw [exists?_eq_isSome, hlu]
    rw [exists?_eq_isSome, hlu0] at hq
    exact (mkdirsEntries_frame rel es q).2.2.1 hq
  · intro q hq
    rw [exists?_eq_isSome, hlu] at hq
    rw [exists?_eq_isSome, hlu0]
    exact (mkdirsEntries_frame rel es q).2.2.2 hq


/-- The node is the depot item for relative path `r` with status `st`
(paths joined from the roots of `w0`). -/
def relOf (w0 : World) (n : Node) (r : Pth) (st : QFileStatus) : Prop :=
  n.kind = .depot (w0.src ++ r) (w0.tgt ++ r) st

theorem relOf_inj {w0 : World} {n : Node} {r1 r2 : Pth}
    {st1 st2 : QFileStatus}
    (h1 : relOf w0 n r1 st1) (h2 : relOf w0 n r2 st2) :
    r1 = r2 ∧ st1 = st2 := by
  unfold relOf at h1 h2
  rw [h1] at h2
  injection h2 with ha hb hc
  exact ⟨List.append_cancel_left ha, hc⟩

theorem status_det {w0 : World} {a b : Pth} {st1 st2 : QFileStatus}
    (h1 : evaluateFileStatus w0 a b = .ok st1)
    (h2 : evaluateFileStatus w0 a b = .ok st2) : st1 = st2 := by
  rw [h1] at h2
  exact Except.ok.inj h2

/-- Filesystem effect of the commit item loop, itemised per relative
path: paths without a depot item keep their file content (directories
persist, existence changes only below an `Add` item's directory chain);
an `Edit`/`Add` item's source path ends holding the target content; a
`Delete` item's source path stops existing; an `Unchanged` item's source
path is untouched. -/
theorem commitItems_fs (w0 : World) (hd : RootsDisjoint w0) :
    ∀ (todo : List Node) (wk w' : World) (ops : List P4Op),
      wk.src = w0.src → wk.tgt = w0.tgt →
      (∃ es, wk.srcObj = some (.dir es)) → FSWfO wk.srcObj →
      commitItems wk todo = .ok w' ops →
      (∀ n ∈ todo, ∀ sp tp st, n.kind = .depot sp tp st →
        ∃ r, r ≠ [] ∧ sp = w0.src ++ r ∧ tp = w0.tgt ++ r ∧
          evaluateFileStatus w0 sp tp = .ok st) →
      (∀ n1 ∈ todo, ∀ n2 ∈ todo, ∀ r1 st1 r2 st2,
        relOf w0 n1 r1 st1 → relOf w0 n2 r2 st2 →
        ¬∃ x, x ≠ [] ∧ r2 = r1 ++ x) →
      w'.src = w0.src ∧ w'.tgt = w0.tgt ∧ w'.tgtObj = wk.tgtObj ∧
      (∃ es', w'.srcObj = some (.dir es')) ∧ FSWfO w'.srcObj ∧
      (∀ r, (∀ n ∈ todo, ∀ st, relOf w0 n r st → False) →
        openFile w' (w0.src ++ r) = openFile wk (w0.src ++ r) ∧
        (isdir wk (w0.src ++ r) = true → isdir w' (w0.src ++ r) = true) ∧
        ((∀ n ∈ todo, ∀ r1 st1, relOf w0 n r1 st1 →
            ¬∃ x, x ≠ [] ∧ r1 = r ++ x) →
          exists? w' (w0.src ++ r) = exists? wk (w0.src ++ r))) ∧
      (∀ n ∈ todo, ∀ r st, relOf w0 n r st →
        ((st = .Edit ∨ st = .Add) →
          openFile w' (w0.src ++ r) = openFile wk (w0.tgt ++ r)) ∧
        (st = .Delete → exists? w' (w0.src ++ r) = false) ∧
        (st = .Unchanged →
          openFile w' (w0.src ++ r) = openFile wk (w0.src ++ r))) := by
  intro todo
  induction todo with
  | nil =>
    intro wk w' ops hsrc htgt hdir hwfk hok hform hnpre
    have h1 : CommitRes.ok wk [] = .ok w' ops := hok
    injection h1 with hw ho
    subst hw
    refine ⟨hsrc, htgt, rfl, hdir, hwfk, ?_, ?_⟩
    · intro r _
      exact ⟨rfl, fun h => h, fun _ => rfl⟩
    · intro n hn
      simp at hn
  | cons n rest ih =>
    intro wk w' ops hsrc htgt hdir hwfk hok hform hnpre
    have hdk : RootsDisjoint wk :=
      ⟨by rw [hsrc, htgt]; exact hd.1, by rw [hsrc, htgt]; exact hd.2⟩
    simp only [commitItems] at hok
    match hk : n.kind with
    | .plain =>
      rw [hk] at hok
      dsimp only at hok
      obtain ⟨hc1, hc2, hc3, hc4, hc5, hP1, hP2⟩ := ih wk w' ops hsrc htgt
        hdir hwfk hok
        (fun n2 hn2 => hform n2 (List.mem_cons_of_mem _ hn2))
        (fun n1 hn1 n2 hn2 => hnpre n1 (List.mem_cons_of_mem _ hn1) n2
          (List.mem_cons_of_mem _ hn2))
      refine ⟨hc1, hc2, hc3, hc4, hc5, ?_, ?_⟩
      · intro r hno
        obtain ⟨q1, q2, q3⟩ := hP1 r (fun n2 hn2 st hrel =>
          hno n2 (List.mem_cons_of_mem _ hn2) st hrel)
        exact ⟨q1, q2, fun hcond => q3 (fun n2 hn2 =>
          hcond n2 (List.mem_cons_of_mem _ hn2))⟩
      · intro n2 hn2 r st hrel
        rcases List.mem_cons.mp hn2 with he | he
        · exfalso
          subst he
          unfold relOf at hrel
          rw [hk] at hrel
          exact absurd hrel (by simp)
        · exact hP2 n2 he r st hrel
    | .depot sp tp st =>
      rw [hk] at hok
      dsimp only at hok
      obtain ⟨r0, hr0ne, hsp, htp0, hev0⟩ := hform n (List.mem_cons_self _ _)
        sp tp st hk
      subst hsp
      subst htp0
      have hrel0 : relOf w0 n r0 st := hk
      cases st with
      | Unchanged =>
        dsimp only at hok
        obtain ⟨hc1, hc2, hc3, hc4, hc5, hP1, hP2⟩ := ih wk w' ops hsrc htgt
          hdir hwfk hok
          (fun n2 hn2 => hform n2 (List.mem_cons_of_mem _ hn2))
          (fun n1 hn1 n2 hn2 => hnpre n1 (List.mem_cons_of_mem _ hn1) n2
            (List.mem_cons_of_mem _ hn2))
        refine ⟨hc1, hc2, hc3, hc4, hc5, ?_, ?_⟩
        · intro r hno
          obtain ⟨q1, q2, q3⟩ := hP1 r (fun n2 hn2 st hrel =>
            hno n2 (List.mem_cons_of_mem _ hn2) st hrel)
          exact ⟨q1, q2, fun hcond => q3 (fun n2 hn2 =>
            hcond n2 (List.mem_cons_of_mem _ hn2))⟩
        · intro n2 hn2 r st2 hrel2
          rcases List.mem_cons.mp hn2 with he | he
          · subst he
            obtain ⟨hr, hst⟩ := relOf_inj hrel0 hrel2
            subst hr
            subst hst
            refine ⟨?_, ?_, ?_⟩
            · intro hc
              rcases hc with hc | hc <;> exact absurd hc (by simp)
            · intro hc
              exact absurd hc (by simp)
            · intro _
              by_cases hex : ∃ n3 ∈ rest, ∃ st', relOf w0 n3 r0 st'
              · obtain ⟨n3, hn3, st', hrel3⟩ := hex
                obtain ⟨r3, _, _, _, hev3⟩ := hform n3
                  (List.mem_cons_of_mem _ hn3) _ _ _ hrel3
                have hst' : st' = .Unchanged := status_det hev3 hev0
                exact (hP2 n3 hn3 r0 _ hrel3).2.2 hst'
              · have hno' : ∀ n3 ∈ rest, ∀ st', relOf w0 n3 r0 st' → False :=
                  fun n3 hn3 st' hr => hex ⟨n3, hn3, st', hr⟩
                exact (hP1 r0 hno').1
          · exact hP2 n2 he r st2 hrel2
      | Edit =>
        dsimp only at hok
        match hopen : openFile wk (w0.tgt ++ r0) with
        | none =>
          rw [hopen] at hok
          exact absurd hok (by simp)
        | some c =>
          rw [hopen] at hok
          dsimp only at hok
          match hwrite : writeFileW wk (w0.src ++ r0) c with
          | none =>
            rw [hwrite] at hok
            exact absurd hok (by simp)
          | some wk2 =>
            rw [hwrite] at hok
            dsimp only at hok
            obtain ⟨ops0, hok2, hops⟩ := consOps_ok hok
            have hwrite' : writeFileW wk (wk.src ++ r0) c = some wk2 := by
              rw [hsrc]
              exact hwrite
            obtain ⟨hf1, hf2, hf3, hf4, hf5, hfOpen, hfDir, hfEx⟩ :=
              writeFileW_src hwrite'
            have hOpen : ∀ q, openFile wk2 (w0.src ++ q) =
                if q = r0 then some c else openFile wk (w0.src ++ q) :=
              fun q => by have h1 := hfOpen q; rwa [hsrc] at h1
            have hDir : ∀ q, isdir wk2 (w0.src ++ q) =
                isdir wk (w0.src ++ q) :=
              fun q => by have h1 := hfDir q; rwa [hsrc] at h1
            have hEx : ∀ q, q ≠ r0 → exists? wk2 (w0.src ++ q) =
                exists? wk (w0.src ++ q) :=
              fun q hq => by have h1 := hfEx q hq; rwa [hsrc] at h1
            have hTgt : ∀ q, pathLookup wk2 (w0.tgt ++ q) =
                pathLookup wk (w0.tgt ++ q) := fun q => by
              have h1 := pathLookup_tgt_eq hdk hf1 hf2 hf3 q
              rwa [htgt] at h1
            have hTgtO : ∀ q, openFile wk2 (w0.tgt ++ q) =
                openFile wk (w0.tgt ++ q) := fun q => by
              rw [openFile_eq_fileAtO, openFile_eq_fileAtO, hTgt q]
            obtain ⟨hc1, hc2, hc3, hc4, hc5, hP1, hP2⟩ := ih wk2 w' ops0
              (hf1.trans hsrc) (hf2.trans htgt) hf4 (hf5 hwfk) hok2
              (fun n2 hn2 => hform n2 (List.mem_cons_of_mem _ hn2))
              (fun n1 hn1 n2 hn2 => hnpre n1 (List.mem_cons_of_mem _ hn1) n2
                (List.mem_cons_of_mem _ hn2))
            refine ⟨hc1, hc2, hc3.trans hf3, hc4, hc5, ?_, ?_⟩
            · intro r hno
              have hnr0 : r ≠ r0 := fun hc =>
                hno n (List.mem_cons_self _ _) .Edit (hc ▸ hrel0)
              obtain ⟨q1, q2, q3⟩ := hP1 r (fun n2 hn2 st hrel =>
                hno n2 (List.mem_cons_of_mem _ hn2) st hrel)
              refine ⟨?_, ?_, ?_⟩
              · rw [q1, hOpen r, if_neg hnr0]
              · intro hh
                refine q2 ?_
                rw [hDir r]
                exact hh
              · intro hcond
                rw [q3 (fun n2 hn2 => hcond n2 (List.mem_cons_of_mem _ hn2)),
                  hEx r hnr0]
            · intro n2 hn2 r st2 hrel2
              rcases List.mem_cons.mp hn2 with he | he
              · subst he
                obtain ⟨hr, hst⟩ := relOf_inj hrel0 hrel2
                subst hr
                subst hst
                refine ⟨?_, ?_, ?_⟩
                · intro _
                  by_cases hex : ∃ n3 ∈ rest, ∃ st', relOf w0 n3 r0 st'
                  · obtain ⟨n3, hn3, st', hrel3⟩ := hex
                    obtain ⟨r3, _, _, _, hev3⟩ := hform n3
                      (List.mem_cons_of_mem _ hn3) _ _ _ hrel3
                    have hst' : st' = .Edit := status_det hev3 hev0
                    subst hst'
                    rw [(hP2 n3 hn3 r0 _ hrel3).1 (.inl rfl), hTgtO r0]
                  · have hno' : ∀ n3 ∈ rest, ∀ st', relOf w0 n3 r0 st' →
                        False :=
                      fun n3 hn3 st' hr => hex ⟨n3, hn3, st', hr⟩
                    rw [(hP1 r0 hno').1, hOpen r0, if_pos rfl, hopen]
                · intro hc
                  exact absurd hc (by simp)
                · intro hc
                  exact absurd hc (by simp)
              · obtain ⟨p1, p2, p3⟩ := hP2 n2 he r st2 hrel2
                refine ⟨?_, p2, ?_⟩
                · intro hcase
                  rw [p1 hcase, hTgtO r]
                · intro hunch
                  subst hunch
                  have hrne : r ≠ r0 := by
                    intro hc
                    subst hc
                    obtain ⟨r3, _, _, _, hev3⟩ := hform n2
                      (List.mem_cons_of_mem _ he) _ _ _ hrel2
                    exact absurd (status_det hev3 hev0) (by simp)
                  rw [p3 rfl, hOpen r, if_neg hrne]
      | Delete =>
        dsimp only at hok
        match hrem : removeFileW wk (w0.src ++ r0) with
        | none =>
          rw [hrem] at hok
          exact absurd hok (by simp)
        | some wk2 =>
          rw [hrem] at hok
          dsimp only at hok
          obtain ⟨ops0, hok2, hops⟩ := consOps_ok hok
          have hrem' : removeFileW wk (wk.src ++ r0) = some wk2 := by
            rw [hsrc]
            exact hrem
          obtain ⟨hf1, hf2, hf3, hf4, hf5, hfOpen, hfDir, hfEx, hfGone⟩ :=
            removeFileW_src hwfk hrem'
          have hOpen : ∀ q, openFile wk2 (w0.src ++ q) =
              if q = r0 then none else openFile wk (w0.src ++ q) :=
            fun q => by have h1 := hfOpen q; rwa [hsrc] at h1
          have hDir : ∀ q, isdir wk2 (w0.src ++ q) =
              isdir wk (w0.src ++ q) :=
            fun q => by have h1 := hfDir q; rwa [hsrc] at h1
          have hEx : ∀ q, q ≠ r0 → exists? wk2 (w0.src ++ q) =
              exists? wk (w0.src ++ q) :=
            fun q hq => by have h1 := hfEx q hq; rwa [hsrc] at h1
          have hGone : exists? wk2 (w0.src ++ r0) = false := by
            have h1 := hfGone
            rwa [hsrc] at h1
          have hTgt : ∀ q, pathLookup wk2 (w0.tgt ++ q) =
              pathLookup wk (w0.tgt ++ q) := fun q => by
            have h1 := pathLookup_tgt_eq hdk hf1 hf2 hf3 q
            rwa [htgt] at h1
          have hTgtO : ∀ q, openFile wk2 (w0.tgt ++ q) =
              openFile wk (w0.tgt ++ q) := fun q => by
            rw [openFile_eq_fileAtO, openFile_eq_fileAtO, hTgt q]
          obtain ⟨hc1, hc2, hc3, hc4, hc5, hP1, hP2⟩ := ih wk2 w' ops0
            (hf1.trans hsrc) (hf2.trans htgt) hf4 hf5 hok2
            (fun n2 hn2 => hform n2 (List.mem_cons_of_mem _ hn2))
            (fun n1 hn1 n2 hn2 => hnpre n1 (List.mem_cons_of_mem _ hn1) n2
              (List.mem_cons_of_mem _ hn2))
          refine ⟨hc1, hc2, hc3.trans hf3, hc4, hc5, ?_, ?_⟩
          · intro r hno
            have hnr0 : r ≠ r0 := fun hc =>
              hno n (List.mem_cons_self _ _) .Delete (hc ▸ hrel0)
            obtain ⟨q1, q2, q3⟩ := hP1 r (fun n2 hn2 st hrel =>
              hno n2 (List.mem_cons_of_mem _ hn2) st hrel)
            refine ⟨?_, ?_, ?_⟩
            · rw [q1, hOpen r, if_neg hnr0]
            · intro hh
              refine q2 ?_
              rw [hDir r]
              exact hh
            · intro hcond
              rw [q3 (fun n2 hn2 => hcond n2 (List.mem_cons_of_mem _ hn2)),
                hEx r hnr0]
          · intro n2 hn2 r st2 hrel2
            rcases List.mem_cons.mp hn2 with he | he
            · subst he
              obtain ⟨hr, hst⟩ := relOf_inj hrel0 hrel2
              subst hr
              subst hst
              refine ⟨?_, ?_, ?_⟩
              · intro hc
                rcases hc with hc | hc <;> exact absurd hc (by simp)
              · intro _
                by_cases hex : ∃ n3 ∈ rest, ∃ st', relOf w0 n3 r0 st'
                · obtain ⟨n3, hn3, st', hrel3⟩ := hex
                  obtain ⟨r3, _, _, _, hev3⟩ := hform n3
                    (List.mem_cons_of_mem _ hn3) _ _ _ hrel3
                  have hst' : st' = .Delete := status_det hev3 hev0
                  subst hst'
                  exact (hP2 n3 hn3 r0 _ hrel3).2.1 rfl
                · have hno' : ∀ n3 ∈ rest, ∀ st', relOf w0 n3 r0 st' →
                      False :=
                    fun n3 hn3 st' hr => hex ⟨n3, hn3, st', hr⟩
                  have hcond : ∀ n3 ∈ rest, ∀ r1 st1, relOf w0 n3 r1 st1 →
                      ¬∃ x, x ≠ [] ∧ r1 = r0 ++ x := fun n3 hn3 r1 st1 hr =>
                    hnpre n2 (List.mem_cons_self _ _) n3
                      (List.mem_cons_of_mem _ hn3) r0 .Delete r1 st1 hrel0 hr
                  rw [(hP1 r0 hno').2.2 hcond, hGone]
              · intro hc
                exact absurd hc (by simp)
            · obtain ⟨p1, p2, p3⟩ := hP2 n2 he r st2 hrel2
              refine ⟨?_, p2, ?_⟩
              · intro hcase
                rw [p1 hcase, hTgtO r]
              · intro hunch
                subst hunch
                have hrne : r ≠ r0 := by
                  intro hc
                  subst hc
                  obtain ⟨r3, _, _, _, hev3⟩ := hform n2
                    (List.mem_cons_of_mem _ he) _ _ _ hrel2
                  exact absurd (status_det hev3 hev0) (by simp)
                rw [p3 rfl, hOpen r, if_neg hrne]
      | Add =>
        dsimp only at hok
        rw [List.dropLast_append_of_ne_nil w0.src hr0ne] at hok
        obtain ⟨es, hes⟩ := hdir
        obtain ⟨hm1, hm2, hm3, hm4, hm5, hmOpen, hmDir, hmEx1, hmEx2⟩ :=
          mkdirsW_src (w := wk) r0.dropLast hes
        rw [hsrc] at hm1 hm2 hm3 hm4
        have hm5' : FSWfO (mkdirsW wk (w0.src ++ r0.dropLast)).srcObj := by
          have h1 := hm5 hwfk
          rwa [hsrc] at h1
        have hmO : ∀ q, openFile (mkdirsW wk (w0.src ++ r0.dropLast))
            (w0.src ++ q) = openFile wk (w0.src ++ q) :=
          fun q => by have h1 := hmOpen q; rwa [hsrc] at h1
        have hmD : ∀ q, isdir wk (w0.src ++ q) = true →
            isdir (mkdirsW wk (w0.src ++ r0.dropLast)) (w0.src ++ q) =
              true := fun q => by
          have h1 := hmDir q
          rwa [hsrc] at h1
        have hmE1 : ∀ q, exists? wk (w0.src ++ q) = true →
            exists? (mkdirsW wk (w0.src ++ r0.dropLast)) (w0.src ++ q) =
              true := fun q => by
          have h1 := hmEx1 q
          rwa [hsrc] at h1
        have hmE2 : ∀ q,
            exists? (mkdirsW wk (w0.src ++ r0.dropLast)) (w0.src ++ q) =
              true →
            exists? wk (w0.src ++ q) = true ∨ ∃ x, r0.dropLast = q ++ x :=
          fun q => by
          have h1 := hmEx2 q
          rwa [hsrc] at h1
        have hmTgt : ∀ q, pathLookup (mkdirsW wk (w0.src ++ r0.dropLast))
            (w0.tgt ++ q) = pathLookup wk (w0.tgt ++ q) := fun q => by
          have h1 := pathLookup_tgt_eq hdk (hm1.trans hsrc.symm) hm2 hm3 q
          rwa [htgt] at h1
        have hmTgtO : ∀ q, openFile (mkdirsW wk (w0.src ++ r0.dropLast))
            (w0.tgt ++ q) = openFile wk (w0.tgt ++ q) := fun q => by
          rw [openFile_eq_fileAtO, openFile_eq_fileAtO, hmTgt q]
        match hopen : openFile (mkdirsW wk (w0.src ++ r0.dropLast))
            (w0.tgt ++ r0) with
        | none =>
          rw [hopen] at hok
          exact absurd hok (by simp)
        | some c =>
          rw [hopen] at hok
          dsimp only at hok
          match hwrite : writeFileW (mkdirsW wk (w0.src ++ r0.dropLast))
              (w0.src ++ r0) c with
          | none =>
            rw [hwrite] at hok
            exact absurd hok (by simp)
          | some wk2 =>
            rw [hwrite] at hok
            dsimp only at hok
            obtain ⟨ops0, hok2, hops⟩ := consOps_ok hok
            have hwrite' : writeFileW (mkdirsW wk (w0.src ++ r0.dropLast))
                ((mkdirsW wk (w0.src ++ r0.dropLast)).src ++ r0) c =
                some wk2 := by
              rw [hm1]
              exact hwrite
            obtain ⟨hf1, hf2, hf3, hf4, hf5, hfOpen, hfDir, hfEx⟩ :=
              writeFileW_src hwrite'
            have hOpen : ∀ q, openFile wk2 (w0.src ++ q) =
                if q = r0 then some c else openFile wk (w0.src ++ q) :=
              fun q => by
                have h1 := hfOpen q
                rw [hm1] at h1
                rw [h1]
                by_cases hq : q = r0
                · rw [if_pos hq, if_pos hq]
                · rw [if_neg hq, if_neg hq, hmO q]
            have hDir : ∀ q, isdir wk (w0.src ++ q) = true →
                isdir wk2 (w0.src ++ q) = true := fun q hq => by
              have h1 := hfDir q
              rw [hm1] at h1
              rw [h1]
              exact hmD q hq
            have hEx2 : ∀ q, q ≠ r0 → exists? wk2 (w0.src ++ q) = true →
                exists? wk (w0.src ++ q) = true ∨
                  ∃ x, r0.dropLast = q ++ x := fun q hq hh => by
              have h1 := hfEx q hq
              rw [hm1] at h1
              rw [h1] at hh
              exact hmE2 q hh
            have hExMono : ∀ q, q ≠ r0 → exists? wk (w0.src ++ q) = true →
                exists? wk2 (w0.src ++ q) = true := fun q hq hh => by
              have h1 := hfEx q hq
              rw [hm1] at h1
              rw [h1]
              exact hmE1 q hh
            have hdk1 : RootsDisjoint (mkdirsW wk (w0.src ++ r0.dropLast)) :=
              ⟨by rw [hm1, hm2, htgt]; exact hd.1,
               by rw [hm1, hm2, htgt]; exact hd.2⟩
            have hTgt2 : ∀ q, pathLookup wk2 (w0.tgt ++ q) =
                pathLookup wk (w0.tgt ++ q) := fun q => by
              have h1 := pathLookup_tgt_eq hdk1 hf1 hf2 hf3 q
              rw [hm2, htgt] at h1
              exact h1.trans (hmTgt q)
            have hTgtO2 : ∀ q, openFile wk2 (w0.tgt ++ q) =
                openFile wk (w0.tgt ++ q) := fun q => by
              rw [openFile_eq_fileAtO, openFile_eq_fileAtO, hTgt2 q]
            obtain ⟨hc1, hc2, hc3, hc4, hc5, hP1, hP2⟩ := ih wk2 w' ops0
              (hf1.trans hm1) (hf2.trans (hm2.trans htgt)) hf4 (hf5 hm5')
              hok2
              (fun n2 hn2 => hform n2 (List.mem_cons_of_mem _ hn2))
              (fun n1 hn1 n2 hn2 => hnpre n1 (List.mem_cons_of_mem _ hn1) n2
                (List.mem_cons_of_mem _ hn2))
            refine ⟨hc1, hc2, hc3.trans (hf3.trans hm3), hc4, hc5, ?_, ?_⟩
            · intro r hno
              have hnr0 : r ≠ r0 := fun hc =>
                hno n (List.mem_cons_self _ _) .Add (hc ▸ hrel0)
              obtain ⟨q1, q2, q3⟩ := hP1 r (fun n2 hn2 st hrel =>
                hno n2 (List.mem_cons_of_mem _ hn2) st hrel)
              refine ⟨?_, ?_, ?_⟩
              · rw [q1, hOpen r, if_neg hnr0]
              · intro hh
                exact q2 (hDir r hh)
              · intro hcond
                have hcondHead := hcond n (List.mem_cons_self _ _) r0 .Add
                  hrel0
                have hwk2wk : exists? wk2 (w0.src ++ r) =
                    exists? wk (w0.src ++ r) := by
                  cases hwk : exists? wk (w0.src ++ r) with
                  | true => rw [hExMono r hnr0 hwk]
                  | false =>
                    cases hwk2 : exists? wk2 (w0.src ++ r) with
                    | false => rfl
                    | true =>
                      rcases hEx2 r hnr0 hwk2 with hh | ⟨x, hx⟩
                      · rw [hwk] at hh
                        exact absurd hh (by simp)
                      · exfalso
                        refine hcondHead ⟨x ++ [r0.getLast hr0ne],
                          by simp, ?_⟩
                        rw [← List.append_assoc, ← hx,
                          List.dropLast_concat_getLast hr0ne]
                rw [q3 (fun n2 hn2 => hcond n2 (List.mem_cons_of_mem _ hn2)),
                  hwk2wk]
            · intro n2 hn2 r st2 hrel2
              rcases List.mem_cons.mp hn2 with he | he
              · subst he
                obtain ⟨hr, hst⟩ := relOf_inj hrel0 hrel2
                subst hr
                subst hst
                refine ⟨?_, ?_, ?_⟩
                · intro _
                  by_cases hex : ∃ n3 ∈ rest, ∃ st', relOf w0 n3 r0 st'
                  · obtain ⟨n3, hn3, st', hrel3⟩ := hex
                    obtain ⟨r3, _, _, _, hev3⟩ := hform n3
                      (List.mem_cons_of_mem _ hn3) _ _ _ hrel3
                    have hst' : st' = .Add := status_det hev3 hev0
                    subst hst'
                    rw [(hP2 n3 hn3 r0 _ hrel3).1 (.inr rfl), hTgtO2 r0]
                  · have hno' : ∀ n3 ∈ rest, ∀ st', relOf w0 n3 r0 st' →
                        False :=
                      fun n3 hn3 st' hr => hex ⟨n3, hn3, st', hr⟩
                    rw [(hP1 r0 hno').1, hOpen r0, if_pos rfl,
                      ← hmTgtO r0, hopen]
                · intro hc
                  exact absurd hc (by simp)
                · intro hc
                  exact absurd hc (by simp)
              · obtain ⟨p1, p2, p3⟩ := hP2 n2 he r st2 hrel2
                refine ⟨?_, p2, ?_⟩
                · intro hcase
                  rw [p1 hcase, hTgtO2 r]
                · intro hunch
                  subst hunch
                  have hrne : r ≠ r0 := by
                    intro hc
                    subst hc
                    obtain ⟨r3, _, _, _, hev3⟩ := hform n2
                      (List.mem_cons_of_mem _ he) _ _ _ hrel2
                    exact absurd (status_det hev3 hev0) (by simp)
                  rw [p3 rfl, hOpen r, if_neg hrne]


/-! ## C4: status-evaluation inversions and text-only trees -/

theorem openFile_of_isfile {w : World} {p : Pth} (h : isfile w p = true) :
    ∃ c, openFile w p = some c := by
  unfold isfile at h
  unfold openFile
  revert h
  match pathLookup w p with
  | some (.file c) => intro h; exact ⟨c, rfl⟩
  | some (.dir es) => intro h; simp at h
  | some .other => intro h; simp at h
  | none => intro h; simp at h

theorem isfile_of_openFile {w : World} {p : Pth} {c : Content}
    (h : openFile w p = some c) : isfile w p = true := by
  unfold openFile at h
  unfold isfile
  revert h
  match pathLookup w p with
  | some (.file c0) => intro h; rfl
  | some (.dir es) => intro h; simp at h
  | some .other => intro h; simp at h
  | none => intro h; simp at h

theorem exists?_of_openFile {w : World} {p : Pth} {c : Content}
    (h : openFile w p = some c) : exists? w p = true :=
  exists?_of_isfile (isfile_of_openFile h)

theorem openFile_some_pathLookup {w : World} {p : Pth} {c : Content}
    (h : openFile w p = some c) : pathLookup w p = some (.file c) := by
  unfold openFile at h
  revert h
  match pathLookup w p with
  | some (.file c0) => intro h; rw [Option.some.inj h]
  | some (.dir es) => intro h; simp at h
  | some .other => intro h; simp at h
  | none => intro h; simp at h

theorem eval_ok_add_elim {w : World} {a b : Pth}
    (h : evaluateFileStatus w a b = .ok .Add) : exists? w a = false := by
  unfold evaluateFileStatus at h
  by_cases h1 : exists? w a = true
  · rw [if_pos h1] at h
    exfalso
    by_cases h2 : exists? w b = true
    · rw [if_pos h2] at h
      match hid : isIdentical w a b with
      | .ok true => rw [hid] at h; exact absurd (Except.ok.inj h) (by simp)
      | .ok false => rw [hid] at h; exact absurd (Except.ok.inj h) (by simp)
      | .error e => rw [hid] at h; exact absurd h (by simp)
    · rw [if_neg h2] at h
      exact absurd (Except.ok.inj h) (by simp)
  · exact eq_false_of_ne_true h1

theorem eval_ok_delete_elim {w : World} {a b : Pth}
    (h : evaluateFileStatus w a b = .ok .Delete) :
    exists? w a = true ∧ exists? w b = false := by
  unfold evaluateFileStatus at h
  by_cases h1 : exists? w a = true
  · rw [if_pos h1] at h
    refine ⟨h1, ?_⟩
    by_cases h2 : exists? w b = true
    · rw [if_pos h2] at h
      exfalso
      match hid : isIdentical w a b with
      | .ok true => rw [hid] at h; exact absurd (Except.ok.inj h) (by simp)
      | .ok false => rw [hid] at h; exact absurd (Except.ok.inj h) (by simp)
      | .error e => rw [hid] at h; exact absurd h (by simp)
    · exact eq_false_of_ne_true h2
  · rw [if_neg h1] at h
    exact absurd (Except.ok.inj h) (by simp)

theorem eval_ok_unchanged_elim {w : World} {a b : Pth}
    (h : evaluateFileStatus w a b = .ok .Unchanged) :
    exists? w a = true ∧ exists? w b = true ∧
      isIdentical w a b = .ok true := by
  unfold evaluateFileStatus at h
  by_cases h1 : exists? w a = true
  · rw [if_pos h1] at h
    by_cases h2 : exists? w b = true
    · rw [if_pos h2] at h
      refine ⟨h1, h2, ?_⟩
      match hid : isIdentical w a b with
      | .ok true => rfl
      | .ok false =>
        rw [hid] at h
        exact absurd (Except.ok.inj h) (by simp)
      | .error e => rw [hid] at h; exact absurd h (by simp)
    · rw [if_neg h2] at h
      exact absurd (Except.ok.inj h) (by simp)
  · rw [if_neg h1] at h
    exact absurd (Except.ok.inj h) (by simp)

theorem eval_ok_edit_elim {w : World} {a b : Pth}
    (h : evaluateFileStatus w a b = .ok .Edit) :
    exists? w a = true ∧ exists? w b = true ∧
      isIdentical w a b = .ok false := by
  unfold evaluateFileStatus at h
  by_cases h1 : exists? w a = true
  · rw [if_pos h1] at h
    by_cases h2 : exists? w b = true
    · rw [if_pos h2] at h
      refine ⟨h1, h2, ?_⟩
      match hid : isIdentical w a b with
      | .ok false => rfl
      | .ok true =>
        rw [hid] at h
        exact absurd (Except.ok.inj h) (by simp)
      | .error e => rw [hid] at h; exact absurd h (by simp)
    · rw [if_neg h2] at h
      exact absurd (Except.ok.inj h) (by simp)
  · rw [if_neg h1] at h
    exact absurd (Except.ok.inj h) (by simp)

theorem eval_unchanged_intro {w : World} {a b : Pth}
    (ha : exists? w a = true) (hb : exists? w b = true)
    (hid : isIdentical w a b = .ok true) :
    evaluateFileStatus w a b = .ok .Unchanged := by
  unfold evaluateFileStatus
  rw [if_pos ha, if_pos hb, hid]

theorem isIdentical_ok_elim {w : World} {a b : Pth} {bv : Bool}
    (h : isIdentical w a b = .ok bv) :
    ∃ ca cb, openFile w a = some ca ∧ openFile w b = some cb := by
  unfold isIdentical at h
  revert h
  match openFile w a, openFile w b with
  | some ca, some cb => intro h; exact ⟨ca, cb, rfl, rfl⟩
  | some ca, none => intro h; simp at h
  | none, some cb => intro h; simp at h
  | none, none => intro h; simp at h

theorem isIdentical_same_text {w : World} {a b : Pth} {t : String}
    (ha : openFile w a = some (.text t)) (hb : openFile w b = some (.text t)) :
    isIdentical w a b = .ok true := by
  unfold isIdentical
  rw [ha, hb]
  simp

/-- Every regular file of the tree holds decodable text. -/
inductive FSText : FSNode → Prop where
  | file (s : String) : FSText (.file (.text s))
  | dir (es : List (String × FSNode)) (hch : ∀ e ∈ es, FSText e.2) :
      FSText (.dir es)
  | other : FSText .other

def FSTextO (o : Option FSNode) : Prop :=
  ∀ n, o = some n → FSText n

theorem FSText_lookupName {es : List (String × FSNode)} {s : String}
    {n : FSNode} (h : FSText (.dir es)) (hl : lookupName es s = some n) :
    FSText n := by
  cases h with
  | dir es hch => exact hch (s, n) (lookupName_mem hl)

theorem FSTextO_lookupRel {obj : Option FSNode} {p : Pth} {x : FSNode}
    (htx : FSTextO obj) (h : lookupRel obj p = some x) : FSText x := by
  induction p generalizing obj with
  | nil => rw [lookupRel_nil] at h; exact htx x h
  | cons s rest ih =>
    match obj with
    | none => simp [lookupRel] at h
    | some (.file c) => simp [lookupRel] at h
    | some .other => simp [lookupRel] at h
    | some (.dir es) =>
      have h' : lookupRel (lookupName es s) rest = some x := h
      refine ih ?_ h'
      intro n hn
      exact FSText_lookupName (htx _ rfl) hn

/-- A file opened under the target root of a text-only world holds
text. -/
theorem openFile_tgt_text {w : World} (hd : RootsDisjoint w)
    (htx : FSTextO w.tgtObj) {q : Pth} {c : Content}
    (h : openFile w (w.tgt ++ q) = some c) : ∃ t, c = .text t := by
  have hp := openFile_some_pathLookup h
  rw [pathLookup_tgt hd] at hp
  have := FSTextO_lookupRel htx hp
  cases this with
  | file s => exact ⟨s, rfl⟩


/-- C4 (amended): over disjoint wellformed roots whose trees hold only
decodable text files, committing a completed diff tree with a non-empty
workspace and changelist and no backend failure, then re-running `diff`,
yields a tree in which every `QDepotItem` carries status `Unchanged`. -/
theorem claim4_commit_then_diff_unchanged
    (w : World) (hd : RootsDisjoint w) (hwf : WorldWf w)
    (_htxs : FSTextO w.srcObj) (htxt : FSTextO w.tgtObj)
    (client changelist : String)
    (hc : client.isEmpty = false) (hl : changelist.isEmpty = false)
    (m1 : Model) (hdiff1 : diff w [] = .ok m1)
    (w' : World) (ops : List P4Op)
    (hcommit : commit w m1 client changelist = .ok w' ops)
    (m2 : Model) (hdiff2 : diff w' [] = .ok m2) :
    ∀ top ∈ m2, ∀ r d, d ∈ nodesAtPath r top →
      ∀ sp tp st, d.kind = .depot sp tp st → st = .Unchanged := by
  rw [commit, hc, hl] at hcommit
  simp only [Bool.false_or, Bool.false_eq_true, if_false] at hcommit
  rcases diff_ok_cover hd hwf hdiff1 with hm1nil |
    ⟨top1, hm1, hGood1, hsdir, htdir, hcover1⟩
  · rw [hm1nil] at hcommit
    simp [walkM, topLevelItem] at hcommit
  subst hm1
  have htop1 : topLevelItem [top1] = some top1 := rfl
  simp only [walkM, htop1, Option.map_some'] at hcommit
  have hitems : ∀ n ∈ walkAux [top1], ∃ pos tq,
      top1.getAt pos = some n ∧ top1.textPathAt pos = some tq := by
    intro n hn
    obtain ⟨n0, hn0, pos, hg⟩ := (mem_walkAux n [top1]).mp hn
    have hn0t : n0 = top1 := by simpa using hn0
    subst hn0t
    obtain ⟨tq, htq⟩ := textPathAt_isSome_of_getAt hg
    exact ⟨pos, tq, hg, htq⟩
  have hform : ∀ n ∈ walkAux [top1], ∀ sp tp st, n.kind = .depot sp tp st →
      ∃ r, r ≠ [] ∧ sp = w.src ++ r ∧ tp = w.tgt ++ r ∧
        evaluateFileStatus w sp tp = .ok st := by
    intro n hn sp tp st hk
    obtain ⟨pos, tq, hg, htq⟩ := hitems n hn
    have hko := (Good.sub hGood1 hg htq).kindOk
    rw [hk] at hko
    obtain ⟨hsp, htp, hev, _, _, hne⟩ := hko
    exact ⟨tq, by simpa using hne, by simpa using hsp, by simpa using htp,
      hev⟩
  have hrelmem : ∀ n ∈ walkAux [top1], ∀ r1 st1, relOf w n r1 st1 →
      n ∈ nodesAtPath r1 top1 := by
    intro n hn r1 st1 hrel
    obtain ⟨pos, tq, hg, htq⟩ := hitems n hn
    have hko := (Good.sub hGood1 hg htq).kindOk
    rw [(hrel : n.kind = _)] at hko
    obtain ⟨hsp, _, _, _, _, _⟩ := hko
    have hr1 : r1 = tq := by
      have h2 := List.append_cancel_left hsp
      simpa using h2
    rw [hr1]
    exact pos_mem_nodesAtPath hg htq
  have hnpre : ∀ n1 ∈ walkAux [top1], ∀ n2 ∈ walkAux [top1],
      ∀ r1 st1 r2 st2, relOf w n1 r1 st1 → relOf w n2 r2 st2 →
      ¬∃ x, x ≠ [] ∧ r2 = r1 ++ x := by
    rintro n1 hn1 n2 hn2 r1 st1 r2 st2 hrel1 hrel2 ⟨x, hx, hr2⟩
    have hmem1 := hrelmem n1 hn1 r1 st1 hrel1
    have hmem2 := hrelmem n2 hn2 r2 st2 hrel2
    rw [hr2] at hmem2
    exact depot_rel_not_prefix hGood1 hmem1 (hrel1 : n1.kind = _) hx hmem2
  obtain ⟨hw1, hw2, hw3, hw4, hw5, hP1, hP2⟩ := commitItems_fs w hd
    (walkAux [top1]) w w' ops rfl rfl hsdir hwf.1 hcommit hform hnpre
  have hTgtP : ∀ q, pathLookup w' (w.tgt ++ q) = pathLookup w (w.tgt ++ q) :=
    fun q => pathLookup_tgt_eq hd hw1 hw2 hw3 q
  have hTgtO : ∀ q, openFile w' (w.tgt ++ q) = openFile w (w.tgt ++ q) :=
    fun q => by rw [openFile_eq_fileAtO, openFile_eq_fileAtO, hTgtP q]
  have hTgtF : ∀ q, isfile w' (w.tgt ++ q) = isfile w (w.tgt ++ q) := by
    intro q
    unfold isfile
    rw [hTgtP q]
  have hTgtD : ∀ q, isdir w' (w.tgt ++ q) = isdir w (w.tgt ++ q) := by
    intro q
    rw [isdir_eq_dirAtO, isdir_eq_dirAtO, hTgtP q]
  have hTgtE : ∀ q, exists? w' (w.tgt ++ q) = exists? w (w.tgt ++ q) := by
    intro q
    rw [exists?_eq_isSome, exists?_eq_isSome, hTgtP q]
  have hd' : RootsDisjoint w' :=
    ⟨by rw [hw1, hw2]; exact hd.1, by rw [hw1, hw2]; exact hd.2⟩
  have hwf' : WorldWf w' := ⟨hw5, by rw [hw3]; exact hwf.2⟩
  rcases diff_ok_cover hd' hwf' hdiff2 with hm2nil |
    ⟨top2, hm2, hGood2, _, _, _⟩
  · intro top htop
    rw [hm2nil] at htop
    simp at htop
  intro top htop r d hdmem sp tp st hkd
  have htopeq : top = top2 := by
    rw [hm2] at htop
    simpa using htop
  subst htopeq
  obtain ⟨pos, hg, htq⟩ := mem_nodesAtPath_pos hdmem
  have hko := (Good.sub hGood2 hg htq).kindOk
  rw [hkd] at hko
  obtain ⟨hsp, htp, hev2, hfile2, hpyc2, hne2⟩ := hko
  have hrne : r ≠ [] := by simpa using hne2
  have hsp' : sp = w.src ++ r := by
    rw [hsp, hw1]
    simp
  have htp' : tp = w.tgt ++ r := by
    rw [htp, hw2]
    simp
  subst hsp'
  subst htp'
  have hpyc : (filename r).endsWith ".pyc" = false := by
    rw [filename_append hrne] at hpyc2
    exact hpyc2
  by_cases hex1 : ∃ d1 st1, d1 ∈ nodesAtPath r top1 ∧ relOf w d1 r st1
  · obtain ⟨d1, st1, hd1mem, hrel1⟩ := hex1
    obtain ⟨pos1, hg1, htq1⟩ := mem_nodesAtPath_pos hd1mem
    have hd1item : d1 ∈ walkAux [top1] :=
      (mem_walkAux d1 [top1]).mpr ⟨top1, by simp, pos1, hg1⟩
    obtain ⟨pp1, pp2, pp3⟩ := hP2 d1 hd1item r st1 hrel1
    have hko1 := (Good.sub hGood1 hg1 htq1).kindOk
    rw [(hrel1 : d1.kind = _)] at hko1
    obtain ⟨_, _, hev1, hfile1, _, _⟩ := hko1
    cases st1 with
    | Unchanged =>
      obtain ⟨hexs, hext, hid1⟩ := eval_ok_unchanged_elim hev1
      have h1 := pp3 rfl
      have hid2 : isIdentical w' (w.src ++ r) (w.tgt ++ r) = .ok true := by
        unfold isIdentical at hid1 ⊢
        rw [h1, hTgtO r]
        exact hid1
      obtain ⟨ca, cb, hca, hcb⟩ := isIdentical_ok_elim hid1
      have hca' : openFile w' (w.src ++ r) = some ca := by
        rw [h1]
        exact hca
      have heq := eval_unchanged_intro (exists?_of_openFile hca')
        (by rw [hTgtE r]; exact hext) hid2
      exact status_det hev2 heq
    | Edit =>
      obtain ⟨hexs, hext, hid1⟩ := eval_ok_edit_elim hev1
      obtain ⟨ca, cb, hca, hcb⟩ := isIdentical_ok_elim hid1
      obtain ⟨t, hct⟩ := openFile_tgt_text hd htxt hcb
      subst hct
      have h1 : openFile w' (w.src ++ r) = some (.text t) := by
        rw [pp1 (.inl rfl)]
        exact hcb
      have h2 : openFile w' (w.tgt ++ r) = some (.text t) := by
        rw [hTgtO r]
        exact hcb
      have heq := eval_unchanged_intro (exists?_of_openFile h1)
        (exists?_of_openFile h2) (isIdentical_same_text h1 h2)
      exact status_det hev2 heq
    | Add =>
      have hmiss := eval_ok_add_elim hev1
      have hfsrc : isfile w (w.src ++ r) = false := by
        cases hfs : isfile w (w.src ++ r) with
        | false => rfl
        | true =>
          have h2 := exists?_of_isfile hfs
          rw [hmiss] at h2
          exact absurd h2 (by simp)
      have hft : isfile w (w.tgt ++ r) = true := by
        rcases hfile1 with hfx | hfx
        · rw [hfx] at hfsrc
          exact absurd hfsrc (by simp)
        · exact hfx
      obtain ⟨cb, hcb⟩ := openFile_of_isfile hft
      obtain ⟨t, hct⟩ := openFile_tgt_text hd htxt hcb
      subst hct
      have h1 : openFile w' (w.src ++ r) = some (.text t) := by
        rw [pp1 (.inr rfl)]
        exact hcb
      have h2 : openFile w' (w.tgt ++ r) = some (.text t) := by
        rw [hTgtO r]
        exact hcb
      have heq := eval_unchanged_intro (exists?_of_openFile h1)
        (exists?_of_openFile h2) (isIdentical_same_text h1 h2)
      exact status_det hev2 heq
    | Delete =>
      exfalso
      have hgone := pp2 rfl
      obtain ⟨_, hbmiss⟩ := eval_ok_delete_elim hev1
      rcases hfile2 with hf | hf
      · have h2 := exists?_of_isfile hf
        rw [hgone] at h2
        exact absurd h2 (by simp)
      · have h2 : isfile w (w.tgt ++ r) = true := by
          rw [← hTgtF r]
          exact hf
        have h3 := exists?_of_isfile h2
        rw [hbmiss] at h3
        exact absurd h3 (by simp)
  · have hno : ∀ n ∈ walkAux [top1], ∀ st', relOf w n r st' → False := by
      intro n hn st' hrel
      exact hex1 ⟨n, st', hrelmem n hn r st' hrel, hrel⟩
    obtain ⟨q1, q2, q3⟩ := hP1 r hno
    exfalso
    rcases hfile2 with hf | hf
    · obtain ⟨c0, hc0⟩ := openFile_of_isfile hf
      have hc0w : openFile w (w.src ++ r) = some c0 := by
        rw [← q1]
        exact hc0
      have hfw : isfile w (w.src ++ r) = true := isfile_of_openFile hc0w
      obtain ⟨d1, hd1⟩ := hcover1 r (.inl hfw) hpyc
      obtain ⟨pos1, hg1, htq1⟩ := mem_nodesAtPath_pos hd1
      have hGd1 := Good.sub hGood1 hg1 htq1
      match hk1 : d1.kind with
      | .depot sp1 tp1 st1 =>
        have hko1 := hGd1.kindOk
        rw [hk1] at hko1
        obtain ⟨hsp1, htp1, _, _, _, _⟩ := hko1
        refine hex1 ⟨d1, st1, hd1, ?_⟩
        unfold relOf
        rw [hk1, hsp1, htp1]
        simp
      | .plain =>
        have hko1 := hGd1.kindOk
        rw [hk1] at hko1
        rcases hko1 with hh | hh | hh
        · exact hrne (by simpa using hh)
        · exact isfile_isdir_exclusive hfw (by simpa using hh)
        · have hdt : isdir w' (w.tgt ++ r) = true := by
            rw [hTgtD r]
            simpa using hh
          have herr := eval_error_dir_right hf hdt
          rw [hev2] at herr
          exact absurd herr (by simp)
    · have hftw : isfile w (w.tgt ++ r) = true := by
        rw [← hTgtF r]
        exact hf
      obtain ⟨d1, hd1⟩ := hcover1 r (.inr hftw) hpyc
      obtain ⟨pos1, hg1, htq1⟩ := mem_nodesAtPath_pos hd1
      have hGd1 := Good.sub hGood1 hg1 htq1
      match hk1 : d1.kind with
      | .depot sp1 tp1 st1 =>
        have hko1 := hGd1.kindOk
        rw [hk1] at hko1
        obtain ⟨hsp1, htp1, _, _, _, _⟩ := hko1
        refine hex1 ⟨d1, st1, hd1, ?_⟩
        unfold relOf
        rw [hk1, hsp1, htp1]
        simp
      | .plain =>
        have hko1 := hGd1.kindOk
        rw [hk1] at hko1
        rcases hko1 with hh | hh | hh
        · exact hrne (by simpa using hh)
        · have hds' : isdir w' (w.src ++ r) = true := q2 (by simpa using hh)
          have herr := eval_error_dir_left hds'
            (by rw [hTgtE r]; exact exists?_of_isfile hftw)
          rw [hev2] at herr
          exact absurd herr (by simp)
        · exact isfile_isdir_exclusive hftw (by simpa using hh)


/-- A world whose two sides hold the same binary file `a`. -/
def wC4 : World :=
  ⟨["s"], ["t"],
    some (.dir [("a", .file .binary)]),
    some (.dir [("a", .file .binary)])⟩

/-- The tree `diff` builds for `wC4`: one folder row and one depot item
with status `Edit` (binary contents always compare different). -/
def mC4 : Model :=
  [Node.mk "s" .plain [Node.mk "a" (.depot ["s", "a"] ["t", "a"] .Edit) []]]

theorem diff_wC4 : diff wC4 [] = .ok mC4 := by
  have hpyc : ("a" : String).endsWith ".pyc" = false := by decide
  simp [diff, addDirectoryItem, dirStep_eq, addEntries, addFileItem_eq,
    findChildByPath, topLevelItem, resolveAux, findIdxByText, findChildByName,
    makePathRelative, isSourceFile, prefixSeg, relpathSeg, stripRoot,
    evaluateFileStatus, exists?, pathLookup, lookupRel, lookupName,
    isIdentical, openFile, appendAtM, Node.appendAt, getAtM, Node.getAt,
    filename, BuildRes.model, wC4, mC4, hpyc, Node.children, Node.text,
    Node.kind, List.find?]

theorem commit_wC4 : commit wC4 mC4 "ws" "cl" =
    .ok wC4 [.edit ["s", "a"], .copy ["t", "a"] ["s", "a"]] := by
  have h1 : ("ws" : String).isEmpty = false := by decide
  have h2 : ("cl" : String).isEmpty = false := by decide
  simp [commit, walkM, topLevelItem, mC4, walkAux, commitItems, Node.kind,
    Node.children, openFile, pathLookup, stripRoot, lookupRel, lookupName,
    wC4, writeFileW, writeEntries, replaceName, consOps, consOp, List.find?,
    h1, h2]

/-- Counterexample to C4 as stated: on a pair of roots holding one
identical binary file, the whole `diff` → `commit` (all backend calls
succeed) → `diff` round trip completes, yet the re-diffed tree's file
node still carries status `Edit` — the copied binary file never
compares equal, so the tree is not a fixed point. -/
theorem claim4_counterexample :
    ∃ m1 w1 ops m2,
      diff wC4 [] = .ok m1 ∧
      commit wC4 m1 "ws" "cl" = .ok w1 ops ∧
      diff w1 [] = .ok m2 ∧
      ∃ top d, topLevelItem m2 = some top ∧ d ∈ nodesAtPath ["a"] top ∧
        d.kind = .depot ["s", "a"] ["t", "a"] .Edit ∧
        QFileStatus.Edit ≠ QFileStatus.Unchanged := by
  refine ⟨mC4, wC4, [.edit ["s", "a"], .copy ["t", "a"] ["s", "a"]], mC4,
    diff_wC4, commit_wC4, diff_wC4,
    Node.mk "s" .plain [Node.mk "a" (.depot ["s", "a"] ["t", "a"] .Edit) []],
    Node.mk "a" (.depot ["s", "a"] ["t", "a"] .Edit) [], rfl, ?_, rfl,
    by decide⟩
  simp [nodesAtPath, Node.children, Node.text, Node.kind]

/-- The model `diff` builds for `wEx1` (text files `x` vs `y`). -/
def mEx4a : Model :=
  [Node.mk "s" .plain [Node.mk "a" (.depot ["s", "a"] ["t", "a"] .Edit) []]]

/-- The world after committing that tree: the target file has been
copied over the source file. -/
def wEx4b : World :=
  ⟨["s"], ["t"],
    some (.dir [("a", .file (.text "y"))]),
    some (.dir [("a", .file (.text "y"))])⟩

/-- The model of the re-run `diff`: the file now compares identical. -/
def mEx4c : Model :=
  [Node.mk "s" .plain
    [Node.mk "a" (.depot ["s", "a"] ["t", "a"] .Unchanged) []]]

theorem diff_wEx1 : diff wEx1 [] = .ok mEx4a := by
  have hpyc : ("a" : String).endsWith ".pyc" = false := by decide
  simp [diff, addDirectoryItem, dirStep_eq, addEntries, addFileItem_eq,
    findChildByPath, topLevelItem, resolveAux, findIdxByText, findChildByName,
    makePathRelative, isSourceFile, prefixSeg, relpathSeg, stripRoot,
    evaluateFileStatus, exists?, pathLookup, lookupRel, lookupName,
    isIdentical, openFile, appendAtM, Node.appendAt, getAtM, Node.getAt,
    filename, BuildRes.model, wEx1, mEx4a, hpyc, Node.children, Node.text,
    Node.kind, List.find?, removeEscapeChars, escapeChar]

theorem commit_wEx1 : commit wEx1 mEx4a "ws" "cl" =
    .ok wEx4b [.edit ["s", "a"], .copy ["t", "a"] ["s", "a"]] := by
  have h1 : ("ws" : String).isEmpty = false := by decide
  have h2 : ("cl" : String).isEmpty = false := by decide
  simp [commit, walkM, topLevelItem, mEx4a, walkAux, commitItems, Node.kind,
    Node.children, openFile, pathLookup, stripRoot, lookupRel, lookupName,
    wEx1, wEx4b, writeFileW, writeEntries, replaceName, consOps, consOp,
    List.find?, h1, h2]

theorem diff_wEx4b : diff wEx4b [] = .ok mEx4c := by
  have hpyc : ("a" : String).endsWith ".pyc" = false := by decide
  simp [diff, addDirectoryItem, dirStep_eq, addEntries, addFileItem_eq,
    findChildByPath, topLevelItem, resolveAux, findIdxByText, findChildByName,
    makePathRelative, isSourceFile, prefixSeg, relpathSeg, stripRoot,
    evaluateFileStatus, exists?, pathLookup, lookupRel, lookupName,
    isIdentical, openFile, appendAtM, Node.appendAt, getAtM, Node.getAt,
    filename, BuildRes.model, wEx4b, mEx4c, hpyc, Node.children, Node.text,
    Node.kind, List.find?, removeEscapeChars, escapeChar]

theorem wEx1_text_src : FSTextO wEx1.srcObj := by
  intro n hn
  have h1 : FSNode.dir [("a", .file (.text "x"))] = n := Option.some.inj hn
  rw [← h1]
  refine FSText.dir _ ?_
  intro e he
  have h2 : e = ("a", FSNode.file (.text "x")) := by simpa using he
  rw [h2]
  exact FSText.file "x"

theorem wEx1_text_tgt : FSTextO wEx1.tgtObj := by
  intro n hn
  have h1 : FSNode.dir [("a", .file (.text "y"))] = n := Option.some.inj hn
  rw [← h1]
  refine FSText.dir _ ?_
  intro e he
  have h2 : e = ("a", FSNode.file (.text "y")) := by simpa using he
  rw [h2]
  exact FSText.file "y"

/-- Witness for the amended C4 at a concrete input: source `x`, target
`y`; the committed copy makes the re-diffed tree all-`Unchanged`. -/
theorem claim4_witness :
    ∃ m1 w1 ops m2,
      diff wEx1 [] = .ok m1 ∧
      commit wEx1 m1 "ws" "cl" = .ok w1 ops ∧
      diff w1 [] = .ok m2 ∧
      ∀ top ∈ m2, ∀ r d, d ∈ nodesAtPath r top →
        ∀ sp tp st, d.kind = .depot sp tp st → st = .Unchanged := by
  refine ⟨mEx4a, wEx4b, [.edit ["s", "a"], .copy ["t", "a"] ["s", "a"]],
    mEx4c, diff_wEx1, commit_wEx1, diff_wEx4b, ?_⟩
  exact claim4_commit_then_diff_unchanged wEx1 ⟨rfl, rfl⟩ wEx1_wf
    wEx1_text_src wEx1_text_tgt "ws" "cl" (by decide) (by decide)
    mEx4a diff_wEx1 wEx4b [.edit ["s", "a"], .copy ["t", "a"] ["s", "a"]]
    commit_wEx1 mEx4c diff_wEx4b

end P4ckageMerger
